import Mathlib

/-!
# hawkneo/utils — fixed-point decimal arithmetic

Shallow embedding of `math/round.go`, `math/bit.go`, `math/bigint/bigint.go`,
`math/bigint/round.go`, `math/decimal/decimal.go`, `math/decimal/round.go`,
`math/decimal/bit_len.go` and `math/decimal/marshal.go`.

Conventions of the embedding

* `*big.Int` is `Option Int`: `none` is the nil pointer, `some v` a pointer to
  the integer `v`.  Go's `big.Int` is unbounded, and so is `Int`.  An `Int` is a
  `big.Int` as the arithmetic of `math/big` returns it.  `GobDecode` can also
  leave a zero with the sign flag set, which `Int` cannot hold: `Big.Raw` and
  `RawDecimal` keep the sign flag and the magnitude apart and follow that value
  through `UnmarshalBinary`, `String`, `StripTrailingZeros` and `Cmp`.
* Go's `int` is a 64-bit machine integer.  It is an `Int` here, and additions
  and subtractions that can leave the 64-bit range are wrapped by `toInt64`.
* A function that can panic returns `Option`: `none` is the panic (nil
  dereference, slice index out of range, division by zero, explicit `panic`).
* Go strings are `List Char` (valid UTF-8 text); `len` is the UTF-8 byte length.
-/

namespace Utils

/-! ## Machine integers and the `math/big` primitives the code calls -/

/-- Two's-complement wrap of an integer into the range of Go's 64-bit `int`. -/
def toInt64 (x : Int) : Int :=
  (x + 9223372036854775808) % 18446744073709551616 - 9223372036854775808

namespace Big

/-- Go `(*big.Int).Quo`: truncated division; division by zero panics. -/
def Quo (x y : Int) : Option Int :=
  if y = 0 then none else some (Int.tdiv x y)

/-- Go `(*big.Int).QuoRem`: truncated quotient and remainder; division by zero
panics. -/
def QuoRem (x y : Int) : Option (Int × Int) :=
  if y = 0 then none else some (Int.tdiv x y, Int.tmod x y)

/-- Go `(*big.Int).Sign`. -/
def Sign (x : Int) : Int :=
  if x < 0 then -1 else if x = 0 then 0 else 1

/-- Go `(*big.Int).Cmp`. -/
def Cmp (x y : Int) : Int :=
  if x < y then -1 else if x = y then 0 else 1

/-- Go `(*big.Int).Bit(0)`: the lowest bit of the two's-complement form. -/
def Bit0 (x : Int) : Int :=
  x % 2

end Big

/-! ## `math/round.go` -/

/-- The seven constants of `math.RoundingMode`, in `iota` order.  The type has
no other value, so the `default: panic("invalid rounding mode")` arm of the Go
switches has no counterpart here. -/
inductive RoundingMode where
  | RoundDown
  | RoundUp
  | RoundCeiling
  | RoundHalfUp
  | RoundHalfDown
  | RoundHalfEven
  | RoundUnnecessary
  deriving DecidableEq, Repr

/-! ## `math/decimal/decimal.go`: data model -/

/-- Constant `MaxPrecision`. -/
def MaxPrecision : Int := 128

/-- Go `type Decimal struct { i *big.Int; prec int }`. -/
structure Decimal where
  i : Option Int
  prec : Int
  deriving DecidableEq, Repr

/-- The table `precisionMultipliers`, filled by `init` with `10^i` for
`i = 0 .. MaxPrecision`; indexing outside the slice panics. -/
def precisionMultipliers (k : Int) : Option Int :=
  if 0 ≤ k ∧ k ≤ MaxPrecision then some (10 ^ k.toNat) else none

namespace Decimal

/-- Go `Decimal.Sign`: `d.i.Sign()`; a nil `i` panics. -/
def Sign (d : Decimal) : Option Int :=
  d.i.map Big.Sign

/-- Go `Decimal.IsNil`. -/
def IsNil (d : Decimal) : Bool :=
  d.i.isNone

/-- Go `Decimal.IsNegative`: `d.Sign() < 0`. -/
def IsNegative (d : Decimal) : Option Bool :=
  d.Sign.map (fun s => decide (s < 0))

/-- Go `Decimal.Neg`. -/
def Neg (d : Decimal) : Option Decimal :=
  d.i.map (fun x => ⟨some (-x), d.prec⟩)

/-! ## `math/decimal/round.go` -/

/-- Go `Decimal.roundDown`. -/
def roundDown (d : Decimal) : Option Decimal :=
  d.i.bind fun x =>
  (precisionMultipliers d.prec).bind fun m =>
  (Big.Quo x m).bind fun value =>
  some ⟨some value, d.prec⟩

/-- Lines 84-96 of `roundUp`: the path below the `IsNegative` guard. -/
def roundUpTail (d : Decimal) : Option Decimal :=
  d.i.bind fun x =>
  (precisionMultipliers d.prec).bind fun m =>
  (Big.QuoRem x m).bind fun (quo, rem) =>
  if Big.Sign rem = 0 then some ⟨some quo, d.prec⟩
  else some ⟨some (quo + 1), d.prec⟩

/-- Go `Decimal.roundUp`.  The recursive call is on `d.Neg()` of a negative
`d`, which is positive and so runs the path below the guard. -/
def roundUp (d : Decimal) : Option Decimal :=
  d.IsNegative.bind fun neg =>
  if neg then
    d.Neg.bind fun abs =>
    abs.roundUpTail.bind fun abs =>
    abs.Neg
  else d.roundUpTail

/-- Go `Decimal.roundCeiling`. -/
def roundCeiling (d : Decimal) : Option Decimal :=
  d.IsNegative.bind fun neg =>
  if neg then d.roundDown else d.roundUp

/-- Lines 116-129 of `roundHalfUp`: the path below the two guards. -/
def roundHalfUpTail (d : Decimal) : Option Decimal :=
  d.i.bind fun x =>
  (precisionMultipliers d.prec).bind fun m =>
  (Big.QuoRem x m).bind fun (quo, rem) =>
  (precisionMultipliers (d.prec - 1)).bind fun m1 =>
  let fivePrecision := 5 * m1
  let cmp := Big.Cmp rem fivePrecision
  if cmp < 0 then some ⟨some quo, d.prec⟩
  else some ⟨some (quo + 1), d.prec⟩

/-- Go `Decimal.roundHalfUp`.  The recursive call is on `d.Neg()` of a negative
`d` with `d.prec ≠ 0`; it passes both guards. -/
def roundHalfUp (d : Decimal) : Option Decimal :=
  if d.prec = 0 then some d
  else
    d.IsNegative.bind fun neg =>
    if neg then
      d.Neg.bind fun abs =>
      abs.roundHalfUpTail.bind fun abs =>
      abs.Neg
    else d.roundHalfUpTail

/-- Lines 143-156 of `roundHalfDown`: the path below the two guards. -/
def roundHalfDownTail (d : Decimal) : Option Decimal :=
  d.i.bind fun x =>
  (precisionMultipliers d.prec).bind fun m =>
  (Big.QuoRem x m).bind fun (quo, rem) =>
  (precisionMultipliers (d.prec - 1)).bind fun m1 =>
  let fivePrecision := 5 * m1
  let cmp := Big.Cmp rem fivePrecision
  if cmp ≤ 0 then some ⟨some quo, d.prec⟩
  else some ⟨some (quo + 1), d.prec⟩

/-- Go `Decimal.roundHalfDown`. -/
def roundHalfDown (d : Decimal) : Option Decimal :=
  if d.prec = 0 then some d
  else
    d.IsNegative.bind fun neg =>
    if neg then
      d.Neg.bind fun abs =>
      abs.roundHalfDownTail.bind fun abs =>
      abs.Neg
    else d.roundHalfDownTail

/-- Lines 170-200 of `roundHalfEven`: the path below the two guards. -/
def roundHalfEvenTail (d : Decimal) : Option Decimal :=
  d.i.bind fun x =>
  (precisionMultipliers d.prec).bind fun m =>
  (Big.QuoRem x m).bind fun (quo, rem) =>
  (precisionMultipliers (d.prec - 1)).bind fun m1 =>
  let fivePrecision := 5 * m1
  let cmp := Big.Cmp rem fivePrecision
  if cmp < 0 then some ⟨some quo, d.prec⟩
  else if cmp > 0 then some ⟨some (quo + 1), d.prec⟩
  else if Big.Bit0 quo = 0 then some ⟨some quo, d.prec⟩
  else some ⟨some (quo + 1), d.prec⟩

/-- Go `Decimal.roundHalfEven`. -/
def roundHalfEven (d : Decimal) : Option Decimal :=
  if d.prec = 0 then some d
  else
    d.IsNegative.bind fun neg =>
    if neg then
      d.Neg.bind fun abs =>
      abs.roundHalfEvenTail.bind fun abs =>
      abs.Neg
    else d.roundHalfEvenTail

/-- Lines 211-218 of `roundUnnecessary`: the path below the guard. -/
def roundUnnecessaryTail (d : Decimal) : Option Decimal :=
  d.i.bind fun x =>
  (precisionMultipliers d.prec).bind fun m =>
  (Big.QuoRem x m).bind fun (quo, rem) =>
  if Big.Sign rem ≠ 0 then none
  else some ⟨some quo, d.prec⟩

/-- Go `Decimal.roundUnnecessary`; `none` is `panic("expected 0 remainder")`
(or a nil or index panic). -/
def roundUnnecessary (d : Decimal) : Option Decimal :=
  d.IsNegative.bind fun neg =>
  if neg then
    d.Neg.bind fun abs =>
    abs.roundUnnecessaryTail.bind fun abs =>
    abs.Neg
  else d.roundUnnecessaryTail

/-- Go `Decimal.round`. -/
def round (d : Decimal) (mode : RoundingMode) : Option Decimal :=
  match mode with
  | .RoundDown => d.roundDown
  | .RoundUp => d.roundUp
  | .RoundCeiling => d.roundCeiling
  | .RoundHalfUp => d.roundHalfUp
  | .RoundHalfDown => d.roundHalfDown
  | .RoundHalfEven => d.roundHalfEven
  | .RoundUnnecessary => d.roundUnnecessary

/-! ## `math/decimal/decimal.go`: rescaling and arithmetic -/

/-- Go `Decimal.Rescale`. -/
def Rescale (d : Decimal) (prec : Int) (roundingMode : RoundingMode) : Option Decimal :=
  if d.prec = prec then some d
  else
    let diff := toInt64 (d.prec - prec)
    if diff < 0 then
      (precisionMultipliers (toInt64 (-diff))).bind fun m =>
      d.i.bind fun x =>
      some ⟨some (x * m), prec⟩
    else
      (Decimal.round ⟨d.i, diff⟩ roundingMode).bind fun roundedDecimal =>
      some ⟨roundedDecimal.i, prec⟩

/-- Go `Decimal.RescaleDown`. -/
def RescaleDown (d : Decimal) (prec : Int) : Option Decimal :=
  d.Rescale prec .RoundDown

/-- Go `rescalePair`; `max` is the helper at the end of `decimal.go`. -/
def rescalePair (d1 d2 : Decimal) : Option (Decimal × Decimal × Int) :=
  let maxPrec := if d1.prec > d2.prec then d1.prec else d2.prec
  (d1.RescaleDown maxPrec).bind fun rescaledD1 =>
  (d2.RescaleDown maxPrec).bind fun rescaledD2 =>
  some (rescaledD1, rescaledD2, maxPrec)

/-- Go `Decimal.Add`. -/
def Add (d d2 : Decimal) : Option Decimal :=
  (rescalePair d d2).bind fun (d1, d2, maxPrec) =>
  d1.i.bind fun x =>
  d2.i.bind fun y =>
  some ⟨some (x + y), maxPrec⟩

/-- Go `Decimal.Sub`. -/
def Sub (d d2 : Decimal) : Option Decimal :=
  (rescalePair d d2).bind fun (d1, d2, maxPrec) =>
  d1.i.bind fun x =>
  d2.i.bind fun y =>
  some ⟨some (x - y), maxPrec⟩

/-- Go `Decimal.Mul`. -/
def Mul (d d2 : Decimal) (roundingMode : RoundingMode) : Option Decimal :=
  (rescalePair d d2).bind fun (d1, d2, maxPrec) =>
  d1.i.bind fun x =>
  d2.i.bind fun y =>
  Decimal.round ⟨some (x * y), maxPrec⟩ roundingMode

end Decimal

/-! ## Go strings, byte slices and the standard-library calls of the codecs -/

/-- Number of bytes of the UTF-8 encoding of a character. -/
def utf8Len (c : Char) : Nat :=
  if c.toNat < 128 then 1 else if c.toNat < 2048 then 2 else if c.toNat < 65536 then 3 else 4

/-- Go `len(s)` for a string: its length in bytes. -/
def len (s : List Char) : Int :=
  ((s.map utf8Len).sum : Nat)

/-- Go `unicode.IsSpace`. -/
def isSpace (c : Char) : Bool :=
  let n := c.toNat
  (9 ≤ n && n ≤ 13) || n = 32 || n = 133 || n = 160 || n = 5760 ||
    (8192 ≤ n && n ≤ 8202) || n = 8232 || n = 8233 || n = 8239 || n = 8287 || n = 12288

/-- Go `strings.TrimSpace`. -/
def TrimSpace (s : List Char) : List Char :=
  (s.dropWhile isSpace).rdropWhile isSpace

/-- Go `strings.IndexAny(s, chars)`; `none` stands for the result `-1`, and a
position is counted in characters (it is only used to slice `s` there). -/
def IndexAny : List Char → List Char → Option Nat
  | [], _ => none
  | c :: cs, chars =>
    if c ∈ chars then some 0 else (IndexAny cs chars).map (· + 1)

/-- Go `strings.Split(s, sep)` for a one-character separator. -/
def Split (sep : Char) : List Char → List (List Char)
  | [] => [[]]
  | c :: cs =>
    if c = sep then [] :: Split sep cs
    else
      match Split sep cs with
      | [] => [[c]]
      | piece :: pieces => (c :: piece) :: pieces

/-- Test `'0' <= c && c <= '9'`. -/
def isDigit (c : Char) : Bool :=
  48 ≤ c.toNat && c.toNat ≤ 57

/-- Value `c - '0'` of an ASCII decimal digit. -/
def digitValue (c : Char) : Nat :=
  c.toNat - 48

/-- The ASCII character of a decimal digit. -/
def digitChar (d : Nat) : Char :=
  Char.ofNat (d + 48)

/-- Digits of `n` in base `b`, most significant first, in front of `acc`; the
first argument bounds the number of steps. -/
def toDigitsAux (b : Nat) : Nat → Nat → List Nat → List Nat
  | 0, _, acc => acc
  | fuel + 1, n, acc =>
    if n = 0 then acc else toDigitsAux b fuel (n / b) (n % b :: acc)

/-- Digits of `n` in base `b`, most significant first; empty for zero. -/
def toDigits (b n : Nat) : List Nat :=
  toDigitsAux b n n []

/-- Value of a list of base-`b` digits, most significant first. -/
def ofDigits (b : Nat) (l : List Nat) : Nat :=
  l.foldl (fun acc d => d + b * acc) 0

namespace Big

/-- Decimal text of a natural number (`nat.itoa`): `"0"` for zero. -/
def natString (n : Nat) : List Char :=
  if n = 0 then ['0'] else (toDigits 10 n).map digitChar

/-- Go `(*big.Int).String` and `MarshalText` of a non-nil integer. -/
def String (x : Int) : List Char :=
  if x < 0 then '-' :: natString x.natAbs else natString x.natAbs

/-- Digits accepted by `nat.scan` in base 10: at least one, all decimal. -/
def scanDigits (s : List Char) : Option Nat :=
  if s = [] ∨ ¬ s.all isDigit then none
  else some (ofDigits 10 (s.map digitValue))

/-- Go `(*big.Int).SetString(s, 10)`: an optional sign, then one or more
decimal digits, then the end of the text; `none` is the result `ok = false`. -/
def SetString (s : List Char) : Option Int :=
  match s with
  | [] => none
  | c :: cs =>
    if c = '-' then (scanDigits cs).map (fun (n : Nat) => -(n : Int))
    else if c = '+' then (scanDigits cs).map (fun (n : Nat) => (n : Int))
    else (scanDigits s).map (fun (n : Nat) => (n : Int))

/-- Go `nat.bytes`: big-endian bytes without leading zero. -/
def natBytes (n : Nat) : List Nat :=
  toDigits 256 n

/-- Go `nat.setBytes`. -/
def setBytes (buf : List Nat) : Nat :=
  ofDigits 256 buf

/-- Go `(*big.Int).GobEncode` of a non-nil integer: a byte holding the version
(1) and the sign bit, then the magnitude. -/
def GobEncode (x : Int) : List Nat :=
  (2 + (if x < 0 then 1 else 0)) :: natBytes x.natAbs

/-- Go `(*big.Int).GobDecode`; `none` is the error for an unsupported version.
This is the integer the decoded value stands for; `Big.Raw.GobDecode` below
keeps the sign flag of a zero magnitude. -/
def GobDecode (buf : List Nat) : Option Int :=
  match buf with
  | [] => some 0
  | b :: rest =>
    if b / 2 ≠ 1 then none
    else if b % 2 ≠ 0 then some (-(setBytes rest : Int))
    else some (setBytes rest : Int)

end Big

deriving instance DecidableEq for Except

/-- The two errors of `strconv.ParseInt`. -/
inductive NumError where
  | ErrSyntax
  | ErrRange
  deriving DecidableEq, Repr

/-- Loop of Go `strconv.ParseUint(s, 10, 32)` over the bytes of `s`, with the
running value `n`. -/
def parseUintLoop : List Char → Nat → Except NumError Nat
  | [], n => .ok n
  | c :: cs, n =>
    if ¬ isDigit c then .error .ErrSyntax
    else
      let d := digitValue c
      if n ≥ 18446744073709551615 / 10 + 1 then .error .ErrRange
      else
        let n1 := n * 10 + d
        if n1 > 4294967295 then .error .ErrRange
        else parseUintLoop cs n1

/-- Go `strconv.ParseUint(s, 10, 32)`. -/
def ParseUint (s : List Char) : Except NumError Nat :=
  if s = [] then .error .ErrSyntax else parseUintLoop s 0

/-- Go `strconv.ParseInt(s, 10, 32)`. -/
def ParseInt (s : List Char) : Except NumError Int :=
  match s with
  | [] => .error .ErrSyntax
  | c :: cs =>
    let neg := decide (c = '-')
    let s1 := if c = '+' ∨ c = '-' then cs else s
    match ParseUint s1 with
    | .error e => .error e
    | .ok un =>
      if ¬ neg ∧ un ≥ 2147483648 then .error .ErrRange
      else if neg ∧ un > 2147483648 then .error .ErrRange
      else .ok (if neg then -(un : Int) else (un : Int))

/-- Go `binary.BigEndian.PutUint32` of `uint32(x)`. -/
def PutUint32 (x : Int) : List Nat :=
  let u := (x % 4294967296).toNat
  [u / 16777216 % 256, u / 65536 % 256, u / 256 % 256, u % 256]

/-- Go `binary.BigEndian.Uint32` of a four-byte slice. -/
def Uint32 (b0 b1 b2 b3 : Nat) : Nat :=
  b0 * 16777216 + b1 * 65536 + b2 * 256 + b3

/-- Constant `PrecisionFixedSize`. -/
def PrecisionFixedSize : Nat := 4

/-- The error values `NewDecimalFromString` returns. -/
inductive ParseError where
  | emptyString
  | fractionalPartTooLong
  | exponentNotNumeric
  | invalidDecimalString
  | invalidPrecision (got : Int)
  | failedToSet
  deriving DecidableEq, Repr

/-- Loop `for precision < 0` at the end of `NewDecimalFromString`, run `n`
times. -/
def scaleUp : Nat → Int → Int
  | 0, combined => combined
  | n + 1, combined => scaleUp n (combined * 10)

/-- Lines 217-254 of `NewDecimalFromString`: the text after the exponent and
the sign have been removed, the precision the exponent left, and the sign.
The exponent is a 32-bit value, so `precision` stays inside the 64-bit range
and its additions are not wrapped. -/
def parseUnsigned (neg : Bool) (str : List Char) (precision : Int) :
    Except ParseError Decimal :=
  if len str = 0 then .error .emptyString
  else
    let strs := Split '.' str
    let step : Except ParseError (List Char × Int) :=
      match strs with
      | [combinedStr] => .ok (combinedStr, precision)
      | [combinedStr, frac] =>
        let precision := precision + len frac
        if precision = 0 ∨ len combinedStr = 0 then .error .invalidDecimalString
        else .ok (combinedStr ++ frac, precision)
      | _ => .error .invalidDecimalString
    match step with
    | .error e => .error e
    | .ok (combinedStr, precision) =>
      if precision > MaxPrecision then .error (.invalidPrecision precision)
      else
        match Big.SetString combinedStr with
        | none => .error .failedToSet
        | some combined =>
          let combined := if neg then -combined else combined
          if precision < 0 then .ok ⟨some (scaleUp (-precision).toNat combined), 0⟩
          else .ok ⟨some combined, precision⟩

/-- Lines 210-254 of `NewDecimalFromString`: the text after the exponent has
been removed, with the precision the exponent left.  `none` is the panic of
`str[0]` on an empty string. -/
def parseMantissa (str : List Char) (precision : Int) : Option (Except ParseError Decimal) :=
  match str with
  | [] => none
  | c :: cs =>
    if c = '-' then some (parseUnsigned true cs precision)
    else some (parseUnsigned false str precision)

/-- Go `NewDecimalFromString`.  The outer `none` is a panic, `.error` the
returned error, `.ok` the returned Decimal. -/
def NewDecimalFromString (str : List Char) : Option (Except ParseError Decimal) :=
  let str := TrimSpace str
  if len str = 0 then some (.error .emptyString)
  else
    match IndexAny str ['E', 'e'] with
    | none => parseMantissa str 0
    | some eIndex =>
      match ParseInt (str.drop (eIndex + 1)) with
      | .error .ErrRange => some (.error .fractionalPartTooLong)
      | .error .ErrSyntax => some (.error .exponentNotNumeric)
      | .ok expInt => parseMantissa (str.take eIndex) (0 - expInt)

/-- Go `NewFromString`. -/
def NewFromString (str : List Char) : Option (Except ParseError Decimal) :=
  NewDecimalFromString str

namespace Decimal

/-- Go `Decimal.String`.  `none` is the panic when the precision is negative:
`decPointPlace` then exceeds `inputSize`, so `bzInt[:decPointPlace]` is out of
range, and so is `bzStr[decPointPlace]` in a buffer of `inputSize+1` bytes. -/
def String (d : Decimal) : Option (List Char) :=
  match d.i with
  | none => some ['<', 'n', 'i', 'l', '>']
  | some x =>
    if d.prec = 0 then some (Big.String x)
    else
      let isNeg := decide (x < 0)
      let x := if isNeg then -x else x
      let bzInt := Big.String x
      let inputSize : Int := bzInt.length
      let bzStr : Option (List Char) :=
        if inputSize ≤ d.prec then
          some ('0' :: '.' :: (List.replicate (d.prec - inputSize).toNat '0' ++ bzInt))
        else
          let decPointPlace := inputSize - d.prec
          if decPointPlace > inputSize then none
          else some (bzInt.take decPointPlace.toNat ++ '.' :: bzInt.drop decPointPlace.toNat)
      bzStr.map fun bz => if isNeg then '-' :: bz else bz

/-- Error of `UnmarshalBinary`. -/
inductive BinaryError where
  | tooShort
  | gobDecode
  deriving DecidableEq, Repr

/-- Go `Decimal.MarshalBinary`: the returned bytes (`[]` for the nil slice);
`GobEncode` returns no error for a non-nil integer, so neither does this. -/
def MarshalBinary (d : Decimal) : Except BinaryError (List Nat) :=
  match d.i with
  | none => .ok []
  | some x =>
    let precBytes := PutUint32 d.prec
    let intBytes := Big.GobEncode x
    .ok (precBytes ++ intBytes)

/-- Go `(*Decimal).UnmarshalBinary`: the receiver after the call and the
returned error.  The integer is the one the decoded value stands for;
`RawDecimal.UnmarshalBinary` below keeps the sign flag of a zero magnitude. -/
def UnmarshalBinary (d : Decimal) (data : List Nat) : Decimal × Option BinaryError :=
  match data with
  | [] => (⟨some 0, d.prec⟩, none)
  | b0 :: b1 :: b2 :: b3 :: rest =>
    let prec : Int := Uint32 b0 b1 b2 b3
    match Big.GobDecode rest with
    | some x => (⟨some x, prec⟩, none)
    | none => (⟨some 0, prec⟩, some .gobDecode)
  | _ => (d, some .tooShort)

end Decimal

/-! ## `math/bit.go` -/

namespace Big

/-- Go `(*big.Int).BitLen`: the length of the absolute value in bits, 0 for 0. -/
def BitLen (x : Int) : Nat :=
  (toDigits 2 x.natAbs).length

/-- Go `(*big.Int).And`, with two's-complement semantics for negative
operands. -/
def And (x y : Int) : Int :=
  Int.land x y

end Big

/-- Loop of `MostSignificantBit` with the variables `bitLen`, `msb` and the
integer `x` points to; it returns `msb` and that integer.  The first argument
bounds the number of iterations, and `none` stands for a loop that does not
end within the bound. -/
def msbLoop : Nat → Int → Int → Int → Option (Int × Int)
  | 0, bitLen, msb, x => if bitLen > 0 then none else some (msb, x)
  | fuel + 1, bitLen, msb, x =>
    if bitLen > 0 then
      let bitLenHalf := bitLen / 2
      let bitLenHalf := if bitLenHalf * 2 ≠ bitLen then bitLenHalf + 1 else bitLenHalf
      let mask := 2 ^ bitLenHalf.toNat - 1
      if Big.Cmp x mask ≥ 0 then
        msbLoop fuel (bitLen - bitLenHalf) (msb + bitLenHalf) (x / 2 ^ bitLenHalf.toNat)
      else msbLoop fuel bitLenHalf msb x
    else some (msb, x)

/-- Go `math.MostSignificantBit`: the returned `uint` and the value left in the
integer the argument points to (`x.Rsh(x, n)` shifts it in place).  `none` is
the panic for a negative argument. -/
def MostSignificantBit (x : Int) : Option (Int × Int) :=
  if Big.Sign x < 0 then none
  else if Big.Sign x = 0 then some (0, x)
  else
    (msbLoop (Big.BitLen x) (Big.BitLen x) 0 x).bind fun (msb, x) =>
    some ((msb - 1) % 18446744073709551616, x)

/-! ## `math/decimal/bit_len.go` -/

/-- Go `type BitLen struct { bitLen int; limit func(i *big.Int) *big.Int }`. -/
structure BitLen where
  bitLen : Int
  limit : Int → Int

/-- Go `calcMaxUint`. -/
def calcMaxUint (bitLen : Nat) : Int :=
  2 ^ bitLen - 1

/-- Variable `MaxUint128`. -/
def MaxUint128 : Int := calcMaxUint 128

/-- Variable `MaxUint256`. -/
def MaxUint256 : Int := calcMaxUint 256

/-- Variable `tt128`. -/
def tt128 : Int := 2 ^ 128

/-- Variable `tt256`. -/
def tt256 : Int := 2 ^ 256

/-- Go `truncateAdd`. -/
def truncateAdd (i tt mask : Int) : Int :=
  Big.And (i + tt) mask

/-- Variable `Uint128BitLen`. -/
def Uint128BitLen : BitLen :=
  ⟨128, fun i => truncateAdd i tt128 MaxUint128⟩

/-- Variable `Uint256BitLen`. -/
def Uint256BitLen : BitLen :=
  ⟨256, fun i => truncateAdd i tt256 MaxUint256⟩

/-! ## `math/decimal/decimal.go`: constructors, division, powers, roots, logarithm -/

/-- Constant `maxIterations`. -/
def maxIterations : Nat := 300

/-- Go `requirePrecision`. -/
def requirePrecision (prec : Int) : Option Unit :=
  if prec > MaxPrecision then none else some ()

/-- Go `MustFromString`. -/
def MustFromString (str : List Char) : Option Decimal :=
  match NewDecimalFromString str with
  | some (.ok d) => some d
  | _ => none

namespace Decimal

/-- Go `NewFromBigIntWithPrec` of a non-nil integer. -/
def NewFromBigIntWithPrec (value : Int) (precision : Int) : Option Decimal :=
  (requirePrecision precision).bind fun _ =>
  some ⟨some (value * 1), precision⟩

/-- Go `NewFromBigInt`. -/
def NewFromBigInt (value : Int) : Option Decimal :=
  NewFromBigIntWithPrec value 0

/-- Go `New`. -/
def New (value : Int) : Option Decimal :=
  NewFromBigInt value

/-- Go `NewFromUint64`. -/
def NewFromUint64 (value : Int) (precision : Int) : Option Decimal :=
  (requirePrecision precision).bind fun _ =>
  some ⟨some value, precision⟩

/-- Package variable `One = NewDecimal(1)`. -/
def One : Decimal := ⟨some 1, 0⟩

/-- Go `NewWithAppendPrec`; `big.Int.Exp` with an exponent `y <= 0` is 1. -/
def NewWithAppendPrec (value : Int) (prec : Int) : Option Decimal :=
  (NewFromBigIntWithPrec (10 ^ prec.toNat) prec).bind fun t =>
  (New value).bind fun v =>
  t.Mul v .RoundUnnecessary

/-- Go `NewFromUintWithAppendPrec`. -/
def NewFromUintWithAppendPrec (value : Int) (prec : Int) : Option Decimal :=
  (NewFromBigIntWithPrec (10 ^ prec.toNat) prec).bind fun t =>
  (NewFromUint64 value 0).bind fun v =>
  t.Mul v .RoundUnnecessary

/-- Go `Decimal.IsZero`. -/
def IsZero (d : Decimal) : Option Bool :=
  d.Sign.map (fun s => decide (s = 0))

/-- Go `Decimal.Abs`. -/
def Abs (d : Decimal) : Option Decimal :=
  d.IsNegative.bind fun neg =>
  if neg then d.Neg else some d

/-- Go `Decimal.Cmp`: `d1.i.Cmp(d2.i)` after `rescalePair`.  `(*big.Int).Cmp`
first tests `x == y` on the pointers, so two nil integers compare as 0 without
being read; a nil integer against a non-nil one is a nil dereference. -/
def Cmp (d d2 : Decimal) : Option Int :=
  (rescalePair d d2).bind fun (d1, d2, _) =>
  match d1.i, d2.i with
  | none, none => some 0
  | some x, some y => some (Big.Cmp x y)
  | _, _ => none

/-- Go `Decimal.Equal`. -/
def Equal (d d2 : Decimal) : Option Bool :=
  (d.Cmp d2).map (fun c => decide (c = 0))

/-- Go `Decimal.GTE`. -/
def GTE (d d2 : Decimal) : Option Bool :=
  (d.Cmp d2).map (fun c => decide (c ≥ 0))

/-- Go `Decimal.Remainder`. -/
def Remainder (d : Decimal) : Option (Int × Int) :=
  d.i.bind fun x =>
  (precisionMultipliers d.prec).bind fun m =>
  Big.QuoRem x m

/-- Go `Decimal.UnsignedAdd` for a non-nil `bitLen`. -/
def UnsignedAdd (d d2 : Decimal) (bitLen : BitLen) : Option Decimal :=
  (d.Add d2).bind fun result =>
  result.i.bind fun x =>
  some ⟨some (bitLen.limit x), result.prec⟩

/-- Go `Decimal.UnsignedSub` for a non-nil `bitLen`. -/
def UnsignedSub (d d2 : Decimal) (bitLen : BitLen) : Option Decimal :=
  (d.Sub d2).bind fun result =>
  result.i.bind fun x =>
  some ⟨some (bitLen.limit x), result.prec⟩

/-- Go `Decimal.Quo`. -/
def Quo (d d2 : Decimal) (roundingMode : RoundingMode) : Option Decimal :=
  if d.prec = 0 ∧ d2.prec = 0 then
    (d.RescaleDown 1).bind fun d1 =>
    (d2.RescaleDown 1).bind fun d2 =>
    (precisionMultipliers 1).bind fun m =>
    d1.i.bind fun x =>
    d2.i.bind fun y =>
    let d1Twice := x * m
    let d1Twice := d1Twice * m
    (Big.Quo d1Twice y).bind fun q =>
    Decimal.Rescale ⟨some q, 1 * 2⟩ 0 roundingMode
  else
    (rescalePair d d2).bind fun (d1, d2, maxPrec) =>
    (precisionMultipliers maxPrec).bind fun m =>
    d1.i.bind fun x =>
    d2.i.bind fun y =>
    let d1Twice := x * m
    let d1Twice := d1Twice * m
    (Big.Quo d1Twice y).bind fun q =>
    Decimal.round ⟨some q, maxPrec⟩ roundingMode

/-- Go `Decimal.QuoDown`. -/
def QuoDown (d d2 : Decimal) : Option Decimal :=
  d.Quo d2 .RoundDown

/-- Loop `for i := power; i > 1` of `Power`, with the variables `i`, `tmp` and
`resultD`.  The first argument bounds the number of iterations: `i` is halved
each time and is a 64-bit integer, so 64 is never reached. -/
def powerLoop : Nat → Int → Decimal → Decimal → Option (Decimal × Decimal)
  | 0, i, tmp, resultD => if i > 1 then none else some (tmp, resultD)
  | fuel + 1, i, tmp, resultD =>
    if i > 1 then
      (if i % 2 ≠ 0 then tmp.Mul resultD .RoundHalfEven else some tmp).bind fun tmp =>
      (resultD.Mul resultD .RoundHalfEven).bind fun resultD =>
      powerLoop fuel (i / 2) tmp resultD
    else some (tmp, resultD)

/-- Lines 436-444 of `Power`: a positive power. -/
def powerTail (d : Decimal) (power : Int) : Option Decimal :=
  (NewWithAppendPrec 1 d.prec).bind fun tmp =>
  (powerLoop 64 power tmp d).bind fun (tmp, resultD) =>
  resultD.Mul tmp .RoundHalfEven

/-- Go `Decimal.Power`.  The recursive call is on `-power` for a negative
`power`; it is positive and runs lines 436-444, unless `power` is the least
64-bit integer: then `-power` is `power` again and the recursion does not end,
which is `none` here like a panic.  The recursion exhausts the stack, which a
deferred `recover` does not catch: `approxRootLoop`, whose caller recovers
panics, tests for this exponent before it calls `Power`. -/
def Power (d : Decimal) (power : Int) : Option Decimal :=
  if power = 0 then One.Rescale d.prec .RoundUnnecessary
  else if power < 0 then
    if toInt64 (-power) < 0 then none
    else
      (d.powerTail (toInt64 (-power))).bind fun r =>
      One.Quo r .RoundUp
  else d.powerTail power

/-- Error of `ApproxRoot`: the value a recovered panic is turned into. -/
inductive RootError where
  | recovered
  deriving DecidableEq, Repr

/-- How the body of `ApproxRoot` ends: it returns `guess`; or it panics, which
the deferred `recover` turns into an error; or the endless recursion of
`Power` on the least 64-bit integer exhausts the stack, a fatal error that
`recover` does not catch. -/
inductive RootRun where
  | returned (guess : Decimal)
  | panicked
  | overflowed
  deriving DecidableEq, Repr

/-- Loop of `ApproxRoot`, with the variables `guess` and `delta`; the first
argument is `maxIterations - iter`. -/
def approxRootLoop (d : Decimal) (root : Int) : Nat → Decimal → Decimal → RootRun
  | 0, guess, delta =>
    match delta.Abs.bind fun a => a.i with
    | none => .panicked
    | some _ => .returned guess
  | fuel + 1, guess, delta =>
    match delta.Abs.bind fun a => a.i with
    | none => .panicked
    | some ai =>
      if Big.Cmp ai 1 > 0 then
        if toInt64 (root - 1) = -9223372036854775808 then .overflowed
        else
          let body : Option (Decimal × Decimal) :=
            (guess.Power (toInt64 (root - 1))).bind fun prev =>
            prev.IsZero.bind fun z =>
            let prev := if z then One else prev
            (d.Quo prev .RoundHalfEven).bind fun delta =>
            (delta.Sub guess).bind fun delta =>
            delta.i.bind fun di =>
            (Big.Quo di root).bind fun quo =>
            let delta : Decimal := ⟨some quo, d.prec⟩
            (guess.Add delta).bind fun guess =>
            some (guess, delta)
          match body with
          | none => .panicked
          | some (guess, delta) => approxRootLoop d root fuel guess delta
      else .returned guess

/-- Lines 469-494 of `ApproxRoot`: the path below the `IsNegative` guard. -/
def approxRootTail (d : Decimal) (root : Int) : RootRun :=
  if root = 1 then .returned d
  else
    match d.IsZero with
    | none => .panicked
    | some z =>
      if z then .returned d
      else
        match d.Equal One with
        | none => .panicked
        | some e =>
          if e then .returned d
          else if root = 0 then
            match One.Rescale d.prec .RoundUnnecessary with
            | none => .panicked
            | some r => .returned r
          else
            match NewWithAppendPrec 1 d.prec with
            | none => .panicked
            | some guess => approxRootLoop d root maxIterations guess guess

/-- Go `Decimal.ApproxRoot`.  `some (.ok guess)` is the returned root;
`some (.error _)` is a panic that was recovered and returned as an error (the
partial `guess` returned next to the error is not modelled); `none` is the
fatal stack exhaustion, after which nothing is returned.  The recursive call is
on `d.Neg()` of a negative `d` and runs the path below the guard. -/
def ApproxRoot (d : Decimal) (root : Int) : Option (Except RootError Decimal) :=
  match d.IsNegative with
  | none => some (.error .recovered)
  | some neg =>
    if neg then
      match d.Neg with
      | none => some (.error .recovered)
      | some a =>
        match approxRootTail a root with
        | .returned absRoot =>
          match absRoot.Neg with
          | none => some (.error .recovered)
          | some r => some (.ok r)
        | .panicked => some (.error .recovered)
        | .overflowed => none
    else
      match approxRootTail d root with
      | .returned guess => some (.ok guess)
      | .panicked => some (.error .recovered)
      | .overflowed => none

/-- Go `Decimal.Sqrt`. -/
def Sqrt (d : Decimal) : Option (Except RootError Decimal) :=
  d.ApproxRoot 2

/-- Loop of `Log2`, with the variables `i`, `resultDec` and `remDec`; the first
argument is `maxIterations - i`. -/
def log2Loop (oneDec twoDec : Decimal) : Nat → Int → Decimal → Decimal → Option Decimal
  | 0, _, resultDec, _ => some resultDec
  | fuel + 1, i, resultDec, remDec =>
    remDec.Sign.bind fun s =>
    if s > 0 then
      (remDec.GTE twoDec).bind fun ge =>
      (if ge then
          (twoDec.Power i).bind fun pw =>
          (oneDec.Quo pw .RoundHalfEven).bind fun term =>
          (resultDec.Add term).bind fun resultDec =>
          (remDec.Quo twoDec .RoundHalfEven).bind fun remDec =>
          some (resultDec, remDec)
        else some (resultDec, remDec)).bind fun (resultDec, remDec) =>
      (remDec.Power 2).bind fun remDec =>
      log2Loop oneDec twoDec fuel (i + 1) resultDec remDec
    else some resultDec

/-- Go `Decimal.Log2`. -/
def Log2 (d : Decimal) : Option Decimal :=
  d.Sign.bind fun s =>
  if s ≤ 0 then none
  else
    (NewWithAppendPrec 1 d.prec).bind fun oneDec =>
    (NewWithAppendPrec 2 d.prec).bind fun twoDec =>
    (d.Cmp oneDec).bind fun c =>
    let lessOne := decide (c < 0)
    let exp := toInt64 (4 * d.prec)
    (if lessOne then
        (New 2).bind fun two =>
        (two.Power exp).bind fun pw =>
        d.Mul pw .RoundHalfEven
      else some d).bind fun copyD =>
    copyD.Remainder.bind fun (intPart, _) =>
    (MostSignificantBit intPart).bind fun (n, _) =>
    (NewFromUintWithAppendPrec n copyD.prec).bind fun resultDec =>
    let int64N := toInt64 n
    if int64N < 0 then none
    else
      (New 2).bind fun two =>
      (two.Power int64N).bind fun pw =>
      (copyD.Quo pw .RoundHalfEven).bind fun remDec =>
      (log2Loop oneDec twoDec maxIterations 0 resultDec remDec).bind fun resultDec =>
      if lessOne then
        (New exp).bind fun e =>
        resultDec.Sub e
      else some resultDec

/-- Loop `for i := len(splits[1]) - 1; i >= 0; i--` of `StripTrailingZeros`:
the index of the last character that is not `'0'` among the first `n`. -/
def lastNotZero (s : List Char) : Nat → Option Nat
  | 0 => none
  | i + 1 => if s.get? i ≠ some '0' then some i else lastNotZero s i

/-- Go `Decimal.StripTrailingZeros`. -/
def StripTrailingZeros (d : Decimal) : Option Decimal :=
  if d.prec = 0 then some d
  else
    d.String.bind fun str =>
    match Split '.' str with
    | s0 :: s1 :: _ =>
      match lastNotZero s1 s1.length with
      | some i =>
        let s1 := s1.take (i + 1)
        if len s1 = 0 then MustFromString s0
        else MustFromString (s0 ++ '.' :: s1)
      | none => MustFromString s0
    | _ => none

/-- Loop `for i := 0; i < len(splits[1]); i++` of `SignificantFigures`: the
index of the first character that is not `'0'`. -/
def firstNotZero : List Char → Option Nat
  | [] => none
  | c :: cs => if c ≠ '0' then some 0 else (firstNotZero cs).map (· + 1)

/-- Go `Decimal.SignificantFigures`; `min` is the helper at the end of
`decimal.go`. -/
def SignificantFigures (d : Decimal) (figures : Int) (roundingMode : RoundingMode) :
    Option Decimal :=
  if figures ≤ 0 then none
  else if d.prec = 0 ∨ d.prec ≤ figures then some d
  else
    d.Abs.bind fun absD =>
    absD.String.bind fun str =>
    match Split '.' str with
    | [] => none
    | s0 :: rest =>
      if s0 ≠ ['0'] then
        let figures := figures - len s0
        let figures := if figures < 0 then 0 else figures
        d.Rescale (if figures < d.prec then figures else d.prec) roundingMode
      else
        match rest with
        | [] => none
        | s1 :: _ =>
          match firstNotZero s1 with
          | some i =>
            let figures := figures + i
            d.Rescale (if figures < d.prec then figures else d.prec) roundingMode
          | none => some d

end Decimal

/-! ## `math/bigint/bigint.go` and `math/bigint/round.go` -/

namespace Big

/-- Go `(*big.Int).Abs`. -/
def Abs (x : Int) : Int :=
  if x < 0 then -x else x

end Big

/-- Go `type BigInt struct { i *big.Int }`. -/
structure BigInt where
  i : Option Int
  deriving DecidableEq, Repr

namespace BigInt

/-- Go `bigint.NewFromBigInt`. -/
def NewFromBigInt (i : Option Int) : BigInt :=
  ⟨i⟩

/-- Go `BigInt.Sign`: `b.i.Sign()`; a nil `i` panics. -/
def Sign (b : BigInt) : Option Int :=
  b.i.map Big.Sign

/-- Go `BigInt.quoDown`. -/
def quoDown (b b2 : BigInt) : Option BigInt :=
  b.i.bind fun x =>
  b2.i.bind fun y =>
  (Big.Quo x y).bind fun q =>
  some (NewFromBigInt (some q))

/-- Go `BigInt.quoUp`. -/
def quoUp (b b2 : BigInt) : Option BigInt :=
  b.i.bind fun x =>
  b2.i.bind fun y =>
  (Big.QuoRem x y).bind fun (quo, rem) =>
  if Big.Sign rem = 0 then some (NewFromBigInt (some quo))
  else
    b.Sign.bind fun s =>
    b2.Sign.bind fun s2 =>
    let isNegative := decide (s ≠ s2)
    let abs := if isNegative then Big.Abs quo else quo
    let i := abs + 1
    let i := if isNegative then -i else i
    some (NewFromBigInt (some i))

/-- Go `BigInt.quoCeiling`. -/
def quoCeiling (b b2 : BigInt) : Option BigInt :=
  b.i.bind fun x =>
  b2.i.bind fun y =>
  (Big.QuoRem x y).bind fun (quo, rem) =>
  if Big.Sign rem = 0 then some (NewFromBigInt (some quo))
  else
    b.Sign.bind fun s =>
    b2.Sign.bind fun s2 =>
    if s = s2 then b.quoUp b2 else b.quoDown b2

/-- Go `BigInt.quoUnnecessary`. -/
def quoUnnecessary (b b2 : BigInt) : Option BigInt :=
  b.i.bind fun x =>
  b2.i.bind fun y =>
  (Big.QuoRem x y).bind fun (quo, rem) =>
  if Big.Sign rem ≠ 0 then none else some (NewFromBigInt (some quo))

/-- Go `BigInt.quo`: the other rounding modes panic. -/
def quo (b b2 : BigInt) (mode : RoundingMode) : Option BigInt :=
  match mode with
  | .RoundDown => b.quoDown b2
  | .RoundUp => b.quoUp b2
  | .RoundCeiling => b.quoCeiling b2
  | .RoundUnnecessary => b.quoUnnecessary b2
  | _ => none

/-- Go `BigInt.Quo`. -/
def Quo (b b2 : BigInt) (roundingMode : RoundingMode) : Option BigInt :=
  b.quo b2 roundingMode

end BigInt

/-! ## `math/decimal/decimal.go`: more constructors and the overflow reports -/

namespace Decimal

/-- Go `NewWithPrec`. -/
def NewWithPrec (value : Int) (prec : Int) : Option Decimal :=
  NewFromBigIntWithPrec value prec

/-- Go `NewFromInt64`. -/
def NewFromInt64 (value : Int) (precision : Int) : Option Decimal :=
  (requirePrecision precision).bind fun _ =>
  some ⟨some value, precision⟩

/-- Go `Decimal.BitLen`: `d.i.BitLen()`; a nil `i` panics. -/
def BitLen (d : Decimal) : Option Int :=
  d.i.map fun x => ((Big.BitLen x : Nat) : Int)

/-- Go `Decimal.UnsignedAddOverflow` for a non-nil `bitLen`. -/
def UnsignedAddOverflow (d d2 : Decimal) (bitLen : Utils.BitLen) : Option (Decimal × Bool) :=
  (d.Add d2).bind fun result =>
  result.BitLen.bind fun n =>
  let overflow := decide (n > bitLen.bitLen)
  result.i.bind fun x =>
  some (⟨some (bitLen.limit x), result.prec⟩, overflow)

/-- Go `Decimal.UnsignedSubOverflow` for a non-nil `bitLen`. -/
def UnsignedSubOverflow (d d2 : Decimal) (bitLen : Utils.BitLen) : Option (Decimal × Bool) :=
  (d.Sub d2).bind fun result =>
  result.BitLen.bind fun n =>
  let overflow := decide (n > bitLen.bitLen)
  result.i.bind fun x =>
  some (⟨some (bitLen.limit x), result.prec⟩, overflow)

/-! ## `math/decimal/marshal.go`: JSON -/

/-- Error of `json.Unmarshal(bz, &text)`: a `*json.UnmarshalTypeError` (the
JSON value is not a string) or any other error. -/
inductive JSONError where
  | unmarshalTypeError
  | other
  deriving DecidableEq, Repr

/-- Error returned by `UnmarshalJSON`. -/
inductive UnmarshalJSONError where
  | json (err : JSONError)
  | parse (err : ParseError)
  deriving DecidableEq, Repr

/-- Go `(*Decimal).UnmarshalJSON`: the receiver after the call and the
returned error; `none` is a panic.  The standard-library call
`json.Unmarshal(bz, &text)` is the parameter `jsonUnmarshal`; `bz` is the text
`string(bz)`. -/
def UnmarshalJSON (jsonUnmarshal : List Char → Except JSONError (List Char)) (d : Decimal)
    (bz : List Char) : Option (Decimal × Option UnmarshalJSONError) :=
  if len bz = len ['n', 'u', 'l', 'l'] ∧ bz = ['n', 'u', 'l', 'l'] then some (d, none)
  else
    let d : Decimal := if d.i = none then ⟨some 0, d.prec⟩ else d
    match jsonUnmarshal bz with
    | .error err =>
      match err with
      | .unmarshalTypeError =>
        (NewFromString bz).bind fun r =>
        match r with
        | .ok dTemp => some (dTemp, none)
        | .error _ => some (d, some (.json err))
      | .other => some (d, some (.json err))
    | .ok text =>
      (NewDecimalFromString text).bind fun r =>
      match r with
      | .error err => some (d, some (.parse err))
      | .ok newDec => some (newDec, none)

end Decimal

/-! ## Integers as `math/big` stores them

`Int` has one zero.  A `big.Int` is a sign flag and a magnitude, and
`GobDecode` copies the sign bit of its input without looking at the magnitude,
so `UnmarshalBinary` can leave a zero with `neg = true` in a Decimal.  The
arithmetic of `math/big` (`Mul`, `Neg`, `Add`, `QuoRem`, `SetString`) never
returns such a value, but `Cmp` tells it apart from the plain zero.  The
definitions below follow the operations on the path of that value through
`UnmarshalBinary`, `String`, `StripTrailingZeros` and `Cmp`. -/

namespace Big

/-- Go `type Int struct { neg bool; abs nat }`. -/
structure Raw where
  neg : Bool
  abs : Nat
  deriving DecidableEq, Repr

namespace Raw

/-- The stored form of an integer that Go arithmetic returned: zero has
`neg = false`. -/
def ofInt (x : Int) : Raw :=
  ⟨decide (x < 0), x.natAbs⟩

/-- The integer a stored value stands for. -/
def toInt (x : Raw) : Int :=
  if x.neg then -(x.abs : Int) else (x.abs : Int)

/-- Go `(*big.Int).Sign`: `len(x.abs) == 0` is tested before `x.neg`. -/
def Sign (x : Raw) : Int :=
  if x.abs = 0 then 0 else if x.neg then -1 else 1

/-- Go `(*big.Int).Neg`: `z.neg = len(z.abs) > 0 && !z.neg`. -/
def Neg (x : Raw) : Raw :=
  ⟨decide (x.abs > 0) && !x.neg, x.abs⟩

/-- Go `nat.cmp`. -/
def natCmp (x y : Nat) : Int :=
  if x < y then -1 else if x = y then 0 else 1

/-- Go `(*big.Int).Cmp` of two non-nil integers: equal signs compare the
magnitudes, different signs decide by `x.neg` alone. -/
def Cmp (x y : Raw) : Int :=
  if x.neg = y.neg then
    let r := natCmp x.abs y.abs
    if x.neg then -r else r
  else if x.neg then -1
  else 1

/-- Go `(*big.Int).String` and `MarshalText` of a non-nil integer:
`x.abs.itoa(x.neg, 10)`, which returns `"0"` for an empty magnitude before it
looks at the sign. -/
def String (x : Raw) : List Char :=
  if x.abs = 0 then ['0']
  else if x.neg then '-' :: natString x.abs
  else natString x.abs

/-- Go `(*big.Int).GobDecode`: `z.neg = b&1 != 0`, `z.abs = setBytes(buf[1:])`;
`none` is the error for an unsupported version. -/
def GobDecode (buf : List Nat) : Option Raw :=
  match buf with
  | [] => some ⟨false, 0⟩
  | b :: rest =>
    if b / 2 ≠ 1 then none
    else some ⟨decide (b % 2 ≠ 0), setBytes rest⟩

end Raw

end Big

/-- Go `type Decimal struct { i *big.Int; prec int }` with the integer in its
stored form. -/
structure RawDecimal where
  i : Option Big.Raw
  prec : Int
  deriving DecidableEq, Repr

namespace RawDecimal

/-- A Decimal whose integer Go arithmetic returned. -/
def ofDecimal (d : Decimal) : RawDecimal :=
  ⟨d.i.map Big.Raw.ofInt, d.prec⟩

/-- The Decimal of the integers the stored values stand for. -/
def toDecimal (d : RawDecimal) : Decimal :=
  ⟨d.i.map Big.Raw.toInt, d.prec⟩

/-- Go `(*Decimal).UnmarshalBinary`: the receiver after the call and the
returned error. -/
def UnmarshalBinary (d : RawDecimal) (data : List Nat) :
    RawDecimal × Option Decimal.BinaryError :=
  match data with
  | [] => (⟨some ⟨false, 0⟩, d.prec⟩, none)
  | b0 :: b1 :: b2 :: b3 :: rest =>
    let prec : Int := Uint32 b0 b1 b2 b3
    match Big.Raw.GobDecode rest with
    | some x => (⟨some x, prec⟩, none)
    | none => (⟨some ⟨false, 0⟩, prec⟩, some .gobDecode)
  | _ => (d, some .tooShort)

/-- Go `Decimal.Sign`. -/
def Sign (d : RawDecimal) : Option Int :=
  d.i.map Big.Raw.Sign

/-- Go `Decimal.IsNegative`. -/
def IsNegative (d : RawDecimal) : Option Bool :=
  d.Sign.map (fun s => decide (s < 0))

/-- Go `Decimal.IsZero`. -/
def IsZero (d : RawDecimal) : Option Bool :=
  d.Sign.map (fun s => decide (s = 0))

/-- Go `Decimal.String`, as `Decimal.String` above. -/
def String (d : RawDecimal) : Option (List Char) :=
  match d.i with
  | none => some ['<', 'n', 'i', 'l', '>']
  | some x =>
    if d.prec = 0 then some (Big.Raw.String x)
    else
      let isNeg := decide (Big.Raw.Sign x < 0)
      let x := if isNeg then Big.Raw.Neg x else x
      let bzInt := Big.Raw.String x
      let inputSize : Int := bzInt.length
      let bzStr : Option (List Char) :=
        if inputSize ≤ d.prec then
          some ('0' :: '.' :: (List.replicate (d.prec - inputSize).toNat '0' ++ bzInt))
        else
          let decPointPlace := inputSize - d.prec
          if decPointPlace > inputSize then none
          else some (bzInt.take decPointPlace.toNat ++ '.' :: bzInt.drop decPointPlace.toNat)
      bzStr.map fun bz => if isNeg then '-' :: bz else bz

/-- Go `Decimal.Rescale`.  An equal precision returns `d` itself, with the
integer as it is stored; the two other branches build a new integer with `Mul`
or with the `QuoRem`, `Add` and `Neg` of `round`, so they are the branches of
`Decimal.Rescale` on the integer the stored value stands for. -/
def Rescale (d : RawDecimal) (prec : Int) (roundingMode : RoundingMode) : Option RawDecimal :=
  if d.prec = prec then some d
  else (d.toDecimal.Rescale prec roundingMode).map ofDecimal

/-- Go `Decimal.RescaleDown`. -/
def RescaleDown (d : RawDecimal) (prec : Int) : Option RawDecimal :=
  d.Rescale prec .RoundDown

/-- Go `rescalePair`. -/
def rescalePair (d1 d2 : RawDecimal) : Option (RawDecimal × RawDecimal × Int) :=
  let maxPrec := if d1.prec > d2.prec then d1.prec else d2.prec
  (d1.RescaleDown maxPrec).bind fun rescaledD1 =>
  (d2.RescaleDown maxPrec).bind fun rescaledD2 =>
  some (rescaledD1, rescaledD2, maxPrec)

/-- Go `Decimal.Cmp`, as `Decimal.Cmp` above. -/
def Cmp (d d2 : RawDecimal) : Option Int :=
  (rescalePair d d2).bind fun (d1, d2, _) =>
  match d1.i, d2.i with
  | none, none => some 0
  | some x, some y => some (Big.Raw.Cmp x y)
  | _, _ => none

/-- Go `Decimal.Equal`. -/
def Equal (d d2 : RawDecimal) : Option Bool :=
  (d.Cmp d2).map (fun c => decide (c = 0))

/-- Go `Decimal.StripTrailingZeros`, as `Decimal.StripTrailingZeros` above;
`MustFromString` returns an integer set by `SetString`. -/
def StripTrailingZeros (d : RawDecimal) : Option RawDecimal :=
  if d.prec = 0 then some d
  else
    d.String.bind fun str =>
    match Split '.' str with
    | s0 :: s1 :: _ =>
      match Decimal.lastNotZero s1 s1.length with
      | some i =>
        let s1 := s1.take (i + 1)
        if len s1 = 0 then (MustFromString s0).map ofDecimal
        else (MustFromString (s0 ++ '.' :: s1)).map ofDecimal
      | none => (MustFromString s0).map ofDecimal
    | _ => none

end RawDecimal

/-! ## Auxiliary facts -/

theorem toInt64_of_mem_range (x : Int) (h1 : -9223372036854775808 ≤ x)
    (h2 : x < 9223372036854775808) : toInt64 x = x := by
  unfold toInt64
  omega

theorem precisionMultipliers_of_mem (k : Int) (h0 : 0 ≤ k) (h1 : k ≤ 128) :
    precisionMultipliers k = some (10 ^ k.toNat) := by
  simp [precisionMultipliers, MaxPrecision, h0, h1]

theorem ten_pow_pos (n : Nat) : (0 : Int) < 10 ^ n := by
  positivity

/-- Rescaling to a smaller precision rounds the unscaled integer at the
difference of the two precisions. -/
theorem Rescale_lower (v p t : Int) (mode : RoundingMode) (h0 : 0 ≤ t) (h1 : t < p)
    (h2 : p ≤ 256) :
    Decimal.Rescale ⟨some v, p⟩ t mode
      = (Decimal.round ⟨some v, p - t⟩ mode).bind fun r => some ⟨r.i, t⟩ := by
  have hne : ¬ p = t := by omega
  have hw : toInt64 (p - t) = p - t := toInt64_of_mem_range _ (by omega) (by omega)
  have hd : ¬ p - t < 0 := by omega
  simp [Decimal.Rescale, hne, hw, hd]

/-- Rescaling to a larger or equal precision multiplies by a power of ten. -/
theorem Rescale_raise (v p t : Int) (mode : RoundingMode) (hp : 0 ≤ p) (h1 : p ≤ t)
    (h2 : t ≤ 128) :
    Decimal.Rescale ⟨some v, p⟩ t mode = some ⟨some (v * 10 ^ (t - p).toNat), t⟩ := by
  by_cases he : p = t
  · subst he
    simp [Decimal.Rescale]
  · have hw : toInt64 (p - t) = p - t := toInt64_of_mem_range _ (by omega) (by omega)
    have hd : p - t < 0 := by omega
    have hw2 : toInt64 (t - p) = t - p := toInt64_of_mem_range _ (by omega) (by omega)
    have hm := precisionMultipliers_of_mem (t - p) (by omega) (by omega)
    simp [Decimal.Rescale, he, hw, hd, hw2, hm]

theorem Big.Sign_neg_iff (x : Int) : Big.Sign x < 0 ↔ x < 0 := by
  unfold Big.Sign
  split_ifs <;> simp <;> omega

theorem Big.Sign_eq_zero_iff (x : Int) : Big.Sign x = 0 ↔ x = 0 := by
  unfold Big.Sign
  split_ifs <;> simp <;> omega

theorem Big.Cmp_neg_iff (x y : Int) : Big.Cmp x y < 0 ↔ x < y := by
  unfold Big.Cmp
  split_ifs <;> simp <;> omega

theorem Big.Cmp_pos_iff (x y : Int) : 0 < Big.Cmp x y ↔ y < x := by
  unfold Big.Cmp
  split_ifs <;> simp <;> omega

theorem Big.Cmp_nonpos_iff (x y : Int) : Big.Cmp x y ≤ 0 ↔ x ≤ y := by
  unfold Big.Cmp
  split_ifs <;> simp <;> omega

theorem IsNegative_some (v k : Int) :
    Decimal.IsNegative ⟨some v, k⟩ = some (decide (v < 0)) := by
  simp [Decimal.IsNegative, Decimal.Sign, Big.Sign_neg_iff]

theorem QuoRem_of_nonneg (x m : Int) (hx : 0 ≤ x) (hm : 0 < m) :
    Big.QuoRem x m = some (x / m, x % m) := by
  have hne : m ≠ 0 := by omega
  simp [Big.QuoRem, hne, Int.tdiv_eq_ediv hx hm.le, Int.tmod_eq_emod hx hm.le]

/-- Closed form of `roundUp` on a valid precision. -/
theorem roundUp_eval (v k : Int) (h0 : 0 ≤ k) (h1 : k ≤ 128) :
    Decimal.roundUp ⟨some v, k⟩
      = some ⟨some (v.sign * (if |v| % 10 ^ k.toNat = 0 then |v| / 10 ^ k.toNat
          else |v| / 10 ^ k.toNat + 1)), k⟩ := by
  have hm := precisionMultipliers_of_mem k h0 h1
  have hpos := ten_pow_pos k.toNat
  rcases lt_trichotomy v 0 with hv | hv | hv
  · have hq := QuoRem_of_nonneg (-v) _ (by omega) hpos
    have habs : |v| = -v := abs_of_neg hv
    simp only [Decimal.roundUp, IsNegative_some, Decimal.Neg, Decimal.roundUpTail, hm, hq,
      Big.Sign_eq_zero_iff, habs, Int.sign_eq_neg_one_of_neg hv, hv, decide_True,
      Option.some_bind, Option.map_some', if_true]
    split_ifs <;> simp [Decimal.Neg]
  · subst hv
    simp [Decimal.roundUp, IsNegative_some, Decimal.roundUpTail, hm, Big.QuoRem, Big.Sign, hpos.ne']
  · have hq := QuoRem_of_nonneg v _ hv.le hpos
    have habs : |v| = v := abs_of_pos hv
    have hnn : ¬ v < 0 := by omega
    simp only [Decimal.roundUp, IsNegative_some, Decimal.roundUpTail, hm, hq,
      Big.Sign_eq_zero_iff, habs, Int.sign_eq_one_of_pos hv, hnn, decide_False,
      Option.some_bind, one_mul, Bool.false_eq_true, if_false]
    split_ifs <;> rfl

/-- Closed form of `roundHalfUp` on a valid non-zero precision. -/
theorem roundHalfUp_eval (v k : Int) (h0 : 1 ≤ k) (h1 : k ≤ 128) :
    Decimal.roundHalfUp ⟨some v, k⟩
      = some ⟨some (v.sign * (if |v| % 10 ^ k.toNat < 5 * 10 ^ (k - 1).toNat then |v| / 10 ^ k.toNat
          else |v| / 10 ^ k.toNat + 1)), k⟩ := by
  have hm := precisionMultipliers_of_mem k (by omega) h1
  have hm1 := precisionMultipliers_of_mem (k - 1) (by omega) (by omega)
  have hpos := ten_pow_pos k.toNat
  have hk : ¬ k = 0 := by omega
  rcases lt_trichotomy v 0 with hv | hv | hv
  · have hq := QuoRem_of_nonneg (-v) _ (by omega) hpos
    have habs : |v| = -v := abs_of_neg hv
    simp only [Decimal.roundHalfUp, IsNegative_some, Decimal.Neg, Decimal.roundHalfUpTail, hm, hm1, hq,
      Big.Cmp_neg_iff, habs, Int.sign_eq_neg_one_of_neg hv, hv, decide_True, hk,
      Option.some_bind, Option.map_some', if_true, if_false]
    split_ifs <;> simp [Decimal.Neg]
  · subst hv
    have h5 : (0 : Int) < 5 * 10 ^ (k - 1).toNat := by positivity
    simp [Decimal.roundHalfUp, IsNegative_some, Decimal.roundHalfUpTail, hm, hm1, Big.QuoRem, Big.Cmp,
      hpos.ne', hk, h5]
  · have hq := QuoRem_of_nonneg v _ hv.le hpos
    have habs : |v| = v := abs_of_pos hv
    have hnn : ¬ v < 0 := by omega
    simp only [Decimal.roundHalfUp, IsNegative_some, Decimal.roundHalfUpTail, hm, hm1, hq,
      Big.Cmp_neg_iff, habs, Int.sign_eq_one_of_pos hv, hnn, decide_False, hk,
      Option.some_bind, one_mul, Bool.false_eq_true, if_false]
    split_ifs <;> rfl

/-- Closed form of `roundHalfDown` on a valid non-zero precision. -/
theorem roundHalfDown_eval (v k : Int) (h0 : 1 ≤ k) (h1 : k ≤ 128) :
    Decimal.roundHalfDown ⟨some v, k⟩
      = some ⟨some (v.sign * (if |v| % 10 ^ k.toNat ≤ 5 * 10 ^ (k - 1).toNat then |v| / 10 ^ k.toNat
          else |v| / 10 ^ k.toNat + 1)), k⟩ := by
  have hm := precisionMultipliers_of_mem k (by omega) h1
  have hm1 := precisionMultipliers_of_mem (k - 1) (by omega) (by omega)
  have hpos := ten_pow_pos k.toNat
  have hk : ¬ k = 0 := by omega
  rcases lt_trichotomy v 0 with hv | hv | hv
  · have hq := QuoRem_of_nonneg (-v) _ (by omega) hpos
    have habs : |v| = -v := abs_of_neg hv
    simp only [Decimal.roundHalfDown, IsNegative_some, Decimal.Neg, Decimal.roundHalfDownTail, hm, hm1, hq,
      Big.Cmp_nonpos_iff, habs, Int.sign_eq_neg_one_of_neg hv, hv, decide_True, hk,
      Option.some_bind, Option.map_some', if_true, if_false]
    split_ifs <;> simp [Decimal.Neg]
  · subst hv
    have h5 : (0 : Int) < 5 * 10 ^ (k - 1).toNat := by positivity
    simp [Decimal.roundHalfDown, IsNegative_some, Decimal.roundHalfDownTail, hm, hm1, Big.QuoRem, Big.Cmp,
      hpos.ne', hk, h5]
  · have hq := QuoRem_of_nonneg v _ hv.le hpos
    have habs : |v| = v := abs_of_pos hv
    have hnn : ¬ v < 0 := by omega
    simp only [Decimal.roundHalfDown, IsNegative_some, Decimal.roundHalfDownTail, hm, hm1, hq,
      Big.Cmp_nonpos_iff, habs, Int.sign_eq_one_of_pos hv, hnn, decide_False, hk,
      Option.some_bind, one_mul, Bool.false_eq_true, if_false]
    split_ifs <;> rfl

/-- Closed form of `roundHalfEven` on a valid non-zero precision. -/
theorem roundHalfEven_eval (v k : Int) (h0 : 1 ≤ k) (h1 : k ≤ 128) :
    Decimal.roundHalfEven ⟨some v, k⟩
      = some ⟨some (v.sign * (if |v| % 10 ^ k.toNat < 5 * 10 ^ (k - 1).toNat then |v| / 10 ^ k.toNat
          else if 5 * 10 ^ (k - 1).toNat < |v| % 10 ^ k.toNat then |v| / 10 ^ k.toNat + 1
          else if |v| / 10 ^ k.toNat % 2 = 0 then |v| / 10 ^ k.toNat
          else |v| / 10 ^ k.toNat + 1)), k⟩ := by
  have hm := precisionMultipliers_of_mem k (by omega) h1
  have hm1 := precisionMultipliers_of_mem (k - 1) (by omega) (by omega)
  have hpos := ten_pow_pos k.toNat
  have hk : ¬ k = 0 := by omega
  rcases lt_trichotomy v 0 with hv | hv | hv
  · have hq := QuoRem_of_nonneg (-v) _ (by omega) hpos
    have habs : |v| = -v := abs_of_neg hv
    simp only [Decimal.roundHalfEven, IsNegative_some, Decimal.Neg, Decimal.roundHalfEvenTail, hm, hm1, hq,
      Big.Cmp_neg_iff, Big.Cmp_pos_iff, gt_iff_lt, Big.Bit0, habs, Int.sign_eq_neg_one_of_neg hv, hv, decide_True, hk,
      Option.some_bind, Option.map_some', if_true, if_false]
    split_ifs <;> simp [Decimal.Neg]
  · subst hv
    have h5 : (0 : Int) < 5 * 10 ^ (k - 1).toNat := by positivity
    simp [Decimal.roundHalfEven, IsNegative_some, Decimal.roundHalfEvenTail, hm, hm1, Big.QuoRem, Big.Cmp,
      hpos.ne', hk, h5]
  · have hq := QuoRem_of_nonneg v _ hv.le hpos
    have habs : |v| = v := abs_of_pos hv
    have hnn : ¬ v < 0 := by omega
    simp only [Decimal.roundHalfEven, IsNegative_some, Decimal.roundHalfEvenTail, hm, hm1, hq,
      Big.Cmp_neg_iff, Big.Cmp_pos_iff, gt_iff_lt, Big.Bit0, habs, Int.sign_eq_one_of_pos hv, hnn, decide_False, hk,
      Option.some_bind, one_mul, Bool.false_eq_true, if_false]
    split_ifs <;> rfl

/-- Closed form of `roundUnnecessary` on a valid precision. -/
theorem roundUnnecessary_eval (v k : Int) (h0 : 0 ≤ k) (h1 : k ≤ 128) :
    Decimal.roundUnnecessary ⟨some v, k⟩
      = if |v| % 10 ^ k.toNat = 0 then some ⟨some (v.sign * (|v| / 10 ^ k.toNat)), k⟩
        else none := by
  have hm := precisionMultipliers_of_mem k h0 h1
  have hpos := ten_pow_pos k.toNat
  rcases lt_trichotomy v 0 with hv | hv | hv
  · have hq := QuoRem_of_nonneg (-v) _ (by omega) hpos
    have habs : |v| = -v := abs_of_neg hv
    simp only [Decimal.roundUnnecessary, IsNegative_some, Decimal.Neg,
      Decimal.roundUnnecessaryTail, hm, hq, ne_eq,
      Big.Sign_eq_zero_iff, habs, Int.sign_eq_neg_one_of_neg hv, hv, decide_True,
      Option.some_bind, Option.map_some', if_true]
    split_ifs <;> simp [Decimal.Neg]
  · subst hv
    simp [Decimal.roundUnnecessary, IsNegative_some, Decimal.roundUnnecessaryTail, hm,
      Big.QuoRem, Big.Sign, hpos.ne']
  · have hq := QuoRem_of_nonneg v _ hv.le hpos
    have habs : |v| = v := abs_of_pos hv
    have hnn : ¬ v < 0 := by omega
    simp only [Decimal.roundUnnecessary, IsNegative_some, Decimal.roundUnnecessaryTail, hm, hq,
      Big.Sign_eq_zero_iff, habs, Int.sign_eq_one_of_pos hv, hnn, decide_False, ne_eq,
      Option.some_bind, one_mul, Bool.false_eq_true, if_false]
    split_ifs <;> rfl

/-- Closed form of `roundDown` on a valid precision. -/
theorem roundDown_eval (v k : Int) (h0 : 0 ≤ k) (h1 : k ≤ 128) :
    Decimal.roundDown ⟨some v, k⟩ = some ⟨some (Int.tdiv v (10 ^ k.toNat)), k⟩ := by
  have hm := precisionMultipliers_of_mem k h0 h1
  have hpos := ten_pow_pos k.toNat
  simp [Decimal.roundDown, hm, Big.Quo, hpos.ne']

theorem ten_pow_eq_two_mul (k : Int) (h0 : 1 ≤ k) :
    (10 : Int) ^ k.toNat = 2 * (5 * 10 ^ (k - 1).toNat) := by
  have hk : k.toNat = (k - 1).toNat + 1 := by omega
  rw [hk, pow_succ]
  ring

theorem abs_tmod_eq (v m : Int) (hm : 0 < m) : |Int.tmod v m| = |v| % m := by
  rcases lt_or_le v 0 with hv | hv
  · have h1 : Int.tmod v m = -(Int.tmod (-v) m) := by
      rw [Int.tmod_def, Int.tmod_def, Int.neg_tdiv]
      ring
    rw [h1, abs_neg, Int.tmod_eq_emod (by omega) hm.le, abs_of_neg hv,
      abs_of_nonneg (Int.emod_nonneg _ hm.ne')]
  · rw [Int.tmod_eq_emod hv hm.le, abs_of_nonneg hv, abs_of_nonneg (Int.emod_nonneg _ hm.ne')]

/-- From the scaled integer bound to the distance between rationals. -/
theorem rat_dist_le_half (r v m : Int) (hm : 0 < m) (h : |2 * (r * m - v)| ≤ m) :
    |(r : ℚ) - (v : ℚ) / (m : ℚ)| ≤ 1 / 2 := by
  have hmq : (0 : ℚ) < (m : ℚ) := by exact_mod_cast hm
  have key : (r : ℚ) - (v : ℚ) / (m : ℚ) = ((r : ℚ) * m - v) / m := by
    field_simp
  have hq : |2 * ((r : ℚ) * m - v)| ≤ (m : ℚ) := by exact_mod_cast h
  rw [abs_mul, abs_two] at hq
  rw [key, abs_div, abs_of_pos hmq, div_le_iff₀ hmq]
  linarith

theorem rat_dist_lt_half (r v m : Int) (hm : 0 < m) (h : |2 * (r * m - v)| < m) :
    |(r : ℚ) - (v : ℚ) / (m : ℚ)| < 1 / 2 := by
  have hmq : (0 : ℚ) < (m : ℚ) := by exact_mod_cast hm
  have key : (r : ℚ) - (v : ℚ) / (m : ℚ) = ((r : ℚ) * m - v) / m := by
    field_simp
  have hq : |2 * ((r : ℚ) * m - v)| < (m : ℚ) := by exact_mod_cast h
  rw [abs_mul, abs_two] at hq
  rw [key, abs_div, abs_of_pos hmq, div_lt_iff₀ hmq]
  linarith


theorem ceil_div_eq (a m : Int) (hm : 0 < m) :
    ⌈(a : ℚ) / (m : ℚ)⌉ = if a % m = 0 then a / m else a / m + 1 := by
  have hmq : (0 : ℚ) < (m : ℚ) := by exact_mod_cast hm
  have hdiv := Int.ediv_add_emod a m
  have hnn := Int.emod_nonneg a hm.ne'
  have hlt := Int.emod_lt_of_pos a hm
  rw [Int.ceil_eq_iff, lt_div_iff₀ hmq, div_le_iff₀ hmq]
  split_ifs with h0
  · constructor
    · have : (a / m - 1) * m < a := by nlinarith
      exact_mod_cast this
    · have : a ≤ (a / m) * m := by nlinarith
      exact_mod_cast this
  · constructor
    · have : (a / m + 1 - 1) * m < a := by
        have : 0 < a % m := by omega
        nlinarith
      exact_mod_cast this
    · have : a ≤ (a / m + 1) * m := by nlinarith
      exact_mod_cast this

theorem abs_emod_eq_zero_iff_dvd (v m : Int) : |v| % m = 0 ↔ m ∣ v := by
  rw [← Int.dvd_iff_emod_eq_zero, dvd_abs]

theorem sign_mul_abs_ediv_of_dvd (v m : Int) (hm : 0 < m) (h : m ∣ v) :
    v.sign * (|v| / m) = v / m := by
  obtain ⟨c, rfl⟩ := h
  rw [abs_mul, abs_of_pos hm, Int.mul_ediv_cancel_left _ hm.ne',
    Int.mul_ediv_cancel_left _ hm.ne', Int.sign_mul, Int.sign_eq_one_of_pos hm, one_mul,
    Int.sign_mul_abs]

theorem rat_abs_div_lt (v r m : Int) (hm : 0 < m) (h : |v| < |r| * m) :
    |(v : ℚ) / (m : ℚ)| < |(r : ℚ)| := by
  have hmq : (0 : ℚ) < (m : ℚ) := by exact_mod_cast hm
  rw [abs_div, abs_of_pos hmq, div_lt_iff₀ hmq]
  exact_mod_cast h

theorem rat_abs_lt_div (v r m : Int) (hm : 0 < m) (h : |r| * m < |v|) :
    |(r : ℚ)| < |(v : ℚ) / (m : ℚ)| := by
  have hmq : (0 : ℚ) < (m : ℚ) := by exact_mod_cast hm
  rw [abs_div, abs_of_pos hmq, lt_div_iff₀ hmq]
  exact_mod_cast h

/-- Scaled rounding error of `sign v * R` when `R` is the lower or the upper
neighbour of `|v| / m` and the remainder is on the matching side of the half. -/
theorem scaled_error_le (v m h R : Int) (hm2 : m = 2 * h) (hh : 0 < h)
    (hR : (R = |v| / m ∧ |v| % m ≤ h) ∨ (R = |v| / m + 1 ∧ h ≤ |v| % m)) :
    |2 * (v.sign * R * m - v)| ≤ m := by
  have hpos : 0 < m := by omega
  have hdiv := Int.ediv_add_emod |v| m
  have hnn := Int.emod_nonneg |v| hpos.ne'
  have hlt := Int.emod_lt_of_pos |v| hpos
  have he : v.sign * R * m - v = v.sign * (R * m - |v|) := by
    nth_rewrite 2 [← Int.sign_mul_abs v]
    ring
  have hX : abs (R * m - |v|) * 2 ≤ m := by
    rcases hR with ⟨rfl, hr⟩ | ⟨rfl, hr⟩
    · have e1 : |v| / m * m - |v| = -(|v| % m) := by linear_combination hdiv
      rw [e1, abs_neg, abs_of_nonneg hnn]
      omega
    · have e1 : (|v| / m + 1) * m - |v| = m - |v| % m := by linear_combination hdiv
      rw [e1, abs_of_nonneg (by omega)]
      omega
  have hs : |v.sign| ≤ 1 := by
    rcases lt_trichotomy v 0 with hv | hv | hv
    · simp [Int.sign_eq_neg_one_of_neg hv]
    · simp [hv]
    · simp [Int.sign_eq_one_of_pos hv]
  rw [he, abs_mul, abs_mul, abs_two]
  have h0 : 0 ≤ abs (R * m - |v|) := abs_nonneg _
  have h1 : 0 ≤ |v.sign| := abs_nonneg _
  nlinarith

theorem scaled_error_lt (v m h R : Int) (hm2 : m = 2 * h) (hh : 0 < h)
    (hR : (R = |v| / m ∧ |v| % m < h) ∨ (R = |v| / m + 1 ∧ h < |v| % m)) :
    |2 * (v.sign * R * m - v)| < m := by
  have hpos : 0 < m := by omega
  have hdiv := Int.ediv_add_emod |v| m
  have hnn := Int.emod_nonneg |v| hpos.ne'
  have hlt := Int.emod_lt_of_pos |v| hpos
  have he : v.sign * R * m - v = v.sign * (R * m - |v|) := by
    nth_rewrite 2 [← Int.sign_mul_abs v]
    ring
  have hX : abs (R * m - |v|) * 2 < m := by
    rcases hR with ⟨rfl, hr⟩ | ⟨rfl, hr⟩
    · have e1 : |v| / m * m - |v| = -(|v| % m) := by linear_combination hdiv
      rw [e1, abs_neg, abs_of_nonneg hnn]
      omega
    · have e1 : (|v| / m + 1) * m - |v| = m - |v| % m := by linear_combination hdiv
      rw [e1, abs_of_nonneg (by omega)]
      omega
  have hs : |v.sign| ≤ 1 := by
    rcases lt_trichotomy v 0 with hv | hv | hv
    · simp [Int.sign_eq_neg_one_of_neg hv]
    · simp [hv]
    · simp [Int.sign_eq_one_of_pos hv]
  rw [he, abs_mul, abs_mul, abs_two]
  have h0 : 0 ≤ abs (R * m - |v|) := abs_nonneg _
  have h1 : 0 ≤ |v.sign| := abs_nonneg _
  nlinarith

theorem max_prec_eq (pa pb : Int) : (if pa > pb then pa else pb) = max pa pb := by
  split_ifs with h
  · exact (max_eq_left (le_of_lt h)).symm
  · exact (max_eq_right (not_lt.mp h)).symm

theorem rescalePair_eval (va vb pa pb : Int) (ha0 : 0 ≤ pa) (ha1 : pa ≤ 128)
    (hb0 : 0 ≤ pb) (hb1 : pb ≤ 128) :
    Decimal.rescalePair ⟨some va, pa⟩ ⟨some vb, pb⟩
      = some (⟨some (va * 10 ^ (max pa pb - pa).toNat), max pa pb⟩,
          ⟨some (vb * 10 ^ (max pa pb - pb).toNat), max pa pb⟩, max pa pb) := by
  have h1 := Rescale_raise va pa (max pa pb) .RoundDown ha0 (le_max_left _ _)
    (max_le ha1 hb1)
  have h2 := Rescale_raise vb pb (max pa pb) .RoundDown hb0 (le_max_right _ _)
    (max_le ha1 hb1)
  simp only [Decimal.rescalePair, Decimal.RescaleDown, max_prec_eq, h1, h2, Option.some_bind]

theorem rat_scale (v p t : Int) (hp : 0 ≤ p) (h : p ≤ t) :
    ((v * 10 ^ (t - p).toNat : Int) : ℚ) / 10 ^ t.toNat = (v : ℚ) / 10 ^ p.toNat := by
  have ht : t.toNat = p.toNat + (t - p).toNat := by omega
  rw [ht, pow_add]
  push_cast
  exact mul_div_mul_right _ _ (by positivity)

theorem roundCeiling_eval (v k : Int) :
    Decimal.roundCeiling ⟨some v, k⟩
      = if v < 0 then Decimal.roundDown ⟨some v, k⟩ else Decimal.roundUp ⟨some v, k⟩ := by
  simp only [Decimal.roundCeiling, IsNegative_some, Option.some_bind, decide_eq_true_eq]

/-- At precision zero every rounding mode returns the integer unchanged. -/
theorem round_zero (v : Int) (mode : RoundingMode) :
    Decimal.round ⟨some v, 0⟩ mode = some ⟨some v, 0⟩ := by
  have hu := roundUp_eval v 0 (le_refl _) (by norm_num)
  have hd := roundDown_eval v 0 (le_refl _) (by norm_num)
  have hn := roundUnnecessary_eval v 0 (le_refl _) (by norm_num)
  simp only [Int.toNat_zero, pow_zero, Int.emod_one, if_true, Int.ediv_one,
    Int.sign_mul_abs, Int.tdiv_one] at hu hd hn
  cases mode
  · exact hd
  · exact hu
  · simp only [Decimal.round, roundCeiling_eval, hd, hu, ite_self]
  · simp [Decimal.round, Decimal.roundHalfUp]
  · simp [Decimal.round, Decimal.roundHalfDown]
  · simp [Decimal.round, Decimal.roundHalfEven]
  · exact hn

/-- On a valid precision `round` keeps the precision, and only
`RoundUnnecessary` can panic. -/
theorem round_shape (v k : Int) (mode : RoundingMode) (h0 : 0 ≤ k) (h1 : k ≤ 128) :
    (∃ r : Int, Decimal.round ⟨some v, k⟩ mode = some ⟨some r, k⟩) ∨
      (mode = .RoundUnnecessary ∧ Decimal.round ⟨some v, k⟩ mode = none) := by
  rcases eq_or_lt_of_le h0 with hk | hk
  · subst hk
    exact Or.inl ⟨v, round_zero v mode⟩
  · have hk1 : 1 ≤ k := by omega
    cases mode
    · exact Or.inl ⟨_, roundDown_eval v k h0 h1⟩
    · exact Or.inl ⟨_, roundUp_eval v k h0 h1⟩
    · simp only [Decimal.round, roundCeiling_eval]
      split_ifs
      · exact Or.inl ⟨_, roundDown_eval v k h0 h1⟩
      · exact Or.inl ⟨_, roundUp_eval v k h0 h1⟩
    · exact Or.inl ⟨_, roundHalfUp_eval v k hk1 h1⟩
    · exact Or.inl ⟨_, roundHalfDown_eval v k hk1 h1⟩
    · exact Or.inl ⟨_, roundHalfEven_eval v k hk1 h1⟩
    · simp only [Decimal.round, roundUnnecessary_eval v k h0 h1]
      split_ifs
      · exact Or.inl ⟨_, rfl⟩
      · exact Or.inr ⟨trivial, rfl⟩

/-- Claim C4: for `0 ≤ t < p ≤ 128`, `Rescale(t, RoundHalfEven)` returns
precision `t` and an unscaled integer `r` nearest to `v / 10^(p-t)` (distance at
most one half); when the discarded part is exactly one half, i.e. the remainder
has magnitude `5 * 10^(p-t-1)`, `r` is even.  Holds for negative `v` too. -/
theorem rescale_RoundHalfEven_nearest_even (v p t : Int) (h0 : 0 ≤ t) (h1 : t < p)
    (h2 : p ≤ 128) :
    ∃ r : Int, Decimal.Rescale ⟨some v, p⟩ t .RoundHalfEven = some ⟨some r, t⟩ ∧
      |(r : ℚ) - (v : ℚ) / ((10 ^ (p - t).toNat : Int) : ℚ)| ≤ 1 / 2 ∧
      (|Int.tmod v (10 ^ (p - t).toNat)| = 5 * 10 ^ (p - t - 1).toNat → Even r) := by
  have hm2 := ten_pow_eq_two_mul (p - t) (by omega)
  have hpos := ten_pow_pos (p - t).toNat
  have h5 : (0 : Int) < 5 * 10 ^ (p - t - 1).toNat := by positivity
  rw [Rescale_lower v p t _ h0 h1 (by omega)]
  simp only [Decimal.round, roundHalfEven_eval v (p - t) (by omega) (by omega),
    Option.some_bind]
  refine ⟨_, rfl, ?_, ?_⟩
  · apply rat_dist_le_half _ _ _ hpos
    apply scaled_error_le v _ _ _ hm2 h5
    split_ifs
    · exact Or.inl ⟨rfl, by omega⟩
    · exact Or.inr ⟨rfl, by omega⟩
    · exact Or.inl ⟨rfl, by omega⟩
    · exact Or.inr ⟨rfl, by omega⟩
  · intro htie
    rw [abs_tmod_eq _ _ hpos] at htie
    have hc1 : ¬ |v| % 10 ^ (p - t).toNat < 5 * 10 ^ (p - t - 1).toNat := by omega
    have hc2 : ¬ 5 * 10 ^ (p - t - 1).toNat < |v| % 10 ^ (p - t).toNat := by omega
    simp only [hc1, hc2, if_false]
    apply Even.mul_left
    split_ifs with he
    · exact Int.even_iff.mpr he
    · exact Int.even_iff.mpr (by omega)

/-- Claim C5: for `0 ≤ t < p ≤ 128`, `Rescale(t, RoundUp)` returns precision
`t` and the unscaled integer `sign(v) * ceil(|v| / 10^(p-t))`: exact when
`10^(p-t)` divides `v`, of strictly larger magnitude otherwise. -/
theorem rescale_RoundUp_away_from_zero (v p t : Int) (h0 : 0 ≤ t) (h1 : t < p)
    (h2 : p ≤ 128) :
    ∃ r : Int, Decimal.Rescale ⟨some v, p⟩ t .RoundUp = some ⟨some r, t⟩ ∧
      r = v.sign * ⌈((|v| : Int) : ℚ) / ((10 ^ (p - t).toNat : Int) : ℚ)⌉ ∧
      ((10 ^ (p - t).toNat : Int) ∣ v → r * 10 ^ (p - t).toNat = v) ∧
      (¬ (10 ^ (p - t).toNat : Int) ∣ v → |v| < |r| * 10 ^ (p - t).toNat) := by
  have hpos := ten_pow_pos (p - t).toNat
  have hdiv := Int.ediv_add_emod |v| (10 ^ (p - t).toNat)
  have hnn := Int.emod_nonneg |v| hpos.ne'
  have hlt := Int.emod_lt_of_pos |v| hpos
  rw [Rescale_lower v p t _ h0 h1 (by omega)]
  simp only [Decimal.round, roundUp_eval v (p - t) (by omega) (by omega), Option.some_bind]
  refine ⟨_, rfl, ?_, ?_, ?_⟩
  · rw [ceil_div_eq _ _ hpos]
  · intro hd
    have hz := (abs_emod_eq_zero_iff_dvd v _).mpr hd
    rw [if_pos hz, sign_mul_abs_ediv_of_dvd v _ hpos hd, Int.ediv_mul_cancel hd]
  · intro hd
    have hz : ¬ |v| % 10 ^ (p - t).toNat = 0 := fun h =>
      hd ((abs_emod_eq_zero_iff_dvd v _).mp h)
    have hv : v ≠ 0 := by
      rintro rfl
      exact hd (dvd_zero _)
    have hq : 0 ≤ |v| / 10 ^ (p - t).toNat := Int.ediv_nonneg (abs_nonneg v) hpos.le
    have hq1 : 0 ≤ |v| / 10 ^ (p - t).toNat + 1 := by omega
    rw [if_neg hz, abs_mul, Int.abs_sign_of_nonzero hv, one_mul, abs_of_nonneg hq1]
    nlinarith

/-- Claim C7: for `0 ≤ t < p ≤ 128`, `Rescale(t, RoundUnnecessary)` panics
if and only if `10^(p-t)` does not divide the unscaled integer `v`; when it
divides, the result has precision `t` and unscaled integer `v / 10^(p-t)`. -/
theorem rescale_RoundUnnecessary_aborts_iff (v p t : Int) (h0 : 0 ≤ t) (h1 : t < p)
    (h2 : p ≤ 128) :
    (Decimal.Rescale ⟨some v, p⟩ t .RoundUnnecessary = none
        ↔ ¬ (10 ^ (p - t).toNat : Int) ∣ v) ∧
      ((10 ^ (p - t).toNat : Int) ∣ v →
        Decimal.Rescale ⟨some v, p⟩ t .RoundUnnecessary
          = some ⟨some (v / 10 ^ (p - t).toNat), t⟩) := by
  have hpos := ten_pow_pos (p - t).toNat
  rw [Rescale_lower v p t _ h0 h1 (by omega)]
  simp only [Decimal.round, roundUnnecessary_eval v (p - t) (by omega) (by omega)]
  constructor
  · by_cases hd : (10 ^ (p - t).toNat : Int) ∣ v
    · simp [(abs_emod_eq_zero_iff_dvd v _).mpr hd, hd]
    · have hz : ¬ |v| % 10 ^ (p - t).toNat = 0 := fun h =>
        hd ((abs_emod_eq_zero_iff_dvd v _).mp h)
      simp [hz, hd]
  · intro hd
    simp [(abs_emod_eq_zero_iff_dvd v _).mpr hd, sign_mul_abs_ediv_of_dvd v _ hpos hd]

/-- Claim C6: for `0 ≤ t < p ≤ 128`, `Rescale(t, RoundHalfUp)` and
`Rescale(t, RoundHalfDown)` return precision `t` and an integer within one half
of `v / 10^(p-t)`, strictly within one half (the unique nearest) when the
discarded part is not exactly one half; on an exact half `RoundHalfUp` returns
the neighbour farther from zero and `RoundHalfDown` the neighbour nearer to
zero. -/
theorem rescale_RoundHalfUp_RoundHalfDown_nearest (v p t : Int) (h0 : 0 ≤ t) (h1 : t < p)
    (h2 : p ≤ 128) :
    ∃ ru rd : Int,
      Decimal.Rescale ⟨some v, p⟩ t .RoundHalfUp = some ⟨some ru, t⟩ ∧
      Decimal.Rescale ⟨some v, p⟩ t .RoundHalfDown = some ⟨some rd, t⟩ ∧
      |(ru : ℚ) - (v : ℚ) / ((10 ^ (p - t).toNat : Int) : ℚ)| ≤ 1 / 2 ∧
      |(rd : ℚ) - (v : ℚ) / ((10 ^ (p - t).toNat : Int) : ℚ)| ≤ 1 / 2 ∧
      (|Int.tmod v (10 ^ (p - t).toNat)| ≠ 5 * 10 ^ (p - t - 1).toNat →
        |(ru : ℚ) - (v : ℚ) / ((10 ^ (p - t).toNat : Int) : ℚ)| < 1 / 2 ∧
        |(rd : ℚ) - (v : ℚ) / ((10 ^ (p - t).toNat : Int) : ℚ)| < 1 / 2) ∧
      (|Int.tmod v (10 ^ (p - t).toNat)| = 5 * 10 ^ (p - t - 1).toNat →
        |(v : ℚ) / ((10 ^ (p - t).toNat : Int) : ℚ)| < |(ru : ℚ)| ∧
        |(rd : ℚ)| < |(v : ℚ) / ((10 ^ (p - t).toNat : Int) : ℚ)|) := by
  have hm2 := ten_pow_eq_two_mul (p - t) (by omega)
  have hpos := ten_pow_pos (p - t).toNat
  have h5 : (0 : Int) < 5 * 10 ^ (p - t - 1).toNat := by positivity
  have hdiv := Int.ediv_add_emod |v| (10 ^ (p - t).toNat)
  have hnn := Int.emod_nonneg |v| hpos.ne'
  have hlt := Int.emod_lt_of_pos |v| hpos
  have hq : 0 ≤ |v| / 10 ^ (p - t).toNat := Int.ediv_nonneg (abs_nonneg v) hpos.le
  rw [Rescale_lower v p t _ h0 h1 (by omega), Rescale_lower v p t _ h0 h1 (by omega)]
  simp only [Decimal.round, roundHalfUp_eval v (p - t) (by omega) (by omega),
    roundHalfDown_eval v (p - t) (by omega) (by omega), Option.some_bind]
  refine ⟨_, _, rfl, rfl, ?_, ?_, ?_, ?_⟩
  · apply rat_dist_le_half _ _ _ hpos
    apply scaled_error_le v _ _ _ hm2 h5
    split_ifs
    · exact Or.inl ⟨rfl, by omega⟩
    · exact Or.inr ⟨rfl, by omega⟩
  · apply rat_dist_le_half _ _ _ hpos
    apply scaled_error_le v _ _ _ hm2 h5
    split_ifs
    · exact Or.inl ⟨rfl, by omega⟩
    · exact Or.inr ⟨rfl, by omega⟩
  · intro hne
    rw [abs_tmod_eq _ _ hpos] at hne
    constructor
    · apply rat_dist_lt_half _ _ _ hpos
      apply scaled_error_lt v _ _ _ hm2 h5
      split_ifs
      · exact Or.inl ⟨rfl, by omega⟩
      · exact Or.inr ⟨rfl, by omega⟩
    · apply rat_dist_lt_half _ _ _ hpos
      apply scaled_error_lt v _ _ _ hm2 h5
      split_ifs
      · exact Or.inl ⟨rfl, by omega⟩
      · exact Or.inr ⟨rfl, by omega⟩
  · intro htie
    rw [abs_tmod_eq _ _ hpos] at htie
    have hv : v ≠ 0 := by
      rintro rfl
      simp at htie
    have hc1 : ¬ |v| % 10 ^ (p - t).toNat < 5 * 10 ^ (p - t - 1).toNat := by omega
    have hc2 : |v| % 10 ^ (p - t).toNat ≤ 5 * 10 ^ (p - t - 1).toNat := by omega
    have hq1 : 0 ≤ |v| / 10 ^ (p - t).toNat + 1 := by omega
    simp only [hc1, hc2, if_false, if_true]
    constructor
    · apply rat_abs_div_lt _ _ _ hpos
      have habs : |v.sign * (|v| / 10 ^ (p - t).toNat + 1)| = |v| / 10 ^ (p - t).toNat + 1 := by
        rw [abs_mul, Int.abs_sign_of_nonzero hv, one_mul]
        exact abs_of_nonneg hq1
      rw [habs]
      nlinarith
    · apply rat_abs_lt_div _ _ _ hpos
      have habs : |v.sign * (|v| / 10 ^ (p - t).toNat)| = |v| / 10 ^ (p - t).toNat := by
        rw [abs_mul, Int.abs_sign_of_nonzero hv, one_mul]
        exact abs_of_nonneg hq
      rw [habs]
      nlinarith

/-- Claim C8 (amended): for a non-nil Decimal of precision `p` with `0 ≤ p`,
every target `t` with `p ≤ t ≤ 128` and every rounding mode, `Rescale` does not
panic, returns precision `t` and unscaled integer `v * 10^(t-p)`, which is the
same rational number. -/
theorem rescale_raise_exact (v p t : Int) (mode : RoundingMode) (hp : 0 ≤ p) (h1 : p ≤ t)
    (h2 : t ≤ 128) :
    ∃ r : Int, Decimal.Rescale ⟨some v, p⟩ t mode = some ⟨some r, t⟩ ∧
      r = v * 10 ^ (t - p).toNat ∧
      (r : ℚ) / 10 ^ t.toNat = (v : ℚ) / 10 ^ p.toNat := by
  refine ⟨_, Rescale_raise v p t mode hp h1 h2, rfl, ?_⟩
  have ht : t.toNat = p.toNat + (t - p).toNat := by omega
  rw [ht, pow_add]
  push_cast
  exact mul_div_mul_right _ _ (by positivity)

/-- Claim C9: for precisions `pa`, `pb` in `[0, 128]`, `Add` and `Sub` return
precision `max pa pb` and the unscaled integer
`va * 10^(max-pa) ± vb * 10^(max-pb)`, which is the exact rational sum and
difference. -/
theorem Add_Sub_exact (va vb pa pb : Int) (ha0 : 0 ≤ pa) (ha1 : pa ≤ 128)
    (hb0 : 0 ≤ pb) (hb1 : pb ≤ 128) :
    ∃ s d : Int,
      Decimal.Add ⟨some va, pa⟩ ⟨some vb, pb⟩ = some ⟨some s, max pa pb⟩ ∧
      Decimal.Sub ⟨some va, pa⟩ ⟨some vb, pb⟩ = some ⟨some d, max pa pb⟩ ∧
      s = va * 10 ^ (max pa pb - pa).toNat + vb * 10 ^ (max pa pb - pb).toNat ∧
      d = va * 10 ^ (max pa pb - pa).toNat - vb * 10 ^ (max pa pb - pb).toNat ∧
      (s : ℚ) / 10 ^ (max pa pb).toNat
        = (va : ℚ) / 10 ^ pa.toNat + (vb : ℚ) / 10 ^ pb.toNat ∧
      (d : ℚ) / 10 ^ (max pa pb).toNat
        = (va : ℚ) / 10 ^ pa.toNat - (vb : ℚ) / 10 ^ pb.toNat := by
  have hp := rescalePair_eval va vb pa pb ha0 ha1 hb0 hb1
  have ra := rat_scale va pa (max pa pb) ha0 (le_max_left _ _)
  have rb := rat_scale vb pb (max pa pb) hb0 (le_max_right _ _)
  refine ⟨_, _, ?_, ?_, rfl, rfl, ?_, ?_⟩
  · simp only [Decimal.Add, hp, Option.some_bind]
  · simp only [Decimal.Sub, hp, Option.some_bind]
  · rw [← ra, ← rb, ← add_div]
    push_cast
    rfl
  · rw [← ra, ← rb, ← sub_div]
    push_cast
    rfl

/-- Claim C10 (amended): for non-nil operands of precisions `pa`, `pb` in
`[0, 128]` and every rounding mode,
`Mul` is the outcome of `Rescale` applied to the exact product `A * B` of the
aligned unscaled integers, held at precision `2p`, with target `p = max pa pb`
and the same mode (so it rounds once, by the rule `Rescale` uses, and panics
exactly when `Rescale` does); `A * B / 10^(2p)` is the exact rational product;
every mode other than `RoundUnnecessary` returns, every returned value has
precision `p`, and for `p = 0` the product is exact. -/
theorem Mul_rounds_exact_product_once (va vb pa pb : Int) (mode : RoundingMode)
    (ha0 : 0 ≤ pa) (ha1 : pa ≤ 128) (hb0 : 0 ≤ pb) (hb1 : pb ≤ 128) :
    Decimal.Mul ⟨some va, pa⟩ ⟨some vb, pb⟩ mode
        = Decimal.Rescale
            ⟨some (va * 10 ^ (max pa pb - pa).toNat * (vb * 10 ^ (max pa pb - pb).toNat)),
              2 * max pa pb⟩ (max pa pb) mode ∧
      (((va * 10 ^ (max pa pb - pa).toNat * (vb * 10 ^ (max pa pb - pb).toNat) : Int) : ℚ)
          / 10 ^ (2 * max pa pb).toNat
        = (va : ℚ) / 10 ^ pa.toNat * ((vb : ℚ) / 10 ^ pb.toNat)) ∧
      (mode ≠ .RoundUnnecessary →
        ∃ r : Int, Decimal.Mul ⟨some va, pa⟩ ⟨some vb, pb⟩ mode = some ⟨some r, max pa pb⟩) ∧
      (∀ d : Decimal, Decimal.Mul ⟨some va, pa⟩ ⟨some vb, pb⟩ mode = some d →
        d.prec = max pa pb) ∧
      (max pa pb = 0 →
        Decimal.Mul ⟨some va, pa⟩ ⟨some vb, pb⟩ mode = some ⟨some (va * vb), 0⟩) := by
  have hp := rescalePair_eval va vb pa pb ha0 ha1 hb0 hb1
  have hM0 : 0 ≤ max pa pb := le_trans ha0 (le_max_left _ _)
  have hM1 : max pa pb ≤ 128 := max_le ha1 hb1
  have hmul : Decimal.Mul ⟨some va, pa⟩ ⟨some vb, pb⟩ mode
      = Decimal.round
          ⟨some (va * 10 ^ (max pa pb - pa).toNat * (vb * 10 ^ (max pa pb - pb).toNat)),
            max pa pb⟩ mode := by
    simp only [Decimal.Mul, hp, Option.some_bind]
  have hshape := round_shape
    (va * 10 ^ (max pa pb - pa).toNat * (vb * 10 ^ (max pa pb - pb).toNat)) (max pa pb) mode
    hM0 hM1
  refine ⟨?_, ?_, ?_, ?_, ?_⟩
  · rw [hmul]
    rcases eq_or_lt_of_le hM0 with hk | hk
    · rw [← hk]
      simp [Decimal.Rescale, round_zero]
    · rw [Rescale_lower _ _ _ _ hM0 (by omega) (by omega)]
      have h2 : 2 * max pa pb - max pa pb = max pa pb := by ring
      rw [h2]
      rcases hshape with ⟨r, hr⟩ | ⟨_, hr⟩
      · rw [hr]
        rfl
      · rw [hr]
        rfl
  · have ra := rat_scale va pa (max pa pb) ha0 (le_max_left _ _)
    have rb := rat_scale vb pb (max pa pb) hb0 (le_max_right _ _)
    have h2 : (2 * max pa pb).toNat = (max pa pb).toNat + (max pa pb).toNat := by omega
    rw [← ra, ← rb, h2, pow_add, div_mul_div_comm]
    push_cast
    rfl
  · intro hmode
    rw [hmul]
    rcases hshape with h | ⟨h, _⟩
    · exact h
    · exact absurd h hmode
  · intro d hd
    rw [hmul] at hd
    rcases hshape with ⟨r, hr⟩ | ⟨_, hr⟩
    · rw [hr] at hd
      cases hd
      rfl
    · rw [hr] at hd
      cases hd
  · intro hz
    have hpa : pa = 0 := by
      have := le_max_left pa pb
      omega
    have hpb : pb = 0 := by
      have := le_max_right pa pb
      omega
    subst hpa hpb
    rw [hmul]
    simp [round_zero]

/-! ## Digit lists -/

theorem toDigitsAux_eq (b : Nat) (hb : 2 ≤ b) :
    ∀ (fuel n : Nat) (acc : List Nat), n ≤ fuel →
      toDigitsAux b fuel n acc = (Nat.digits b n).reverse ++ acc := by
  intro fuel
  induction fuel with
  | zero =>
    intro n acc hn
    have : n = 0 := by omega
    subst this
    simp [toDigitsAux]
  | succ fuel ih =>
    intro n acc hn
    by_cases h0 : n = 0
    · subst h0
      simp [toDigitsAux]
    · have hpos : 0 < n := Nat.pos_of_ne_zero h0
      have hdiv : n / b ≤ fuel := by
        have : n / b < n := Nat.div_lt_self hpos hb
        omega
      rw [toDigitsAux, if_neg h0, ih _ _ hdiv, Nat.digits_def' hb hpos]
      simp

theorem toDigits_eq (b n : Nat) (hb : 2 ≤ b) : toDigits b n = (Nat.digits b n).reverse := by
  rw [toDigits, toDigitsAux_eq b hb n n [] (le_refl _), List.append_nil]

theorem ofDigits_eq (b : Nat) (l : List Nat) : ofDigits b l = Nat.ofDigits b l.reverse := by
  rw [Nat.ofDigits_eq_foldr, List.foldr_reverse]
  rfl

theorem ofDigits_toDigits (b n : Nat) (hb : 2 ≤ b) : ofDigits b (toDigits b n) = n := by
  rw [ofDigits_eq, toDigits_eq b n hb, List.reverse_reverse, Nat.ofDigits_digits]

theorem toDigits_lt (b n d : Nat) (hb : 2 ≤ b) (hd : d ∈ toDigits b n) : d < b := by
  rw [toDigits_eq b n hb, List.mem_reverse] at hd
  exact Nat.digits_lt_base hb hd

theorem toDigits_ne_nil (b n : Nat) (hb : 2 ≤ b) (hn : n ≠ 0) : toDigits b n ≠ [] := by
  rw [toDigits_eq b n hb]
  intro h
  exact hn (Nat.digits_eq_nil_iff_eq_zero.mp (List.reverse_eq_nil_iff.mp h))

theorem toDigits_ofDigits (b : Nat) (hb : 2 ≤ b) (l : List Nat) (hl : ∀ d ∈ l, d < b)
    (hh : ∀ h : l ≠ [], l.head h ≠ 0) : toDigits b (ofDigits b l) = l := by
  rw [toDigits_eq _ _ hb, ofDigits_eq, Nat.digits_ofDigits b hb l.reverse, List.reverse_reverse]
  · intro d hd
    exact hl d (List.mem_reverse.mp hd)
  · intro h
    rw [List.getLast_reverse]
    exact hh _

theorem ofDigits_cons_zero (b : Nat) (l : List Nat) : ofDigits b (0 :: l) = ofDigits b l := by
  simp [ofDigits]

theorem ofDigits_ne_zero (b : Nat) (hb : 2 ≤ b) (d : Nat) (l : List Nat) (hd : d ≠ 0) :
    ofDigits b (d :: l) ≠ 0 := by
  rw [ofDigits_eq, List.reverse_cons, Nat.ofDigits_append]
  have : 0 < b ^ l.reverse.length := by positivity
  simp only [Nat.ofDigits_singleton]
  have : 0 < b ^ l.reverse.length * d := Nat.mul_pos this (Nat.pos_of_ne_zero hd)
  omega

/-! ## Binary codec -/

theorem setBytes_natBytes (n : Nat) : Big.setBytes (Big.natBytes n) = n :=
  ofDigits_toDigits 256 n (by norm_num)

theorem GobDecode_GobEncode (v : Int) : Big.GobDecode (Big.GobEncode v) = some v := by
  unfold Big.GobEncode Big.GobDecode
  by_cases hv : v < 0
  · simp [hv, setBytes_natBytes, abs_of_neg hv]
  · simp [hv, setBytes_natBytes, abs_of_nonneg (not_lt.mp hv)]

theorem PutUint32_of_small (p : Int) (h0 : 0 ≤ p) (h1 : p ≤ 128) :
    PutUint32 p = [0, 0, 0, p.toNat] := by
  unfold PutUint32
  have h : (p % 4294967296).toNat = p.toNat := by omega
  simp only [h]
  have h2 : p.toNat ≤ 128 := by omega
  simp only [List.cons.injEq, and_true]
  refine ⟨?_, ?_, ?_, ?_⟩ <;> omega


/-- Claim C3: for every non-nil Decimal with precision `p` in `[0, 128]`,
`MarshalBinary` succeeds and returns the four big-endian bytes of `p` followed
by the `GobEncode` bytes of the unscaled integer, and `UnmarshalBinary` of these
bytes into any receiver returns no error and leaves the receiver with the same
unscaled integer and precision. -/
theorem MarshalBinary_UnmarshalBinary_roundtrip (v p : Int) (recv : Decimal) (h0 : 0 ≤ p)
    (h1 : p ≤ 128) :
    Decimal.MarshalBinary ⟨some v, p⟩ = .ok ([0, 0, 0, p.toNat] ++ Big.GobEncode v) ∧
      Decimal.UnmarshalBinary recv ([0, 0, 0, p.toNat] ++ Big.GobEncode v)
        = (⟨some v, p⟩, none) := by
  constructor
  · simp only [Decimal.MarshalBinary, PutUint32_of_small p h0 h1]
  · have hp : ((Uint32 0 0 0 p.toNat : Nat) : Int) = p := by
      simp only [Uint32]
      omega
    simp only [Decimal.UnmarshalBinary, List.cons_append, List.nil_append,
      GobDecode_GobEncode, hp]

/-! ## Decimal digit characters -/

theorem isDigit_iff (c : Char) : isDigit c = true ↔ 48 ≤ c.toNat ∧ c.toNat ≤ 57 := by
  simp [isDigit]

theorem digitChar_digitValue (c : Char) (hc : isDigit c = true) :
    digitChar (digitValue c) = c := by
  rw [isDigit_iff] at hc
  unfold digitChar digitValue
  rw [Nat.sub_add_cancel hc.1, Char.ofNat_toNat]

theorem isDigit_digitChar (d : Nat) (hd : d < 10) : isDigit (digitChar d) = true := by
  interval_cases d <;> decide

theorem digitValue_digitChar (d : Nat) (hd : d < 10) : digitValue (digitChar d) = d := by
  interval_cases d <;> decide

theorem digitValue_lt (c : Char) (hc : isDigit c = true) : digitValue c < 10 := by
  rw [isDigit_iff] at hc
  unfold digitValue
  omega

theorem digitValue_eq_zero_iff (c : Char) (hc : isDigit c = true) :
    digitValue c = 0 ↔ c = '0' := by
  constructor
  · intro h
    rw [← digitChar_digitValue c hc, h]
    rfl
  · rintro rfl
    rfl

theorem map_digitValue_map_digitChar (l : List Nat) (hl : ∀ d ∈ l, d < 10) :
    (l.map digitChar).map digitValue = l := by
  rw [List.map_map]
  conv_rhs => rw [← List.map_id l]
  apply List.map_congr_left
  intro d hd
  exact digitValue_digitChar d (hl d hd)

theorem map_digitChar_map_digitValue (s : List Char) (hs : ∀ c ∈ s, isDigit c = true) :
    (s.map digitValue).map digitChar = s := by
  rw [List.map_map]
  conv_rhs => rw [← List.map_id s]
  apply List.map_congr_left
  intro c hc
  exact digitChar_digitValue c (hs c hc)

theorem natString_isDigit (n : Nat) : ∀ c ∈ Big.natString n, isDigit c = true := by
  intro c hc
  unfold Big.natString at hc
  split_ifs at hc with h0
  · simp only [List.mem_singleton] at hc
    subst hc
    decide
  · rw [List.mem_map] at hc
    obtain ⟨d, hd, rfl⟩ := hc
    exact isDigit_digitChar d (toDigits_lt 10 n d (by norm_num) hd)

theorem natString_ne_nil (n : Nat) : Big.natString n ≠ [] := by
  unfold Big.natString
  split_ifs with h0
  · simp
  · simpa using toDigits_ne_nil 10 n (by norm_num) h0

/-- The value spelled by the decimal text of `n` is `n`. -/
theorem value_natString (n : Nat) :
    ofDigits 10 ((Big.natString n).map digitValue) = n := by
  unfold Big.natString
  split_ifs with h0
  · subst h0
    rfl
  · rw [map_digitValue_map_digitChar _ (fun d hd => toDigits_lt 10 n d (by norm_num) hd),
      ofDigits_toDigits 10 n (by norm_num)]

/-- A digit string without a leading zero is the decimal text of its value. -/
theorem natString_value (s : List Char) (hs : ∀ c ∈ s, isDigit c = true) (hne : s ≠ [])
    (hh : s = ['0'] ∨ s.head hne ≠ '0') :
    Big.natString (ofDigits 10 (s.map digitValue)) = s := by
  rcases hh with rfl | hh
  · rfl
  · obtain ⟨c, cs, rfl⟩ := List.exists_cons_of_ne_nil hne
    simp only [List.head_cons] at hh
    have hc : isDigit c = true := hs c (List.mem_cons_self _ _)
    have hv : digitValue c ≠ 0 := fun h => hh ((digitValue_eq_zero_iff c hc).mp h)
    have hnz : ofDigits 10 ((c :: cs).map digitValue) ≠ 0 := by
      rw [List.map_cons]
      exact ofDigits_ne_zero 10 (by norm_num) _ _ hv
    unfold Big.natString
    rw [if_neg hnz, toDigits_ofDigits 10 (by norm_num)]
    · exact map_digitChar_map_digitValue _ hs
    · intro d hd
      rw [List.mem_map] at hd
      obtain ⟨c', hc', rfl⟩ := hd
      exact digitValue_lt c' (hs c' hc')
    · intro _
      simpa using hv

theorem value_zeros_append (k : Nat) (s : List Char) :
    ofDigits 10 ((List.replicate k '0' ++ s).map digitValue) = ofDigits 10 (s.map digitValue) := by
  induction k with
  | zero => simp
  | succ k ih =>
    rw [List.replicate_succ, List.cons_append, List.map_cons]
    have : digitValue '0' = 0 := rfl
    rw [this, ofDigits_cons_zero, ih]

/-! ## Parsing plain decimal text -/

theorem plainChar_lt (c : Char) (hc : (isDigit c = true ∨ c = '-' ∨ c = '.')) : c.toNat < 128 := by
  rcases hc with h | rfl | rfl
  · rw [isDigit_iff] at h
    omega
  · decide
  · decide

theorem plainChar_not_space (c : Char) (hc : (isDigit c = true ∨ c = '-' ∨ c = '.')) : isSpace c = false := by
  rcases hc with h | rfl | rfl
  · rw [isDigit_iff] at h
    simp only [isSpace, Bool.or_eq_false_iff, Bool.and_eq_false_iff, decide_eq_false_iff_not]
    omega
  · decide
  · decide

theorem plainChar_not_exp (c : Char) (hc : (isDigit c = true ∨ c = '-' ∨ c = '.')) : c ∉ ['E', 'e'] := by
  rcases hc with h | rfl | rfl
  · rw [isDigit_iff] at h
    intro hm
    simp only [List.mem_cons, List.mem_singleton, List.not_mem_nil, or_false] at hm
    rcases hm with rfl | rfl
    · revert h
      decide
    · revert h
      decide
  · decide
  · decide

theorem isDigit_ne_dot (c : Char) (hc : isDigit c = true) : c ≠ '.' := by
  rintro rfl
  revert hc
  decide

theorem isDigit_ne_minus (c : Char) (hc : isDigit c = true) : c ≠ '-' := by
  rintro rfl
  revert hc
  decide

theorem isDigit_ne_plus (c : Char) (hc : isDigit c = true) : c ≠ '+' := by
  rintro rfl
  revert hc
  decide

theorem len_of_ascii (s : List Char) (hs : ∀ c ∈ s, c.toNat < 128) : len s = s.length := by
  induction s with
  | nil => rfl
  | cons c cs ih =>
    have hc : c.toNat < 128 := hs c (List.mem_cons_self _ _)
    have ih2 := ih (fun c hc => hs c (List.mem_cons_of_mem _ hc))
    simp only [len, List.map_cons, List.sum_cons, utf8Len, hc, if_true, List.length_cons] at ih2 ⊢
    omega

theorem TrimSpace_of_no_space (s : List Char) (hs : ∀ c ∈ s, isSpace c = false) :
    TrimSpace s = s := by
  unfold TrimSpace
  have h1 : s.dropWhile isSpace = s := by
    rw [List.dropWhile_eq_self_iff]
    intro hl
    rw [hs _ (List.get_mem _ _ _)]
    simp
  rw [h1, List.rdropWhile_eq_self_iff]
  intro hl
  rw [hs _ (List.getLast_mem hl)]
  simp

theorem IndexAny_none (s chars : List Char) (hs : ∀ c ∈ s, c ∉ chars) :
    IndexAny s chars = none := by
  induction s with
  | nil => rfl
  | cons c cs ih =>
    rw [IndexAny, if_neg (hs c (List.mem_cons_self _ _)),
      ih (fun c hc => hs c (List.mem_cons_of_mem _ hc))]
    rfl

theorem Split_of_not_mem (sep : Char) (a : List Char) (ha : sep ∉ a) : Split sep a = [a] := by
  induction a with
  | nil => rfl
  | cons c cs ih =>
    have hc : c ≠ sep := fun h => ha (h ▸ List.mem_cons_self _ _)
    rw [Split, if_neg hc, ih (fun h => ha (List.mem_cons_of_mem _ h))]

theorem Split_append_sep (sep : Char) (a b : List Char) (ha : sep ∉ a) :
    Split sep (a ++ sep :: b) = a :: Split sep b := by
  induction a with
  | nil => simp [Split]
  | cons c cs ih =>
    have hc : c ≠ sep := fun h => ha (h ▸ List.mem_cons_self _ _)
    rw [List.cons_append, Split, if_neg hc, ih (fun h => ha (List.mem_cons_of_mem _ h))]

theorem scanDigits_of_digits (s : List Char) (hs : ∀ c ∈ s, isDigit c = true) (hne : s ≠ []) :
    Big.scanDigits s = some (ofDigits 10 (s.map digitValue)) := by
  unfold Big.scanDigits
  have hall : s.all isDigit = true := List.all_eq_true.mpr hs
  simp [hne, hall]

theorem SetString_of_digits (s : List Char) (hs : ∀ c ∈ s, isDigit c = true) (hne : s ≠ []) :
    Big.SetString s = some ((ofDigits 10 (s.map digitValue) : Nat) : Int) := by
  obtain ⟨c, cs, rfl⟩ := List.exists_cons_of_ne_nil hne
  have hc : isDigit c = true := hs c (List.mem_cons_self _ _)
  simp only [Big.SetString, if_neg (isDigit_ne_minus c hc), if_neg (isDigit_ne_plus c hc),
    scanDigits_of_digits _ hs hne, Option.map_some']

/-- Parsing an unsigned digit string without a decimal point. -/
theorem parseUnsigned_integer (neg : Bool) (ip : List Char)
    (hip : ∀ c ∈ ip, isDigit c = true) (hne : ip ≠ []) :
    parseUnsigned neg ip 0
      = .ok ⟨some (if neg then -((ofDigits 10 (ip.map digitValue) : Nat) : Int)
          else ((ofDigits 10 (ip.map digitValue) : Nat) : Int)), 0⟩ := by
  have hlen : len ip = ip.length :=
    len_of_ascii ip (fun c hc => plainChar_lt c (Or.inl (hip c hc)))
  have hlen0 : ¬ len ip = 0 := by
    rw [hlen]
    have := List.length_pos.mpr hne
    omega
  have hsplit : Split '.' ip = [ip] :=
    Split_of_not_mem _ _ (fun h => isDigit_ne_dot _ (hip _ h) rfl)
  simp [parseUnsigned, hlen0, hsplit, MaxPrecision, SetString_of_digits ip hip hne]

/-- Parsing an unsigned digit string with a decimal point. -/
theorem parseUnsigned_fraction (neg : Bool) (ip fr : List Char)
    (hip : ∀ c ∈ ip, isDigit c = true) (hne : ip ≠ [])
    (hfr : ∀ c ∈ fr, isDigit c = true) (hfne : fr ≠ []) (hflen : fr.length ≤ 128) :
    parseUnsigned neg (ip ++ '.' :: fr) 0
      = .ok ⟨some (if neg then -((ofDigits 10 ((ip ++ fr).map digitValue) : Nat) : Int)
          else ((ofDigits 10 ((ip ++ fr).map digitValue) : Nat) : Int)), fr.length⟩ := by
  have hall : ∀ c ∈ ip ++ '.' :: fr, (isDigit c = true ∨ c = '-' ∨ c = '.') := by
    intro c hc
    rcases List.mem_append.mp hc with h | h
    · exact Or.inl (hip c h)
    · rcases List.mem_cons.mp h with rfl | h
      · exact Or.inr (Or.inr rfl)
      · exact Or.inl (hfr c h)
  have hlen : len (ip ++ '.' :: fr) = (ip ++ '.' :: fr).length :=
    len_of_ascii _ (fun c hc => plainChar_lt c (hall c hc))
  have hlen0 : ¬ len (ip ++ '.' :: fr) = 0 := by
    rw [hlen, List.length_append, List.length_cons]
    omega
  have hlip : len ip = ip.length :=
    len_of_ascii ip (fun c hc => plainChar_lt c (Or.inl (hip c hc)))
  have hlfr : len fr = fr.length :=
    len_of_ascii fr (fun c hc => plainChar_lt c (Or.inl (hfr c hc)))
  have hip0 : 0 < ip.length := List.length_pos.mpr hne
  have hfr0 : 0 < fr.length := List.length_pos.mpr hfne
  have hsplit : Split '.' (ip ++ '.' :: fr) = [ip, fr] := by
    rw [Split_append_sep _ _ _ (fun h => isDigit_ne_dot _ (hip _ h) rfl),
      Split_of_not_mem _ _ (fun h => isDigit_ne_dot _ (hfr _ h) rfl)]
  have hcomb : ∀ c ∈ ip ++ fr, isDigit c = true := by
    intro c hc
    rcases List.mem_append.mp hc with h | h
    · exact hip c h
    · exact hfr c h
  have hcne : ip ++ fr ≠ [] := by simp [hne]
  have h1 : ¬ ((fr.length : Int) = 0 ∨ (ip.length : Int) = 0) := by omega
  have h2 : ¬ ((fr.length : Int) > 128) := by omega
  have h3 : ¬ ((fr.length : Int) < 0) := by omega
  simp only [parseUnsigned, hlen0, hsplit, MaxPrecision, SetString_of_digits _ hcomb hcne,
    hlip, hlfr, zero_add, h1, h2, h3, if_false]

/-- Parsing an optional minus sign followed by plain decimal text that starts
with a digit. -/
theorem NewFromString_signed (neg : Bool) (body : List Char)
    (hb : ∀ c ∈ body, (isDigit c = true ∨ c = '-' ∨ c = '.')) (hne : body ≠ []) (hhead : isDigit (body.head hne) = true) :
    NewFromString (if neg then '-' :: body else body) = some (parseUnsigned neg body 0) := by
  have hall : ∀ c ∈ (if neg then '-' :: body else body), (isDigit c = true ∨ c = '-' ∨ c = '.') := by
    intro c hc
    cases neg
    · exact hb c hc
    · rcases List.mem_cons.mp hc with rfl | h
      · exact Or.inr (Or.inl rfl)
      · exact hb c h
  have htrim := TrimSpace_of_no_space _ (fun c hc => plainChar_not_space c (hall c hc))
  have hidx := IndexAny_none _ ['E', 'e'] (fun c hc => plainChar_not_exp c (hall c hc))
  have hlen := len_of_ascii _ (fun c hc => plainChar_lt c (hall c hc))
  have hpos : 0 < body.length := List.length_pos.mpr hne
  have hlen0 : ¬ len (if neg then '-' :: body else body) = 0 := by
    rw [hlen]
    cases neg
    · simp only [Bool.false_eq_true, if_false]
      omega
    · simp only [if_true, List.length_cons]
      omega
  unfold NewFromString NewDecimalFromString
  simp only [htrim, hlen0, if_false, hidx]
  obtain ⟨c, cs, rfl⟩ := List.exists_cons_of_ne_nil hne
  simp only [List.head_cons] at hhead
  cases neg
  · simp only [Bool.false_eq_true, if_false, parseMantissa, if_neg (isDigit_ne_minus c hhead)]
  · simp only [if_true, parseMantissa]

/-- Closed form of `Decimal.String` on a non-nil value of non-negative
precision. -/
theorem String_eval (v p : Int) (h0 : 0 ≤ p) :
    Decimal.String ⟨some v, p⟩
      = some (if decide (v < 0) = true then
            '-' :: (if p = 0 then Big.natString v.natAbs
              else if ((Big.natString v.natAbs).length : Int) ≤ p then
                '0' :: '.' ::
                  (List.replicate (p - (Big.natString v.natAbs).length).toNat '0'
                    ++ Big.natString v.natAbs)
              else (Big.natString v.natAbs).take
                    (((Big.natString v.natAbs).length : Int) - p).toNat
                  ++ '.' :: (Big.natString v.natAbs).drop
                    (((Big.natString v.natAbs).length : Int) - p).toNat)
          else (if p = 0 then Big.natString v.natAbs
              else if ((Big.natString v.natAbs).length : Int) ≤ p then
                '0' :: '.' ::
                  (List.replicate (p - (Big.natString v.natAbs).length).toNat '0'
                    ++ Big.natString v.natAbs)
              else (Big.natString v.natAbs).take
                    (((Big.natString v.natAbs).length : Int) - p).toNat
                  ++ '.' :: (Big.natString v.natAbs).drop
                    (((Big.natString v.natAbs).length : Int) - p).toNat)) := by
  by_cases hp : p = 0
  · subst hp
    by_cases hv : v < 0 <;> simp [Decimal.String, Big.String, hv]
  · have hgt : ¬ ((Big.natString v.natAbs).length : Int) - p
        > ((Big.natString v.natAbs).length : Int) := by omega
    by_cases hv : v < 0
    · have hx : ¬ (-v < 0) := by omega
      have hn : (-v).natAbs = v.natAbs := Int.natAbs_neg v
      simp only [Decimal.String, hp, if_false, hv, decide_True, if_true, Big.String, hx, hn,
        hgt]
      split_ifs <;> rfl
    · simp only [Decimal.String, hp, if_false, hv, decide_False, Bool.false_eq_true, Big.String,
        hgt]
      split_ifs <;> rfl

theorem signed_natAbs (v : Int) :
    (if decide (v < 0) = true then -((v.natAbs : Nat) : Int) else ((v.natAbs : Nat) : Int))
      = v := by
  by_cases hv : v < 0
  · simp only [hv, decide_True, if_true]
    omega
  · simp only [hv, decide_False, Bool.false_eq_true, if_false]
    omega

/-- Claim C1: for every non-nil Decimal `d` with precision in `[0, 128]`,
`d.String()` returns a text and `NewFromString` of that text succeeds with the
same unscaled integer and the same precision as `d`. -/
theorem NewFromString_String_roundtrip (v p : Int) (h0 : 0 ≤ p) (h1 : p ≤ 128) :
    ∃ s : List Char, Decimal.String ⟨some v, p⟩ = some s ∧
      NewFromString s = some (.ok ⟨some v, p⟩) := by
  refine ⟨_, String_eval v p h0, ?_⟩
  have hds := natString_isDigit v.natAbs
  have hne := natString_ne_nil v.natAbs
  have hL : 0 < (Big.natString v.natAbs).length := List.length_pos.mpr hne
  by_cases hp : p = 0
  · subst hp
    simp only [if_true]
    rw [NewFromString_signed _ _ (fun c hc => Or.inl (hds c hc)) hne
      (hds _ (List.head_mem hne)), parseUnsigned_integer _ _ hds hne, value_natString,
      signed_natAbs]
  · simp only [hp, if_false]
    by_cases hle : ((Big.natString v.natAbs).length : Int) ≤ p
    · simp only [hle, if_true]
      have hfr : ∀ c ∈ List.replicate (p - (Big.natString v.natAbs).length).toNat '0'
          ++ Big.natString v.natAbs, isDigit c = true := by
        intro c hc
        rcases List.mem_append.mp hc with h | h
        · rw [List.eq_of_mem_replicate h]
          decide
        · exact hds c h
      have hflen : (List.replicate (p - (Big.natString v.natAbs).length).toNat '0'
          ++ Big.natString v.natAbs).length = p.toNat := by
        rw [List.length_append, List.length_replicate]
        omega
      have hbody : ∀ c ∈ '0' :: '.' :: (List.replicate
          (p - (Big.natString v.natAbs).length).toNat '0' ++ Big.natString v.natAbs),
          (isDigit c = true ∨ c = '-' ∨ c = '.') := by
        intro c hc
        rcases List.mem_cons.mp hc with rfl | h
        · exact Or.inl (by decide)
        · rcases List.mem_cons.mp h with rfl | h
          · exact Or.inr (Or.inr rfl)
          · exact Or.inl (hfr c h)
      have hparse := parseUnsigned_fraction (decide (v < 0)) ['0'] _ (by decide) (by simp) hfr
        (by simp [hne]) (by omega)
      rw [NewFromString_signed _ _ hbody (List.cons_ne_nil _ _) rfl]
      have hval : ofDigits 10 (List.map digitValue (['0'] ++ (List.replicate
          (p - (Big.natString v.natAbs).length).toNat '0' ++ Big.natString v.natAbs)))
          = v.natAbs := by
        have := value_zeros_append ((p - (Big.natString v.natAbs).length).toNat + 1)
          (Big.natString v.natAbs)
        rw [List.replicate_succ, value_natString] at this
        exact this
      rw [hval, signed_natAbs, hflen, Int.toNat_of_nonneg h0] at hparse
      exact congrArg some hparse
    · simp only [hle, if_false]
      have hk : (((Big.natString v.natAbs).length : Int) - p).toNat
          < (Big.natString v.natAbs).length := by omega
      have hk0 : 0 < (((Big.natString v.natAbs).length : Int) - p).toNat := by omega
      have hip : ∀ c ∈ (Big.natString v.natAbs).take
          (((Big.natString v.natAbs).length : Int) - p).toNat, isDigit c = true :=
        fun c hc => hds c (List.mem_of_mem_take hc)
      have hfr : ∀ c ∈ (Big.natString v.natAbs).drop
          (((Big.natString v.natAbs).length : Int) - p).toNat, isDigit c = true :=
        fun c hc => hds c (List.mem_of_mem_drop hc)
      have hipne : (Big.natString v.natAbs).take
          (((Big.natString v.natAbs).length : Int) - p).toNat ≠ [] := by
        intro h
        have := congrArg List.length h
        rw [List.length_take] at this
        simp only [List.length_nil] at this
        omega
      have hflen : ((Big.natString v.natAbs).drop
          (((Big.natString v.natAbs).length : Int) - p).toNat).length = p.toNat := by
        rw [List.length_drop]
        omega
      have hfrne : (Big.natString v.natAbs).drop
          (((Big.natString v.natAbs).length : Int) - p).toNat ≠ [] := by
        intro h
        have := congrArg List.length h
        rw [hflen] at this
        simp only [List.length_nil] at this
        omega
      have hbody : ∀ c ∈ (Big.natString v.natAbs).take
          (((Big.natString v.natAbs).length : Int) - p).toNat ++ '.' ::
          (Big.natString v.natAbs).drop (((Big.natString v.natAbs).length : Int) - p).toNat,
          (isDigit c = true ∨ c = '-' ∨ c = '.') := by
        intro c hc
        rcases List.mem_append.mp hc with h | h
        · exact Or.inl (hip c h)
        · rcases List.mem_cons.mp h with rfl | h
          · exact Or.inr (Or.inr rfl)
          · exact Or.inl (hfr c h)
      have hhead : isDigit ((List.take (((Big.natString v.natAbs).length : Int) - p).toNat
          (Big.natString v.natAbs) ++ '.' :: List.drop
          (((Big.natString v.natAbs).length : Int) - p).toNat (Big.natString v.natAbs)).head
          (by simp)) = true := by
        rw [List.head_append_of_ne_nil hipne]
        exact hip _ (List.head_mem hipne)
      have hparse := parseUnsigned_fraction (decide (v < 0)) _ _ hip hipne hfr hfrne (by omega)
      rw [NewFromString_signed _ _ hbody (by simp) hhead]
      rw [List.take_append_drop, value_natString, signed_natAbs, hflen,
        Int.toNat_of_nonneg h0] at hparse
      exact congrArg some hparse

theorem value_ne_zero (s : List Char) (hs : ∀ c ∈ s, isDigit c = true)
    (hnz : ∃ c ∈ s, c ≠ '0') : ofDigits 10 (s.map digitValue) ≠ 0 := by
  induction s with
  | nil =>
    obtain ⟨c, hc, _⟩ := hnz
    cases hc
  | cons c cs ih =>
    by_cases hc : c = '0'
    · subst hc
      rw [List.map_cons]
      have h0 : digitValue '0' = 0 := rfl
      rw [h0, ofDigits_cons_zero]
      apply ih (fun c hc => hs c (List.mem_cons_of_mem _ hc))
      obtain ⟨c', hc', hne⟩ := hnz
      rcases List.mem_cons.mp hc' with rfl | h
      · exact absurd rfl hne
      · exact ⟨c', h, hne⟩
    · rw [List.map_cons]
      apply ofDigits_ne_zero 10 (by norm_num)
      intro h
      exact hc ((digitValue_eq_zero_iff c (hs c (List.mem_cons_self _ _))).mp h)

/-- A digit string is the decimal text of its value behind leading zeros. -/
theorem zeros_append_natString (s : List Char) (hs : ∀ c ∈ s, isDigit c = true)
    (hne : s ≠ []) :
    ∃ k : Nat, s = List.replicate k '0' ++ Big.natString (ofDigits 10 (s.map digitValue)) := by
  induction s with
  | nil => exact absurd rfl hne
  | cons c cs ih =>
    by_cases hc : c = '0'
    · subst hc
      by_cases hcs : cs = []
      · subst hcs
        exact ⟨0, rfl⟩
      · obtain ⟨k, hk⟩ := ih (fun c hc => hs c (List.mem_cons_of_mem _ hc)) hcs
        refine ⟨k + 1, ?_⟩
        rw [List.map_cons]
        have h0 : digitValue '0' = 0 := rfl
        rw [h0, ofDigits_cons_zero, List.replicate_succ, List.cons_append, ← hk]
    · refine ⟨0, ?_⟩
      rw [List.replicate_zero, List.nil_append]
      exact (natString_value _ hs (List.cons_ne_nil _ _) (Or.inr hc)).symm

/-- Claim C2: a canonical decimal text (an optional `-`, an integer part `ip`
that is `"0"` or a digit string without leading zero, then either nothing or a
`.` and between 1 and 128 digits `fr`, and not a negative zero) is accepted by
`NewFromString`, the parsed Decimal prints back as the same text, and its
precision is the number of digits after the `.` (0 when there is none). -/
theorem NewFromString_canonical_roundtrip (neg : Bool) (ip fr tail : List Char)
    (hip : ∀ c ∈ ip, isDigit c = true) (hne : ip ≠ [])
    (hlead : ip = ['0'] ∨ ip.head hne ≠ '0')
    (hfr : ∀ c ∈ fr, isDigit c = true)
    (htail : (tail = [] ∧ fr = []) ∨ (tail = '.' :: fr ∧ 1 ≤ fr.length ∧ fr.length ≤ 128))
    (hnz : neg = true → ∃ c ∈ ip ++ fr, c ≠ '0') :
    ∃ d : Decimal,
      NewFromString ((if neg then ['-'] else []) ++ ip ++ tail) = some (.ok d) ∧
      Decimal.String d = some ((if neg then ['-'] else []) ++ ip ++ tail) ∧
      d.prec = fr.length := by
  have hs : (if neg = true then ['-'] else []) ++ ip ++ tail
      = if neg = true then '-' :: (ip ++ tail) else ip ++ tail := by
    cases neg <;> simp
  have hcomb : ∀ c ∈ ip ++ fr, isDigit c = true := by
    intro c hc
    rcases List.mem_append.mp hc with h | h
    · exact hip c h
    · exact hfr c h
  have hbody : ∀ c ∈ ip ++ tail, (isDigit c = true ∨ c = '-' ∨ c = '.') := by
    intro c hc
    rcases List.mem_append.mp hc with h | h
    · exact Or.inl (hip c h)
    · rcases htail with ⟨rfl, _⟩ | ⟨rfl, _⟩
      · cases h
      · rcases List.mem_cons.mp h with rfl | h
        · exact Or.inr (Or.inr rfl)
        · exact Or.inl (hfr c h)
  have hbne : ip ++ tail ≠ [] := by simp [hne]
  have hhead : isDigit ((ip ++ tail).head hbne) = true := by
    rw [List.head_append_of_ne_nil hne]
    exact hip _ (List.head_mem hne)
  have hparse := NewFromString_signed neg _ hbody hbne hhead
  -- the sign of the parsed integer is the sign of the text
  have hsign : ∀ N : Nat, (neg = true → N ≠ 0) →
      decide ((if neg = true then -(N : Int) else (N : Int)) < 0) = neg ∧
      (if neg = true then -(N : Int) else (N : Int)).natAbs = N := by
    intro N hN
    cases neg
    · simp
    · have := hN rfl
      simp only [if_true, Int.natAbs_neg, Int.natAbs_ofNat, and_true, decide_eq_true_eq]
      omega
  rw [hs]
  rcases htail with ⟨rfl, rfl⟩ | ⟨rfl, hf1, hf2⟩
  · -- no decimal point
    rw [List.append_nil] at hparse hcomb hnz ⊢
    rw [parseUnsigned_integer neg ip hip hne] at hparse
    refine ⟨_, hparse, ?_, rfl⟩
    obtain ⟨hsg, hab⟩ := hsign (ofDigits 10 (ip.map digitValue))
      (fun h => value_ne_zero ip hip (hnz h))
    rw [String_eval _ _ (le_refl _), hsg, hab, natString_value ip hip hne hlead]
    simp
  · -- a decimal point and `fr.length` digits
    have hfne : fr ≠ [] := by
      intro h
      rw [h] at hf1
      simp at hf1
    rw [parseUnsigned_fraction neg ip fr hip hne hfr hfne hf2] at hparse
    refine ⟨_, hparse, ?_, rfl⟩
    obtain ⟨hsg, hab⟩ := hsign (ofDigits 10 ((ip ++ fr).map digitValue))
      (fun h => value_ne_zero _ hcomb (hnz h))
    have hp0 : ¬ ((fr.length : Nat) : Int) = 0 := by omega
    rw [String_eval _ _ (by omega), hsg, hab]
    simp only [hp0, if_false]
    rcases hlead with rfl | hlead
    · -- integer part "0": the digits of the value are padded back to `fr`
      have hval : ofDigits 10 ((['0'] ++ fr).map digitValue) = ofDigits 10 (fr.map digitValue) :=
        value_zeros_append 1 fr
      obtain ⟨k, hk⟩ := zeros_append_natString fr hfr hfne
      have hlen : fr.length = k + (Big.natString (ofDigits 10 (fr.map digitValue))).length := by
        conv_lhs => rw [hk]
        rw [List.length_append, List.length_replicate]
      have hle : ((Big.natString (ofDigits 10 (fr.map digitValue))).length : Int)
          ≤ ((fr.length : Nat) : Int) := by omega
      have hk2 : (((fr.length : Nat) : Int)
          - ((Big.natString (ofDigits 10 (fr.map digitValue))).length : Int)).toNat = k := by
        omega
      rw [hval]
      simp only [hle, if_true, hk2, ← hk, List.singleton_append]
    · -- no leading zero: the digits of the value are `ip ++ fr`
      have hcne : ip ++ fr ≠ [] := by simp [hne]
      have hh : (ip ++ fr).head hcne ≠ '0' := by
        rw [List.head_append_of_ne_nil hne]
        exact hlead
      have hip0 : 0 < ip.length := List.length_pos.mpr hne
      rw [natString_value _ hcomb hcne (Or.inr hh)]
      have hgt : ¬ (((ip ++ fr).length : Nat) : Int) ≤ ((fr.length : Nat) : Int) := by
        rw [List.length_append]
        omega
      have hk2 : ((((ip ++ fr).length : Nat) : Int) - ((fr.length : Nat) : Int)).toNat
          = ip.length := by
        rw [List.length_append]
        omega
      simp only [hgt, if_false, hk2, List.take_left', List.drop_left']

/-! ## Instances at concrete inputs -/

theorem NewFromString_String_roundtrip_witness :
    (∃ s : List Char, Decimal.String ⟨some (-10001), 4⟩ = some s ∧
      NewFromString s = some (.ok ⟨some (-10001), 4⟩)) ∧
    Decimal.String ⟨some (-10001), 4⟩ = some ['-', '1', '.', '0', '0', '0', '1'] ∧
    Decimal.String ⟨some 12, 5⟩ = some ['0', '.', '0', '0', '0', '1', '2'] ∧
    NewFromString ['0', '.', '0', '0', '0', '1', '2'] = some (.ok ⟨some 12, 5⟩) :=
  ⟨NewFromString_String_roundtrip (-10001) 4 (by decide) (by decide), by decide, by decide,
    by decide⟩

theorem NewFromString_canonical_roundtrip_witness :
    (∃ d : Decimal,
      NewFromString ((if true then ['-'] else []) ++ ['1'] ++ '.' :: ['0', '0', '0', '1'])
        = some (.ok d) ∧
      Decimal.String d
        = some ((if true then ['-'] else []) ++ ['1'] ++ '.' :: ['0', '0', '0', '1']) ∧
      d.prec = ['0', '0', '0', '1'].length) ∧
    NewFromString ['-', '1', '.', '0', '0', '0', '1'] = some (.ok ⟨some (-10001), 4⟩) :=
  ⟨NewFromString_canonical_roundtrip true ['1'] ['0', '0', '0', '1']
      ('.' :: ['0', '0', '0', '1']) (by decide) (by decide) (by decide) (by decide)
      (by decide) (by decide),
    by decide⟩

theorem MarshalBinary_UnmarshalBinary_roundtrip_witness :
    Decimal.MarshalBinary ⟨some (-258), 4⟩
        = .ok ([0, 0, 0, (4 : Int).toNat] ++ Big.GobEncode (-258)) ∧
      Decimal.UnmarshalBinary ⟨none, 77⟩ ([0, 0, 0, (4 : Int).toNat] ++ Big.GobEncode (-258))
        = (⟨some (-258), 4⟩, none) :=
  MarshalBinary_UnmarshalBinary_roundtrip (-258) 4 ⟨none, 77⟩ (by decide) (by decide)

theorem rescale_RoundHalfEven_nearest_even_witness :
    (∃ r : Int, Decimal.Rescale ⟨some 25, 1⟩ 0 .RoundHalfEven = some ⟨some r, 0⟩ ∧
      |(r : ℚ) - ((25 : Int) : ℚ) / ((10 ^ ((1 : Int) - 0).toNat : Int) : ℚ)| ≤ 1 / 2 ∧
      (|Int.tmod 25 (10 ^ ((1 : Int) - 0).toNat)| = 5 * 10 ^ ((1 : Int) - 0 - 1).toNat
        → Even r)) ∧
    Decimal.Rescale ⟨some 55, 1⟩ 0 .RoundHalfEven = some ⟨some 6, 0⟩ ∧
    Decimal.Rescale ⟨some 25, 1⟩ 0 .RoundHalfEven = some ⟨some 2, 0⟩ ∧
    Decimal.Rescale ⟨some (-25), 1⟩ 0 .RoundHalfEven = some ⟨some (-2), 0⟩ ∧
    Decimal.Rescale ⟨some (-55), 1⟩ 0 .RoundHalfEven = some ⟨some (-6), 0⟩ :=
  ⟨rescale_RoundHalfEven_nearest_even 25 1 0 (by decide) (by decide) (by decide),
    by decide, by decide, by decide, by decide⟩

theorem rescale_RoundUp_away_from_zero_witness :
    (∃ r : Int, Decimal.Rescale ⟨some (-11), 1⟩ 0 .RoundUp = some ⟨some r, 0⟩ ∧
      r = (-11 : Int).sign
        * ⌈((|(-11)| : Int) : ℚ) / ((10 ^ ((1 : Int) - 0).toNat : Int) : ℚ)⌉ ∧
      ((10 ^ ((1 : Int) - 0).toNat : Int) ∣ -11 → r * 10 ^ ((1 : Int) - 0).toNat = -11) ∧
      (¬ (10 ^ ((1 : Int) - 0).toNat : Int) ∣ -11
        → |(-11 : Int)| < |r| * 10 ^ ((1 : Int) - 0).toNat)) ∧
    Decimal.Rescale ⟨some 11, 1⟩ 0 .RoundUp = some ⟨some 2, 0⟩ ∧
    Decimal.Rescale ⟨some (-11), 1⟩ 0 .RoundUp = some ⟨some (-2), 0⟩ ∧
    Decimal.Rescale ⟨some 10, 1⟩ 0 .RoundUp = some ⟨some 1, 0⟩ :=
  ⟨rescale_RoundUp_away_from_zero (-11) 1 0 (by decide) (by decide) (by decide),
    by decide, by decide, by decide⟩

theorem rescale_RoundHalfUp_RoundHalfDown_nearest_witness :
    (∃ ru rd : Int,
      Decimal.Rescale ⟨some (-25), 1⟩ 0 .RoundHalfUp = some ⟨some ru, 0⟩ ∧
      Decimal.Rescale ⟨some (-25), 1⟩ 0 .RoundHalfDown = some ⟨some rd, 0⟩ ∧
      |(ru : ℚ) - ((-25 : Int) : ℚ) / ((10 ^ ((1 : Int) - 0).toNat : Int) : ℚ)| ≤ 1 / 2 ∧
      |(rd : ℚ) - ((-25 : Int) : ℚ) / ((10 ^ ((1 : Int) - 0).toNat : Int) : ℚ)| ≤ 1 / 2 ∧
      (|Int.tmod (-25) (10 ^ ((1 : Int) - 0).toNat)| ≠ 5 * 10 ^ ((1 : Int) - 0 - 1).toNat →
        |(ru : ℚ) - ((-25 : Int) : ℚ) / ((10 ^ ((1 : Int) - 0).toNat : Int) : ℚ)| < 1 / 2 ∧
        |(rd : ℚ) - ((-25 : Int) : ℚ) / ((10 ^ ((1 : Int) - 0).toNat : Int) : ℚ)| < 1 / 2) ∧
      (|Int.tmod (-25) (10 ^ ((1 : Int) - 0).toNat)| = 5 * 10 ^ ((1 : Int) - 0 - 1).toNat →
        |((-25 : Int) : ℚ) / ((10 ^ ((1 : Int) - 0).toNat : Int) : ℚ)| < |(ru : ℚ)| ∧
        |(rd : ℚ)| < |((-25 : Int) : ℚ) / ((10 ^ ((1 : Int) - 0).toNat : Int) : ℚ)|)) ∧
    Decimal.Rescale ⟨some 25, 1⟩ 0 .RoundHalfUp = some ⟨some 3, 0⟩ ∧
    Decimal.Rescale ⟨some 25, 1⟩ 0 .RoundHalfDown = some ⟨some 2, 0⟩ ∧
    Decimal.Rescale ⟨some (-25), 1⟩ 0 .RoundHalfUp = some ⟨some (-3), 0⟩ ∧
    Decimal.Rescale ⟨some (-25), 1⟩ 0 .RoundHalfDown = some ⟨some (-2), 0⟩ :=
  ⟨rescale_RoundHalfUp_RoundHalfDown_nearest (-25) 1 0 (by decide) (by decide) (by decide),
    by decide, by decide, by decide, by decide⟩

theorem rescale_RoundUnnecessary_aborts_iff_witness :
    ((Decimal.Rescale ⟨some 10001, 4⟩ 0 .RoundUnnecessary = none
        ↔ ¬ (10 ^ ((4 : Int) - 0).toNat : Int) ∣ 10001) ∧
      ((10 ^ ((4 : Int) - 0).toNat : Int) ∣ 10001 →
        Decimal.Rescale ⟨some 10001, 4⟩ 0 .RoundUnnecessary
          = some ⟨some (10001 / 10 ^ ((4 : Int) - 0).toNat), 0⟩)) ∧
    Decimal.Rescale ⟨some 10001, 4⟩ 0 .RoundUnnecessary = none ∧
    Decimal.Rescale ⟨some 10000, 4⟩ 0 .RoundUnnecessary = some ⟨some 1, 0⟩ ∧
    Decimal.Rescale ⟨some (-10000), 4⟩ 0 .RoundUnnecessary = some ⟨some (-1), 0⟩ :=
  ⟨rescale_RoundUnnecessary_aborts_iff 10001 4 0 (by decide) (by decide) (by decide),
    by decide, by decide, by decide⟩

theorem rescale_raise_exact_witness :
    (∃ r : Int, Decimal.Rescale ⟨some (-15), 1⟩ 3 .RoundUnnecessary = some ⟨some r, 3⟩ ∧
      r = -15 * 10 ^ ((3 : Int) - 1).toNat ∧
      (r : ℚ) / 10 ^ (3 : Int).toNat = ((-15 : Int) : ℚ) / 10 ^ (1 : Int).toNat) ∧
    Decimal.Rescale ⟨some (-15), 1⟩ 3 .RoundUnnecessary = some ⟨some (-1500), 3⟩ :=
  ⟨rescale_raise_exact (-15) 1 3 .RoundUnnecessary (by decide) (by decide) (by decide),
    by decide⟩

theorem Add_Sub_exact_witness :
    (∃ s d : Int,
      Decimal.Add ⟨some 15, 1⟩ ⟨some 25, 2⟩ = some ⟨some s, max 1 2⟩ ∧
      Decimal.Sub ⟨some 15, 1⟩ ⟨some 25, 2⟩ = some ⟨some d, max 1 2⟩ ∧
      s = 15 * 10 ^ (max (1 : Int) 2 - 1).toNat + 25 * 10 ^ (max (1 : Int) 2 - 2).toNat ∧
      d = 15 * 10 ^ (max (1 : Int) 2 - 1).toNat - 25 * 10 ^ (max (1 : Int) 2 - 2).toNat ∧
      (s : ℚ) / 10 ^ (max (1 : Int) 2).toNat
        = ((15 : Int) : ℚ) / 10 ^ (1 : Int).toNat + ((25 : Int) : ℚ) / 10 ^ (2 : Int).toNat ∧
      (d : ℚ) / 10 ^ (max (1 : Int) 2).toNat
        = ((15 : Int) : ℚ) / 10 ^ (1 : Int).toNat - ((25 : Int) : ℚ) / 10 ^ (2 : Int).toNat) ∧
    Decimal.Add ⟨some 15, 1⟩ ⟨some 25, 2⟩ = some ⟨some 175, 2⟩ ∧
    Decimal.Sub ⟨some 15, 1⟩ ⟨some 25, 2⟩ = some ⟨some 125, 2⟩ :=
  ⟨Add_Sub_exact 15 25 1 2 (by decide) (by decide) (by decide) (by decide),
    by decide, by decide⟩

theorem Mul_rounds_exact_product_once_witness :
    (Decimal.Mul ⟨some 1111, 3⟩ ⟨some 1111, 3⟩ .RoundUp
        = Decimal.Rescale
            ⟨some (1111 * 10 ^ (max (3 : Int) 3 - 3).toNat
                * (1111 * 10 ^ (max (3 : Int) 3 - 3).toNat)),
              2 * max 3 3⟩ (max 3 3) .RoundUp ∧
      (((1111 * 10 ^ (max (3 : Int) 3 - 3).toNat
            * (1111 * 10 ^ (max (3 : Int) 3 - 3).toNat) : Int) : ℚ)
          / 10 ^ (2 * max (3 : Int) 3).toNat
        = ((1111 : Int) : ℚ) / 10 ^ (3 : Int).toNat
            * (((1111 : Int) : ℚ) / 10 ^ (3 : Int).toNat)) ∧
      (RoundingMode.RoundUp ≠ .RoundUnnecessary →
        ∃ r : Int, Decimal.Mul ⟨some 1111, 3⟩ ⟨some 1111, 3⟩ .RoundUp
          = some ⟨some r, max 3 3⟩) ∧
      (∀ d : Decimal, Decimal.Mul ⟨some 1111, 3⟩ ⟨some 1111, 3⟩ .RoundUp = some d →
        d.prec = max 3 3) ∧
      (max (3 : Int) 3 = 0 →
        Decimal.Mul ⟨some 1111, 3⟩ ⟨some 1111, 3⟩ .RoundUp = some ⟨some (1111 * 1111), 0⟩)) ∧
    Decimal.Mul ⟨some 1111, 3⟩ ⟨some 1111, 3⟩ .RoundDown = some ⟨some 1234, 3⟩ ∧
    Decimal.Mul ⟨some 1111, 3⟩ ⟨some 1111, 3⟩ .RoundUp = some ⟨some 1235, 3⟩ ∧
    Decimal.Mul ⟨some (-7), 0⟩ ⟨some 6, 0⟩ .RoundHalfEven = some ⟨some (-42), 0⟩ ∧
    Decimal.Mul ⟨some 15, 1⟩ ⟨some 15, 1⟩ .RoundUnnecessary = none :=
  ⟨Mul_rounds_exact_product_once 1111 1111 3 3 .RoundUp (by decide) (by decide) (by decide)
      (by decide),
    by decide, by decide, by decide, by decide⟩


/-! ## Division -/

theorem tdiv_tdiv_of_nonneg (X B m : Int) (hX : 0 ≤ X) (hB : 0 ≤ B) (hm : 0 ≤ m) :
    (X.tdiv B).tdiv m = X.tdiv (B * m) := by
  rw [Int.tdiv_eq_ediv hX hB, Int.tdiv_eq_ediv (Int.ediv_nonneg hX hB) hm,
    Int.tdiv_eq_ediv hX (mul_nonneg hB hm)]
  obtain ⟨x, rfl⟩ := Int.eq_ofNat_of_zero_le hX
  obtain ⟨b, rfl⟩ := Int.eq_ofNat_of_zero_le hB
  obtain ⟨k, rfl⟩ := Int.eq_ofNat_of_zero_le hm
  norm_cast
  exact Nat.div_div_eq_div_mul x b k

/-- Truncating twice is truncating once. -/
theorem tdiv_tdiv (X B m : Int) (hm : 0 ≤ m) : (X.tdiv B).tdiv m = X.tdiv (B * m) := by
  rcases le_or_lt 0 X with hX | hX <;> rcases le_or_lt 0 B with hB | hB
  · exact tdiv_tdiv_of_nonneg X B m hX hB hm
  · have h := tdiv_tdiv_of_nonneg X (-B) m hX (by omega) hm
    rw [Int.tdiv_neg, Int.neg_tdiv, neg_mul, Int.tdiv_neg] at h
    exact neg_injective h
  · have h := tdiv_tdiv_of_nonneg (-X) B m (by omega) hB hm
    rw [Int.neg_tdiv, Int.neg_tdiv, Int.neg_tdiv] at h
    exact neg_injective h
  · have h := tdiv_tdiv_of_nonneg (-X) (-B) m (by omega) (by omega) hm
    rw [Int.neg_tdiv_neg, neg_mul, Int.neg_tdiv_neg] at h
    exact h

theorem floor_div_eq (N B : Int) (hB : 0 < B) : ⌊(N : ℚ) / (B : ℚ)⌋ = N / B := by
  obtain ⟨b, rfl⟩ := Int.eq_ofNat_of_zero_le hB.le
  have h := Rat.floor_intCast_div_natCast N b
  simpa using h

theorem tdiv_eq_trunc_of_pos (N B : Int) (hB : 0 < B) :
    N.tdiv B = if (0 : ℚ) ≤ (N : ℚ) / (B : ℚ) then ⌊(N : ℚ) / (B : ℚ)⌋
      else ⌈(N : ℚ) / (B : ℚ)⌉ := by
  have hBq : (0 : ℚ) < (B : ℚ) := by exact_mod_cast hB
  rcases le_or_lt 0 N with hN | hN
  · have hx : (0 : ℚ) ≤ (N : ℚ) / (B : ℚ) := div_nonneg (by exact_mod_cast hN) hBq.le
    rw [if_pos hx, floor_div_eq N B hB, Int.tdiv_eq_ediv hN hB.le]
  · have hx : ¬ (0 : ℚ) ≤ (N : ℚ) / (B : ℚ) := by
      rw [not_le]
      exact div_neg_of_neg_of_pos (by exact_mod_cast hN) hBq
    have h1 : N.tdiv B = -((-N).tdiv B) := by rw [Int.neg_tdiv, neg_neg]
    have h2 : ((N : ℚ) / (B : ℚ)) = -(((-N : Int) : ℚ) / (B : ℚ)) := by
      push_cast
      ring
    rw [if_neg hx, h1, Int.tdiv_eq_ediv (by omega) hB.le, h2, Int.ceil_neg,
      floor_div_eq (-N) B hB]

/-- Truncated integer division is the rational quotient truncated toward
zero. -/
theorem tdiv_eq_trunc (N B : Int) (hB : B ≠ 0) :
    N.tdiv B = if (0 : ℚ) ≤ (N : ℚ) / (B : ℚ) then ⌊(N : ℚ) / (B : ℚ)⌋
      else ⌈(N : ℚ) / (B : ℚ)⌉ := by
  rcases lt_or_gt_of_ne hB with h | h
  · have h1 := tdiv_eq_trunc_of_pos (-N) (-B) (by omega)
    have h2 : (((-N : Int) : ℚ) / ((-B : Int) : ℚ)) = (N : ℚ) / (B : ℚ) := by
      push_cast
      exact neg_div_neg_eq _ _
    rw [Int.neg_tdiv_neg, h2] at h1
    exact h1
  · exact tdiv_eq_trunc_of_pos N B h

/-! ## Closed forms of the arithmetic operations -/

/-- Every rounding mode is exact on a multiple of the scale. -/
theorem round_of_dvd (x k : Int) (mode : RoundingMode) (h0 : 0 ≤ k) (h1 : k ≤ 128)
    (hd : (10 ^ k.toNat : Int) ∣ x) :
    Decimal.round ⟨some x, k⟩ mode = some ⟨some (x / 10 ^ k.toNat), k⟩ := by
  rcases eq_or_lt_of_le h0 with hk | hk
  · subst hk
    rw [round_zero]
    simp
  · have hk1 : 1 ≤ k := by omega
    have hpos := ten_pow_pos k.toNat
    have hz := (abs_emod_eq_zero_iff_dvd x _).mpr hd
    have h5 : (0 : Int) < 5 * 10 ^ (k - 1).toNat := by positivity
    have hs := sign_mul_abs_ediv_of_dvd x _ hpos hd
    have hdn : Decimal.roundDown ⟨some x, k⟩ = some ⟨some (x / 10 ^ k.toNat), k⟩ := by
      rw [roundDown_eval x k h0 h1, Int.tdiv_eq_ediv_of_dvd hd]
    have hup : Decimal.roundUp ⟨some x, k⟩ = some ⟨some (x / 10 ^ k.toNat), k⟩ := by
      rw [roundUp_eval x k h0 h1, if_pos hz, hs]
    cases mode
    · exact hdn
    · exact hup
    · simp only [Decimal.round, roundCeiling_eval, hdn, hup, ite_self]
    · simp only [Decimal.round, roundHalfUp_eval x k hk1 h1, hz, h5, if_true, hs]
    · simp only [Decimal.round, roundHalfDown_eval x k hk1 h1, hz, h5.le, if_true, hs]
    · simp only [Decimal.round, roundHalfEven_eval x k hk1 h1, hz, h5, if_true, hs]
    · simp only [Decimal.round, roundUnnecessary_eval x k h0 h1, hz, if_true, hs]

theorem Mul_eval (va vb pa pb : Int) (mode : RoundingMode) (ha0 : 0 ≤ pa) (ha1 : pa ≤ 128)
    (hb0 : 0 ≤ pb) (hb1 : pb ≤ 128) :
    Decimal.Mul ⟨some va, pa⟩ ⟨some vb, pb⟩ mode
      = Decimal.round
          ⟨some (va * 10 ^ (max pa pb - pa).toNat * (vb * 10 ^ (max pa pb - pb).toNat)),
            max pa pb⟩ mode := by
  simp only [Decimal.Mul, rescalePair_eval va vb pa pb ha0 ha1 hb0 hb1, Option.some_bind]

/-- Multiplication at one precision `p`. -/
theorem Mul_same (va vb p : Int) (mode : RoundingMode) (h0 : 0 ≤ p) (h1 : p ≤ 128) :
    Decimal.Mul ⟨some va, p⟩ ⟨some vb, p⟩ mode = Decimal.round ⟨some (va * vb), p⟩ mode := by
  rw [Mul_eval va vb p p mode h0 h1 h0 h1]
  simp

/-- Multiplication keeps the precision, and only `RoundUnnecessary` can
panic. -/
theorem Mul_shape (va vb pa pb : Int) (mode : RoundingMode) (ha0 : 0 ≤ pa) (ha1 : pa ≤ 128)
    (hb0 : 0 ≤ pb) (hb1 : pb ≤ 128) (hm : mode ≠ .RoundUnnecessary) :
    ∃ r : Int, Decimal.Mul ⟨some va, pa⟩ ⟨some vb, pb⟩ mode = some ⟨some r, max pa pb⟩ := by
  rw [Mul_eval va vb pa pb mode ha0 ha1 hb0 hb1]
  rcases round_shape (va * 10 ^ (max pa pb - pa).toNat * (vb * 10 ^ (max pa pb - pb).toNat))
    (max pa pb) mode (le_trans ha0 (le_max_left _ _)) (max_le ha1 hb1) with h | ⟨h, _⟩
  · exact h
  · exact absurd h hm

theorem Add_eval (va vb pa pb : Int) (ha0 : 0 ≤ pa) (ha1 : pa ≤ 128)
    (hb0 : 0 ≤ pb) (hb1 : pb ≤ 128) :
    Decimal.Add ⟨some va, pa⟩ ⟨some vb, pb⟩
      = some ⟨some (va * 10 ^ (max pa pb - pa).toNat + vb * 10 ^ (max pa pb - pb).toNat),
          max pa pb⟩ := by
  simp only [Decimal.Add, rescalePair_eval va vb pa pb ha0 ha1 hb0 hb1, Option.some_bind]

theorem Sub_eval (va vb pa pb : Int) (ha0 : 0 ≤ pa) (ha1 : pa ≤ 128)
    (hb0 : 0 ≤ pb) (hb1 : pb ≤ 128) :
    Decimal.Sub ⟨some va, pa⟩ ⟨some vb, pb⟩
      = some ⟨some (va * 10 ^ (max pa pb - pa).toNat - vb * 10 ^ (max pa pb - pb).toNat),
          max pa pb⟩ := by
  simp only [Decimal.Sub, rescalePair_eval va vb pa pb ha0 ha1 hb0 hb1, Option.some_bind]

theorem Cmp_eval (va vb pa pb : Int) (ha0 : 0 ≤ pa) (ha1 : pa ≤ 128)
    (hb0 : 0 ≤ pb) (hb1 : pb ≤ 128) :
    Decimal.Cmp ⟨some va, pa⟩ ⟨some vb, pb⟩
      = some (Big.Cmp (va * 10 ^ (max pa pb - pa).toNat) (vb * 10 ^ (max pa pb - pb).toNat)) := by
  simp only [Decimal.Cmp, rescalePair_eval va vb pa pb ha0 ha1 hb0 hb1, Option.some_bind]

/-- Closed form of `Quo` when both precisions are zero. -/
theorem Quo_eval_zero (va vb : Int) (mode : RoundingMode) (hb : vb ≠ 0) :
    Decimal.Quo ⟨some va, 0⟩ ⟨some vb, 0⟩ mode
      = (Decimal.round ⟨some (Int.tdiv (va * 10 * 10 * 10) (vb * 10)), 2⟩ mode).bind
          fun r => some ⟨r.i, 0⟩ := by
  have h1 := Rescale_raise va 0 1 .RoundDown (le_refl _) (by norm_num) (by norm_num)
  have h2 := Rescale_raise vb 0 1 .RoundDown (le_refl _) (by norm_num) (by norm_num)
  have hm := precisionMultipliers_of_mem 1 (by norm_num) (by norm_num)
  have hne : vb * 10 ≠ 0 := by omega
  have hr := Rescale_lower (Int.tdiv (va * 10 * 10 * 10) (vb * 10)) 2 0 mode (le_refl _)
    (by norm_num) (by norm_num)
  norm_num at h1 h2 hm hr
  simp [Decimal.Quo, Decimal.RescaleDown, h1, h2, hm, Big.Quo, hne, hr]

/-- Closed form of `Quo` when a precision is not zero. -/
theorem Quo_eval (va vb pa pb : Int) (mode : RoundingMode) (ha0 : 0 ≤ pa) (ha1 : pa ≤ 128)
    (hb0 : 0 ≤ pb) (hb1 : pb ≤ 128) (hp : ¬ (pa = 0 ∧ pb = 0)) (hb : vb ≠ 0) :
    Decimal.Quo ⟨some va, pa⟩ ⟨some vb, pb⟩ mode
      = Decimal.round
          ⟨some (Int.tdiv
              (va * 10 ^ (max pa pb - pa).toNat * 10 ^ (max pa pb).toNat
                * 10 ^ (max pa pb).toNat)
              (vb * 10 ^ (max pa pb - pb).toNat)), max pa pb⟩ mode := by
  have hM0 : 0 ≤ max pa pb := le_trans ha0 (le_max_left _ _)
  have hM1 : max pa pb ≤ 128 := max_le ha1 hb1
  have hm := precisionMultipliers_of_mem (max pa pb) hM0 hM1
  have hne : vb * 10 ^ (max pa pb - pb).toNat ≠ 0 :=
    mul_ne_zero hb (ten_pow_pos _).ne'
  simp only [Decimal.Quo, hp, if_false, rescalePair_eval va vb pa pb ha0 ha1 hb0 hb1, hm,
    Option.some_bind, Big.Quo, hne]

/-- Division by a non-zero value returns the larger precision, and only
`RoundUnnecessary` can panic. -/
theorem Quo_shape (va vb pa pb : Int) (mode : RoundingMode) (ha0 : 0 ≤ pa) (ha1 : pa ≤ 128)
    (hb0 : 0 ≤ pb) (hb1 : pb ≤ 128) (hb : vb ≠ 0) (hm : mode ≠ .RoundUnnecessary) :
    ∃ r : Int, Decimal.Quo ⟨some va, pa⟩ ⟨some vb, pb⟩ mode = some ⟨some r, max pa pb⟩ := by
  by_cases hp : pa = 0 ∧ pb = 0
  · obtain ⟨rfl, rfl⟩ := hp
    rw [Quo_eval_zero va vb mode hb]
    rcases round_shape (Int.tdiv (va * 10 * 10 * 10) (vb * 10)) 2 mode (by norm_num)
      (by norm_num) with ⟨r, hr⟩ | ⟨h, _⟩
    · exact ⟨r, by rw [hr]; rfl⟩
    · exact absurd h hm
  · rw [Quo_eval va vb pa pb mode ha0 ha1 hb0 hb1 hp hb]
    rcases round_shape _ (max pa pb) mode (le_trans ha0 (le_max_left _ _)) (max_le ha1 hb1)
      with h | ⟨h, _⟩
    · exact h
    · exact absurd h hm


/-- Claim C11 (amended): for non-nil operands of precisions in `[0, 128]` and a
non-zero divisor, `QuoDown` returns precision `p = max pa pb` and the exact rational quotient
`(a / b) * 10^p` truncated toward zero (its floor when it is non-negative, its
ceiling when it is negative), also when both precisions are zero. -/
theorem QuoDown_truncates (va vb pa pb : Int) (ha0 : 0 ≤ pa) (ha1 : pa ≤ 128)
    (hb0 : 0 ≤ pb) (hb1 : pb ≤ 128) (hb : vb ≠ 0) :
    ∃ r : Int, Decimal.QuoDown ⟨some va, pa⟩ ⟨some vb, pb⟩ = some ⟨some r, max pa pb⟩ ∧
      r = if (0 : ℚ) ≤ (va : ℚ) / 10 ^ pa.toNat / ((vb : ℚ) / 10 ^ pb.toNat)
              * 10 ^ (max pa pb).toNat
          then ⌊(va : ℚ) / 10 ^ pa.toNat / ((vb : ℚ) / 10 ^ pb.toNat)
              * 10 ^ (max pa pb).toNat⌋
          else ⌈(va : ℚ) / 10 ^ pa.toNat / ((vb : ℚ) / 10 ^ pb.toNat)
              * 10 ^ (max pa pb).toNat⌉ := by
  have hbq : (vb : ℚ) ≠ 0 := by exact_mod_cast hb
  by_cases hp : pa = 0 ∧ pb = 0
  · obtain ⟨rfl, rfl⟩ := hp
    have h2 : (0 : Int) ≤ 2 := by norm_num
    have hev := roundDown_eval (Int.tdiv (va * 10 * 10 * 10) (vb * 10)) 2 h2 (by norm_num)
    refine ⟨(Int.tdiv (va * 10 * 10 * 10) (vb * 10)).tdiv (10 ^ (2 : Int).toNat), ?_, ?_⟩
    · rw [Decimal.QuoDown, Quo_eval_zero va vb _ hb, Decimal.round, hev, max_self]
      rfl
    · have hne : vb * 10 * 10 ^ (2 : Int).toNat ≠ 0 :=
        mul_ne_zero (mul_ne_zero hb (by norm_num)) (ten_pow_pos _).ne'
      have hx : (((va * 10 * 10 * 10 : Int) : ℚ) / ((vb * 10 * 10 ^ (2 : Int).toNat : Int) : ℚ))
          = (va : ℚ) / 10 ^ (0 : Int).toNat / ((vb : ℚ) / 10 ^ (0 : Int).toNat)
              * 10 ^ (max (0 : Int) 0).toNat := by
        push_cast
        simp
        field_simp
        ring
      rw [tdiv_tdiv _ _ _ (ten_pow_pos _).le, tdiv_eq_trunc _ _ hne, hx]
  · have hM0 : 0 ≤ max pa pb := le_trans ha0 (le_max_left _ _)
    have hM1 : max pa pb ≤ 128 := max_le ha1 hb1
    refine ⟨(Int.tdiv
        (va * 10 ^ (max pa pb - pa).toNat * 10 ^ (max pa pb).toNat * 10 ^ (max pa pb).toNat)
        (vb * 10 ^ (max pa pb - pb).toNat)).tdiv (10 ^ (max pa pb).toNat), ?_, ?_⟩
    · rw [Decimal.QuoDown, Quo_eval va vb pa pb _ ha0 ha1 hb0 hb1 hp hb, Decimal.round,
        roundDown_eval _ _ hM0 hM1]
    · have hne : vb * 10 ^ (max pa pb - pb).toNat * 10 ^ (max pa pb).toNat ≠ 0 :=
        mul_ne_zero (mul_ne_zero hb (ten_pow_pos _).ne') (ten_pow_pos _).ne'
      have ra := rat_scale va pa (max pa pb) ha0 (le_max_left _ _)
      have rb := rat_scale vb pb (max pa pb) hb0 (le_max_right _ _)
      have hx : (((va * 10 ^ (max pa pb - pa).toNat * 10 ^ (max pa pb).toNat
            * 10 ^ (max pa pb).toNat : Int) : ℚ)
          / ((vb * 10 ^ (max pa pb - pb).toNat * 10 ^ (max pa pb).toNat : Int) : ℚ))
          = (va : ℚ) / 10 ^ pa.toNat / ((vb : ℚ) / 10 ^ pb.toNat)
              * 10 ^ (max pa pb).toNat := by
        rw [← ra, ← rb]
        push_cast
        field_simp
        ring
      rw [tdiv_tdiv _ _ _ (ten_pow_pos _).le, tdiv_eq_trunc _ _ hne, hx]

theorem QuoDown_truncates_witness :
    (∃ r : Int, Decimal.QuoDown ⟨some (-5), 0⟩ ⟨some 2, 0⟩ = some ⟨some r, max 0 0⟩ ∧
      r = if (0 : ℚ) ≤ ((-5 : Int) : ℚ) / 10 ^ (0 : Int).toNat
                / (((2 : Int) : ℚ) / 10 ^ (0 : Int).toNat) * 10 ^ (max (0 : Int) 0).toNat
          then ⌊((-5 : Int) : ℚ) / 10 ^ (0 : Int).toNat
                / (((2 : Int) : ℚ) / 10 ^ (0 : Int).toNat) * 10 ^ (max (0 : Int) 0).toNat⌋
          else ⌈((-5 : Int) : ℚ) / 10 ^ (0 : Int).toNat
                / (((2 : Int) : ℚ) / 10 ^ (0 : Int).toNat) * 10 ^ (max (0 : Int) 0).toNat⌉) ∧
    Decimal.QuoDown ⟨some 5, 0⟩ ⟨some 2, 0⟩ = some ⟨some 2, 0⟩ ∧
    Decimal.QuoDown ⟨some (-5), 0⟩ ⟨some (-2), 0⟩ = some ⟨some 2, 0⟩ ∧
    Decimal.QuoDown ⟨some 5, 0⟩ ⟨some (-2), 0⟩ = some ⟨some (-2), 0⟩ ∧
    Decimal.QuoDown ⟨some (-5), 0⟩ ⟨some 2, 0⟩ = some ⟨some (-2), 0⟩ ∧
    Decimal.QuoDown ⟨some 1, 0⟩ ⟨some 3000, 3⟩ = some ⟨some 333, 3⟩ :=
  ⟨QuoDown_truncates (-5) 2 0 0 (by decide) (by decide) (by decide) (by decide) (by decide),
    by decide, by decide, by decide, by decide, by decide⟩

/-- Claim C12, evaluated at the failing input: `1 / 1000` at precision 0 under
`RoundUp` is `0`, although the exact quotient `0.001` is positive and rounding
away from zero gives `1`; `1001 / 1000` gives `1` instead of `2`, and
`1.0 / 300.0` gives `0.0` instead of `0.1`. -/
theorem Quo_RoundUp_drops_remainder :
    Decimal.Quo ⟨some 1, 0⟩ ⟨some 1000, 0⟩ .RoundUp = some ⟨some 0, 0⟩ ∧
    Decimal.Quo ⟨some 1001, 0⟩ ⟨some 1000, 0⟩ .RoundUp = some ⟨some 1, 0⟩ ∧
    Decimal.Quo ⟨some 10, 1⟩ ⟨some 3000, 1⟩ .RoundUp = some ⟨some 0, 1⟩ ∧
    Decimal.Quo ⟨some 5, 0⟩ ⟨some 2, 0⟩ .RoundUp = some ⟨some 3, 0⟩ ∧
    Decimal.Quo ⟨some 5, 0⟩ ⟨some (-2), 0⟩ .RoundUp = some ⟨some (-3), 0⟩ ∧
    Decimal.Quo ⟨some 11, 0⟩ ⟨some 1000, 1⟩ .RoundUp = some ⟨some 2, 1⟩ := by
  decide

/-- Claim C13, evaluated at the failing input: `1 / 1000` at precision 0 under
`RoundUnnecessary` returns `0` and does not panic, although the exact quotient
`0.001` is not an integer; `1 / 3` does panic. -/
theorem Quo_RoundUnnecessary_returns_truncated :
    Decimal.Quo ⟨some 1, 0⟩ ⟨some 1000, 0⟩ .RoundUnnecessary = some ⟨some 0, 0⟩ ∧
    Decimal.Quo ⟨some 10, 1⟩ ⟨some 3000, 1⟩ .RoundUnnecessary = some ⟨some 0, 1⟩ ∧
    Decimal.Quo ⟨some 1, 0⟩ ⟨some 3, 0⟩ .RoundUnnecessary = none := by
  decide


/-! ## Constructors and powers -/

theorem requirePrecision_of_le (p : Int) (h1 : p ≤ 128) : requirePrecision p = some () := by
  have : ¬ p > 128 := by omega
  simp [requirePrecision, MaxPrecision, this]

theorem New_eval (v : Int) : Decimal.New v = some ⟨some v, 0⟩ := by
  simp [Decimal.New, Decimal.NewFromBigInt, Decimal.NewFromBigIntWithPrec,
    requirePrecision_of_le 0 (by norm_num)]

theorem NewWithAppendPrec_eval (v p : Int) (h0 : 0 ≤ p) (h1 : p ≤ 128) :
    Decimal.NewWithAppendPrec v p = some ⟨some (v * 10 ^ p.toNat), p⟩ := by
  have hmax : max p 0 = p := max_eq_left h0
  simp only [Decimal.NewWithAppendPrec, Decimal.NewFromBigIntWithPrec,
    requirePrecision_of_le p h1, New_eval, Option.some_bind, mul_one,
    Mul_eval _ _ p 0 _ h0 h1 (le_refl _) (by norm_num)]
  simp only [hmax, sub_self, Int.toNat_zero, pow_zero, mul_one, sub_zero]
  rw [mul_comm (10 ^ p.toNat) (v * 10 ^ p.toNat),
    round_of_dvd _ p _ h0 h1 (Dvd.intro_left _ rfl), Int.mul_ediv_cancel _ (ten_pow_pos _).ne']

theorem NewFromUintWithAppendPrec_eval (v p : Int) (h0 : 0 ≤ p) (h1 : p ≤ 128) :
    Decimal.NewFromUintWithAppendPrec v p = some ⟨some (v * 10 ^ p.toNat), p⟩ := by
  have h := NewWithAppendPrec_eval v p h0 h1
  simp only [Decimal.NewWithAppendPrec, New_eval] at h
  simp only [Decimal.NewFromUintWithAppendPrec, Decimal.NewFromUint64,
    requirePrecision_of_le 0 (by norm_num), Option.some_bind]
  exact h

theorem Mul_zero_prec (a b : Int) (mode : RoundingMode) :
    Decimal.Mul ⟨some a, 0⟩ ⟨some b, 0⟩ mode = some ⟨some (a * b), 0⟩ := by
  rw [Mul_same a b 0 mode (le_refl _) (by norm_num), round_zero]

/-- The loop of `Power` at precision zero keeps `tmp * resultD ^ i`. -/
theorem powerLoop_zero_prec :
    ∀ (fuel : Nat) (i t r : Int), 1 ≤ i → i ≤ 2 ^ fuel →
      ∃ t' r' : Int, Decimal.powerLoop fuel i ⟨some t, 0⟩ ⟨some r, 0⟩
          = some (⟨some t', 0⟩, ⟨some r', 0⟩) ∧ r' * t' = t * r ^ i.toNat := by
  intro fuel
  induction fuel with
  | zero =>
    intro i t r h1 h2
    have hi : i = 1 := by
      simp at h2
      omega
    subst hi
    exact ⟨t, r, by simp [Decimal.powerLoop], by simp [mul_comm]⟩
  | succ fuel ih =>
    intro i t r h1 h2
    by_cases hi : i > 1
    · have hhalf1 : 1 ≤ i / 2 := by omega
      have hhalf2 : i / 2 ≤ 2 ^ fuel := by
        rw [pow_succ] at h2
        omega
      have hnat : i.toNat = 2 * (i / 2).toNat + (i % 2).toNat := by omega
      by_cases hodd : i % 2 ≠ 0
      · obtain ⟨t', r', hl, hv⟩ := ih (i / 2) (t * r) (r * r) hhalf1 hhalf2
        refine ⟨t', r', ?_, ?_⟩
        · simp only [Decimal.powerLoop, hi, if_true, hodd, ne_eq, not_false_eq_true,
            Mul_zero_prec, Option.some_bind, hl]
        · have h1' : (i % 2).toNat = 1 := by omega
          rw [hv, hnat, h1', pow_add, pow_mul, pow_one]
          ring
      · obtain ⟨t', r', hl, hv⟩ := ih (i / 2) t (r * r) hhalf1 hhalf2
        refine ⟨t', r', ?_, ?_⟩
        · simp only [Decimal.powerLoop, hi, if_true, hodd, if_false,
            Mul_zero_prec, Option.some_bind, hl]
        · have h0' : (i % 2).toNat = 0 := by omega
          rw [hv, hnat, h0', pow_add, pow_mul, pow_zero]
          ring
    · have hi1 : i = 1 := by omega
      subst hi1
      exact ⟨t, r, by simp [Decimal.powerLoop], by simp [mul_comm]⟩

/-- Closed form of `Power` at precision zero. -/
theorem Power_zero_prec (v n : Int) (h0 : 0 ≤ n) (h1 : n < 9223372036854775808) :
    Decimal.Power ⟨some v, 0⟩ n = some ⟨some (v ^ n.toNat), 0⟩ := by
  by_cases hn : n = 0
  · subst hn
    simp [Decimal.Power, Decimal.One, Decimal.Rescale]
  · have hpos : ¬ n < 0 := by omega
    have hle : n ≤ 2 ^ 64 := by
      have : (2 : Int) ^ 64 = 18446744073709551616 := by norm_num
      omega
    obtain ⟨t', r', hl, hv⟩ := powerLoop_zero_prec 64 n 1 v (by omega) hle
    have hnew := NewWithAppendPrec_eval 1 0 (le_refl _) (by norm_num)
    simp only [Int.toNat_zero, pow_zero, mul_one] at hnew
    simp only [Decimal.Power, hn, if_false, hpos, Decimal.powerTail, hnew, Option.some_bind, hl,
      Mul_zero_prec, hv, one_mul]

/-- Claim C14: for every Decimal of precision 0 and every exponent `n ≥ 0` (a
64-bit integer), `Power(n)` returns precision 0 and exactly `v ^ n`; so
`Power(0)` is 1 for every value, 0 included. -/
theorem Power_exact_at_precision_zero (v n : Int) (h0 : 0 ≤ n)
    (h1 : n < 9223372036854775808) :
    Decimal.Power ⟨some v, 0⟩ n = some ⟨some (v ^ n.toNat), 0⟩ ∧
      Decimal.Power ⟨some v, 0⟩ 0 = some ⟨some 1, 0⟩ := by
  refine ⟨Power_zero_prec v n h0 h1, ?_⟩
  have h := Power_zero_prec v 0 (le_refl _) (by norm_num)
  simpa using h

theorem Power_exact_at_precision_zero_witness :
    (Decimal.Power ⟨some (-2), 0⟩ 3 = some ⟨some ((-2) ^ (3 : Int).toNat), 0⟩ ∧
      Decimal.Power ⟨some (-2), 0⟩ 0 = some ⟨some 1, 0⟩) ∧
    Decimal.Power ⟨some 2, 0⟩ 8 = some ⟨some 256, 0⟩ ∧
    Decimal.Power ⟨some (-2), 0⟩ 3 = some ⟨some (-8), 0⟩ ∧
    Decimal.Power ⟨some 0, 0⟩ 0 = some ⟨some 1, 0⟩ :=
  ⟨Power_exact_at_precision_zero (-2) 3 (by decide) (by decide), by decide, by decide,
    by decide⟩


/-! ## Bit length and the most significant bit -/

theorem BitLen_eq_size (x : Int) : Big.BitLen x = Nat.size x.natAbs := by
  rw [Big.BitLen, toDigits_eq 2 _ (le_refl _), List.length_reverse, Nat.digits_two_eq_bits,
    List.length_map, Nat.size_eq_bits_len]

theorem size_div_two_pow (n h : Nat) : Nat.size (n / 2 ^ h) = Nat.size n - h := by
  have hlt := Nat.lt_size_self n
  apply le_antisymm
  · rw [Nat.size_le]
    by_cases hh : h ≤ Nat.size n
    · rw [Nat.div_lt_iff_lt_mul (by positivity), ← pow_add, Nat.sub_add_cancel hh]
      exact hlt
    · have h1 : Nat.size n - h = 0 := by omega
      have h2 : n < 2 ^ h :=
        lt_of_lt_of_le hlt (Nat.pow_le_pow_right (by norm_num) (by omega))
      rw [h1, Nat.div_eq_of_lt h2]
      norm_num
  · by_cases h0 : Nat.size n - h = 0
    · omega
    · have h1 : Nat.size n - h - 1 < Nat.size (n / 2 ^ h) := by
        rw [Nat.lt_size, Nat.le_div_iff_mul_le (by positivity), ← pow_add]
        have h2 : Nat.size n - h - 1 + h = Nat.size n - 1 := by omega
        rw [h2, ← Nat.lt_size]
        omega
      omega

/-- The loop of `MostSignificantBit` started with `bitLen = x.BitLen()` always
takes the branch that shifts `x`, adds the whole bit length to `msb` and
leaves 0 in `x`. -/
theorem msbLoop_spec :
    ∀ (fuel n : Nat) (msb : Int), Nat.size n ≤ fuel →
      msbLoop fuel (Nat.size n) msb n = some (msb + Nat.size n, 0) := by
  intro fuel
  induction fuel with
  | zero =>
    intro n msb hn
    have h0 : Nat.size n = 0 := by omega
    have hn0 : n = 0 := Nat.size_eq_zero.mp h0
    subst hn0
    simp [msbLoop]
  | succ fuel ih =>
    intro n msb hn
    by_cases h0 : Nat.size n = 0
    · have hn0 : n = 0 := Nat.size_eq_zero.mp h0
      subst hn0
      simp [msbLoop]
    · have hL : (0 : Int) < (Nat.size n : Int) := by omega
      -- the half, rounded up
      have hhalf : (if (Nat.size n : Int) / 2 * 2 ≠ (Nat.size n : Int)
          then (Nat.size n : Int) / 2 + 1 else (Nat.size n : Int) / 2)
          = (((Nat.size n + 1) / 2 : Nat) : Int) := by
        split_ifs <;> omega
      have hh1 : 1 ≤ (Nat.size n + 1) / 2 := by omega
      have hh2 : (Nat.size n + 1) / 2 ≤ Nat.size n := by omega
      have hlow : 2 ^ (Nat.size n - 1) ≤ n := by
        rw [← Nat.lt_size]
        omega
      have hmask : 2 ^ ((Nat.size n + 1) / 2) ≤ n + 1 := by
        by_cases h1 : Nat.size n = 1
        · rw [h1] at hlow ⊢
          norm_num at hlow ⊢
          omega
        · have : 2 ^ ((Nat.size n + 1) / 2) ≤ 2 ^ (Nat.size n - 1) :=
            Nat.pow_le_pow_right (by norm_num) (by omega)
          omega
      have hcmp : Big.Cmp (n : Int) (2 ^ ((Nat.size n + 1) / 2) - 1) ≥ 0 := by
        have : ((2 : Int) ^ ((Nat.size n + 1) / 2) - 1) ≤ (n : Int) := by
          have := (Int.ofNat_le).mpr hmask
          push_cast at this
          omega
        unfold Big.Cmp
        split_ifs <;> omega
      have hdiv : (n : Int) / 2 ^ ((Nat.size n + 1) / 2)
          = ((n / 2 ^ ((Nat.size n + 1) / 2) : Nat) : Int) := by
        push_cast
        rfl
      have hsz := size_div_two_pow n ((Nat.size n + 1) / 2)
      have hrec := ih (n / 2 ^ ((Nat.size n + 1) / 2)) (msb + ((Nat.size n + 1) / 2 : Nat))
        (by omega)
      rw [hsz] at hrec
      have hsub : ((Nat.size n : Int) - (((Nat.size n + 1) / 2 : Nat) : Int))
          = ((Nat.size n - (Nat.size n + 1) / 2 : Nat) : Int) := by
        omega
      rw [msbLoop]
      simp only [hL, if_true, hhalf, Int.toNat_ofNat, hcmp, hdiv, hsub, hrec]
      congr 2
      push_cast
      omega

/-- For a positive integer `MostSignificantBit` returns the bit length minus
one, and the integer it was given is left at 0. -/
theorem MostSignificantBit_pos (n : Nat) (hn : 0 < n) (hs : Nat.size n ≤ 18446744073709551616) :
    MostSignificantBit (n : Int) = some (((Nat.size n - 1 : Nat) : Int), 0) := by
  have hsign : Big.Sign (n : Int) = 1 := by
    unfold Big.Sign
    split_ifs <;> omega
  have hsz : 0 < Nat.size n := Nat.size_pos.mpr hn
  have hbl : Big.BitLen (n : Int) = Nat.size n := by
    rw [BitLen_eq_size]
    simp
  have hloop := msbLoop_spec (Nat.size n) n 0 (le_refl _)
  simp only [MostSignificantBit, hsign, hbl, hloop, Option.some_bind]
  norm_num
  omega

theorem MostSignificantBit_two_pow (k : Nat) (hk : k < 9223372036854775808) :
    MostSignificantBit (2 ^ k : Int) = some ((k : Int), 0) := by
  have h := MostSignificantBit_pos (2 ^ k) (by positivity) (by rw [Nat.size_pow]; omega)
  rw [Nat.size_pow] at h
  simpa using h


/-! ## Log2 of a power of two -/

theorem round_sq_unit (p : Int) (mode : RoundingMode) (h0 : 0 ≤ p) (h1 : p ≤ 128) :
    Decimal.round ⟨some (10 ^ p.toNat * 10 ^ p.toNat), p⟩ mode = some ⟨some (10 ^ p.toNat), p⟩ := by
  rw [round_of_dvd _ p mode h0 h1 (Dvd.intro _ rfl),
    Int.mul_ediv_cancel _ (ne_of_gt (ten_pow_pos p.toNat))]

/-- Squaring the Decimal 1 of precision `p` gives it back. -/
theorem Power_two_of_unit (p : Int) (h0 : 0 ≤ p) (h1 : p ≤ 128) :
    Decimal.Power ⟨some (10 ^ p.toNat), p⟩ 2 = some ⟨some (10 ^ p.toNat), p⟩ := by
  have hloop : Decimal.powerLoop 64 2 ⟨some (10 ^ p.toNat), p⟩ ⟨some (10 ^ p.toNat), p⟩
      = some (⟨some (10 ^ p.toNat), p⟩, ⟨some (10 ^ p.toNat), p⟩) := by
    rw [show (64 : Nat) = 62 + 1 + 1 from rfl, Decimal.powerLoop]
    simp only [Mul_same _ _ p _ h0 h1, round_sq_unit p _ h0 h1]
    norm_num [Decimal.powerLoop]
  simp only [Decimal.Power, Decimal.powerTail, NewWithAppendPrec_eval 1 p h0 h1, one_mul,
    Option.some_bind, hloop, Mul_same _ _ p _ h0 h1, round_sq_unit p _ h0 h1]
  norm_num

/-- The loop of `Log2` started with the remainder 1 leaves the result as it
is: the remainder stays 1 in each of the `maxIterations` rounds. -/
theorem log2Loop_of_unit (p res : Int) (h0 : 0 ≤ p) (h1 : p ≤ 128) :
    ∀ (fuel : Nat) (i : Int),
      Decimal.log2Loop ⟨some (10 ^ p.toNat), p⟩ ⟨some (2 * 10 ^ p.toNat), p⟩ fuel i
        ⟨some res, p⟩ ⟨some (10 ^ p.toNat), p⟩ = some ⟨some res, p⟩ := by
  intro fuel
  induction fuel with
  | zero => intro i; rfl
  | succ fuel ih =>
    intro i
    have hpos := ten_pow_pos p.toNat
    have hs : Decimal.Sign ⟨some (10 ^ p.toNat), p⟩ = some 1 := by
      simp only [Decimal.Sign, Big.Sign, Option.map_some']
      have h2 : ¬ ((10 : Int) ^ p.toNat < 0) := by omega
      have h3 : ¬ ((10 : Int) ^ p.toNat = 0) := by omega
      simp [h2, h3]
    have hge : Decimal.GTE ⟨some (10 ^ p.toNat), p⟩ ⟨some (2 * 10 ^ p.toNat), p⟩
        = some false := by
      simp only [Decimal.GTE, Cmp_eval _ _ p p h0 h1 h0 h1, max_self, sub_self, Int.toNat_zero,
        pow_zero, mul_one, Option.map_some', Big.Cmp]
      have h2 : (10 : Int) ^ p.toNat < 2 * 10 ^ p.toNat := by omega
      simp [h2]
    rw [Decimal.log2Loop]
    simp only [hs, Option.some_bind, hge]
    norm_num
    simp only [Power_two_of_unit p h0 h1, Option.some_bind]
    exact ih _

/-- Claim C16: for every precision `p` in [0,128] and every `k ≥ 0` (below
2^63, the exponent `Log2` passes to `Power` being a 64-bit integer), `Log2` of
the Decimal of precision `p` with value `2^k` (unscaled `2^k * 10^p`) returns
`k` at precision `p` (unscaled `k * 10^p`). -/
theorem Log2_of_two_pow (p : Int) (k : Nat) (h0 : 0 ≤ p) (h1 : p ≤ 128)
    (hk : k < 9223372036854775808) :
    Decimal.Log2 ⟨some (2 ^ k * 10 ^ p.toNat), p⟩ = some ⟨some ((k : Int) * 10 ^ p.toNat), p⟩ := by
  have hpos := ten_pow_pos p.toNat
  have h2pos : (0 : Int) < 2 ^ k := by positivity
  have hd : (0 : Int) < 2 ^ k * 10 ^ p.toNat := mul_pos h2pos hpos
  have hone : (1 : Int) ≤ 2 ^ k := by omega
  have hs : Decimal.Sign ⟨some (2 ^ k * 10 ^ p.toNat), p⟩ = some 1 := by
    simp only [Decimal.Sign, Big.Sign, Option.map_some']
    have h2 : ¬ ((2 : Int) ^ k * 10 ^ p.toNat < 0) := by omega
    have h3 : ¬ ((2 : Int) ^ k * 10 ^ p.toNat = 0) := by omega
    simp [h2, h3]
  have hcmp : Decimal.Cmp ⟨some (2 ^ k * 10 ^ p.toNat), p⟩ ⟨some (10 ^ p.toNat), p⟩
      = some (Big.Cmp (2 ^ k * 10 ^ p.toNat) (10 ^ p.toNat)) := by
    rw [Cmp_eval _ _ p p h0 h1 h0 h1]
    simp
  have hc : ¬ (Big.Cmp ((2 : Int) ^ k * 10 ^ p.toNat) (10 ^ p.toNat) < 0) := by
    have h2 : ¬ ((2 : Int) ^ k * 10 ^ p.toNat < 10 ^ p.toNat) := by
      have := mul_le_mul_of_nonneg_right hone hpos.le
      omega
    unfold Big.Cmp
    rw [if_neg h2]
    split_ifs <;> omega
  have hrem : Decimal.Remainder ⟨some (2 ^ k * 10 ^ p.toNat), p⟩ = some (2 ^ k, 0) := by
    simp only [Decimal.Remainder, Option.some_bind, precisionMultipliers_of_mem p h0 h1,
      Big.QuoRem, if_neg (ne_of_gt hpos)]
    rw [Int.mul_tdiv_cancel _ (ne_of_gt hpos), Int.tmod_def,
      Int.mul_tdiv_cancel _ (ne_of_gt hpos)]
    congr 2
    ring
  have hmsb : MostSignificantBit (2 ^ k : Int) = some ((k : Int), 0) :=
    MostSignificantBit_two_pow k hk
  have hk64 : toInt64 (k : Int) = k :=
    toInt64_of_mem_range _ (by omega) (by omega)
  have hpw : Decimal.Power ⟨some 2, 0⟩ (k : Int) = some ⟨some (2 ^ k), 0⟩ := by
    rw [Power_zero_prec 2 k (by omega) (by omega)]
    simp
  have hquo : Decimal.Quo ⟨some (2 ^ k * 10 ^ p.toNat), p⟩ ⟨some (2 ^ k), 0⟩ .RoundHalfEven
      = some ⟨some (10 ^ p.toNat), p⟩ := by
    by_cases hp : p = 0
    · subst hp
      rw [Quo_eval_zero _ _ _ (ne_of_gt h2pos)]
      have h100 : Int.tdiv ((2 : Int) ^ k * 10 ^ (0 : Int).toNat * 10 * 10 * 10) (2 ^ k * 10)
          = 100 := by
        have : (2 : Int) ^ k * 10 ^ (0 : Int).toNat * 10 * 10 * 10 = 100 * (2 ^ k * 10) := by
          simp; ring
        rw [this, Int.mul_tdiv_cancel _ (by omega)]
      rw [h100, round_of_dvd 100 2 _ (by norm_num) (by norm_num) (by decide)]
      simp
    · have hnz : ¬ (p = 0 ∧ (0 : Int) = 0) := fun h => hp h.1
      rw [Quo_eval _ _ p 0 _ h0 h1 (le_refl _) (by norm_num) hnz (ne_of_gt h2pos)]
      have hmax : max p 0 = p := max_eq_left h0
      rw [hmax]
      have hq : Int.tdiv ((2 : Int) ^ k * 10 ^ p.toNat * 10 ^ (p - p).toNat * 10 ^ p.toNat
            * 10 ^ p.toNat) (2 ^ k * 10 ^ (p - 0).toNat) = 10 ^ p.toNat * 10 ^ p.toNat := by
        have : (2 : Int) ^ k * 10 ^ p.toNat * 10 ^ (p - p).toNat * 10 ^ p.toNat * 10 ^ p.toNat
            = 10 ^ p.toNat * 10 ^ p.toNat * (2 ^ k * 10 ^ (p - 0).toNat) := by
          simp; ring
        rw [this, Int.mul_tdiv_cancel _ (by positivity)]
      rw [hq, round_sq_unit p _ h0 h1]
  have hk2 : ¬ ((k : Int) < 0) := by omega
  have hone_eval := NewWithAppendPrec_eval 1 p h0 h1
  rw [one_mul] at hone_eval
  have hl := log2Loop_of_unit p ((k : Int) * 10 ^ p.toNat) h0 h1 maxIterations 0
  have h10 : ¬ ((1 : Int) ≤ 0) := by norm_num
  unfold Decimal.Log2
  rw [hs]
  simp only [Option.some_bind, hone_eval, NewWithAppendPrec_eval 2 p h0 h1, hcmp, if_neg h10]
  have hdec : decide (Big.Cmp ((2 : Int) ^ k * 10 ^ p.toNat) (10 ^ p.toNat) < 0) = false :=
    decide_eq_false hc
  simp only [hdec, Bool.false_eq_true, if_false, Option.some_bind, hrem, hmsb]
  simp only [NewFromUintWithAppendPrec_eval _ p h0 h1, hk64, if_neg hk2, New_eval,
    Option.some_bind, hpw, hquo]
  rw [hl, Option.some_bind]

set_option maxRecDepth 20000 in
theorem Log2_of_two_pow_witness :
    Decimal.Log2 ⟨some (2 ^ 4 * 10 ^ (2 : Int).toNat), 2⟩
        = some ⟨some (((4 : Nat) : Int) * 10 ^ (2 : Int).toNat), 2⟩ ∧
    Decimal.Log2 ⟨some 4, 0⟩ = some ⟨some 2, 0⟩ :=
  ⟨Log2_of_two_pow 2 4 (by decide) (by decide) (by decide), by decide⟩

/-! ## Square root -/

theorem Abs_some (v k : Int) : Decimal.Abs ⟨some v, k⟩ = some ⟨some (abs v), k⟩ := by
  rw [Decimal.Abs, IsNegative_some]
  by_cases h : v < 0
  · simp [h, Decimal.Neg, abs_of_neg h]
  · simp [h, abs_of_nonneg (not_lt.mp h)]

theorem IsZero_some (v k : Int) : Decimal.IsZero ⟨some v, k⟩ = some (decide (v = 0)) := by
  simp only [Decimal.IsZero, Decimal.Sign, Option.map_some', Big.Sign]
  by_cases h1 : v < 0
  · have : v ≠ 0 := by omega
    simp [h1, this]
  · by_cases h2 : v = 0
    · simp [h2]
    · simp [h1, h2]

/-- The first power: `Power(1)` multiplies by the Decimal 1 of the same
precision, which is exact. -/
theorem Power_one (g p : Int) (h0 : 0 ≤ p) (h1 : p ≤ 128) :
    Decimal.Power ⟨some g, p⟩ 1 = some ⟨some g, p⟩ := by
  have hloop : Decimal.powerLoop 64 1 ⟨some (10 ^ p.toNat), p⟩ ⟨some g, p⟩
      = some (⟨some (10 ^ p.toNat), p⟩, ⟨some g, p⟩) := by
    rw [show (64 : Nat) = 63 + 1 from rfl, Decimal.powerLoop]
    norm_num
  have hone := NewWithAppendPrec_eval 1 p h0 h1
  rw [one_mul] at hone
  have hr : Decimal.round ⟨some (g * 10 ^ p.toNat), p⟩ .RoundHalfEven = some ⟨some g, p⟩ := by
    rw [round_of_dvd _ p _ h0 h1 (Dvd.intro_left _ rfl),
      Int.mul_ediv_cancel _ (ne_of_gt (ten_pow_pos p.toNat))]
  have h10 : ¬ ((1 : Int) = 0) := by norm_num
  have h11 : ¬ ((1 : Int) < 0) := by norm_num
  simp only [Decimal.Power, if_neg h10, if_neg h11, Decimal.powerTail, hone, Option.some_bind,
    hloop, Mul_same _ _ p _ h0 h1, hr]

theorem tdiv_two_eq (a : Int) :
    Int.tdiv a 2 = if 0 ≤ a then a / 2 else -((-a) / 2) := by
  split_ifs with h
  · exact Int.tdiv_eq_ediv h (by norm_num)
  · have h2 := Int.tdiv_eq_ediv (a := -a) (b := 2) (by omega) (by norm_num)
    rw [Int.neg_tdiv] at h2
    omega

theorem abs_le_three_of_tdiv_two (a : Int) (h : |Int.tdiv a 2| ≤ 1) : |a| ≤ 3 := by
  rw [tdiv_two_eq] at h
  rw [abs_le] at h ⊢
  split_ifs at h <;> constructor <;> omega

theorem guess_pos_of_step (g q : Int) (hg : 0 < g) (hq : 0 ≤ q) :
    0 < g + Int.tdiv (q - g) 2 := by
  rw [tdiv_two_eq]
  split_ifs <;> omega

/-- The half-even quotient `q` of a non-negative `x` by a positive `g`, both
of precision `p ≥ 1`: with `X = x * 10^p` the exact quotient in units of the
last place is `X / g`, and `q` differs from it by at most `1/2 + 1/10^p`. -/
theorem Quo_halfEven_bounds (x g p : Int) (hx : 0 ≤ x) (hg : 0 < g) (hp : 1 ≤ p)
    (h1 : p ≤ 128) :
    ∃ q : Int, Decimal.Quo ⟨some x, p⟩ ⟨some g, p⟩ .RoundHalfEven = some ⟨some q, p⟩ ∧ 0 ≤ q ∧
      g * (2 * q - 1) ≤ 2 * (x * 10 ^ p.toNat) ∧
      2 * (x * 10 ^ p.toNat) * 10 ^ p.toNat < g * (2 * q + 1) * 10 ^ p.toNat + 2 * g := by
  have h0 : 0 ≤ p := by omega
  have hP := ten_pow_pos p.toNat
  have hnum : 0 ≤ x * 10 ^ p.toNat * 10 ^ p.toNat := by positivity
  have hpz : ¬ (p = 0 ∧ p = 0) := by omega
  have hN : Int.tdiv (x * 10 ^ p.toNat * 10 ^ p.toNat) g
      = x * 10 ^ p.toNat * 10 ^ p.toNat / g := Int.tdiv_eq_ediv hnum hg.le
  have hNnn : 0 ≤ x * 10 ^ p.toNat * 10 ^ p.toNat / g := Int.ediv_nonneg hnum hg.le
  have hdiv := Int.ediv_add_emod (x * 10 ^ p.toNat * 10 ^ p.toNat) g
  have hrnn := Int.emod_nonneg (x * 10 ^ p.toNat * 10 ^ p.toNat) hg.ne'
  have hrlt := Int.emod_lt_of_pos (x * 10 ^ p.toNat * 10 ^ p.toNat) hg
  have hm2 := ten_pow_eq_two_mul p hp
  have h5 : (0 : Int) < 5 * 10 ^ (p - 1).toNat := by positivity
  rw [Quo_eval x g p p _ h0 h1 h0 h1 hpz hg.ne']
  simp only [max_self, sub_self, Int.toNat_zero, pow_zero, mul_one, hN, Decimal.round,
    roundHalfEven_eval _ p hp h1]
  generalize hNdef : x * 10 ^ p.toNat * 10 ^ p.toNat / g = N at hNnn hdiv ⊢
  have herr : ∀ R : Int, ((R = |N| / 10 ^ p.toNat ∧ |N| % 10 ^ p.toNat ≤ 5 * 10 ^ (p - 1).toNat) ∨
      (R = |N| / 10 ^ p.toNat + 1 ∧ 5 * 10 ^ (p - 1).toNat ≤ |N| % 10 ^ p.toNat)) →
      0 ≤ N.sign * R ∧ g * (2 * (N.sign * R) - 1) ≤ 2 * (x * 10 ^ p.toNat) ∧
        2 * (x * 10 ^ p.toNat) * 10 ^ p.toNat
          < g * (2 * (N.sign * R) + 1) * 10 ^ p.toNat + 2 * g := by
    intro R hR
    have he := scaled_error_le N _ _ R hm2 h5 hR
    rw [abs_le] at he
    have hq0 : 0 ≤ N.sign * R := by
      have hs : 0 ≤ N.sign := Int.sign_nonneg.mpr hNnn
      have hR0 : 0 ≤ R := by
        have : 0 ≤ |N| / 10 ^ p.toNat := Int.ediv_nonneg (abs_nonneg _) hP.le
        rcases hR with ⟨rfl, _⟩ | ⟨rfl, _⟩ <;> omega
      exact mul_nonneg hs hR0
    generalize N.sign * R = q at he hq0 ⊢
    refine ⟨hq0, ?_, ?_⟩
    · have ha : (2 * q - 1) * 10 ^ p.toNat ≤ 2 * N := by linarith [he.2]
      have hb : g * ((2 * q - 1) * 10 ^ p.toNat) ≤ g * (2 * N) :=
        mul_le_mul_of_nonneg_left ha hg.le
      have hc : g * (2 * q - 1) * 10 ^ p.toNat ≤ 2 * (x * 10 ^ p.toNat) * 10 ^ p.toNat := by
        nlinarith
      exact le_of_mul_le_mul_right hc hP
    · have ha : 2 * N ≤ (2 * q + 1) * 10 ^ p.toNat := by linarith [he.1]
      have hb : g * (2 * N) ≤ g * ((2 * q + 1) * 10 ^ p.toNat) :=
        mul_le_mul_of_nonneg_left ha hg.le
      nlinarith
  split_ifs
  · exact ⟨_, rfl, herr _ (Or.inl ⟨rfl, by omega⟩)⟩
  · exact ⟨_, rfl, herr _ (Or.inr ⟨rfl, by omega⟩)⟩
  · exact ⟨_, rfl, herr _ (Or.inl ⟨rfl, by omega⟩)⟩
  · exact ⟨_, rfl, herr _ (Or.inr ⟨rfl, by omega⟩)⟩

/-- The Newton loop of `ApproxRoot` stops, and returns `guess`, as soon as
`|delta|` is at most one unit of the last place. -/
theorem approxRootLoop_stop (d : Decimal) (root g dl p : Int) (fuel : Nat) (h : |dl| ≤ 1) :
    Decimal.approxRootLoop d root fuel ⟨some g, p⟩ ⟨some dl, p⟩ = .returned ⟨some g, p⟩ := by
  have hc : ¬ Big.Cmp |dl| 1 > 0 := by
    rw [gt_iff_lt, Big.Cmp_pos_iff]
    omega
  cases fuel with
  | zero => simp [Decimal.approxRootLoop, Abs_some]
  | succ n =>
    rw [Decimal.approxRootLoop]
    simp [Abs_some, hc]

/-- The Newton loop of `ApproxRoot` returns `guess` when the iterations are
used up. -/
theorem approxRootLoop_zero (d : Decimal) (root g dl p : Int) :
    Decimal.approxRootLoop d root 0 ⟨some g, p⟩ ⟨some dl, p⟩ = .returned ⟨some g, p⟩ := by
  simp [Decimal.approxRootLoop, Abs_some]

/-- One round of the Newton loop for the square root, while `|delta| > 1`:
with `q` the half-even quotient `x / guess`, the new `delta` is `(q - guess) / 2`
truncated toward zero and the new `guess` is `guess + delta`. -/
theorem approxRootLoop_two_step (x p g dl q : Int) (fuel : Nat) (h0 : 0 ≤ p) (h1 : p ≤ 128)
    (hd : 1 < |dl|) (hg : g ≠ 0)
    (hq : Decimal.Quo ⟨some x, p⟩ ⟨some g, p⟩ .RoundHalfEven = some ⟨some q, p⟩) :
    Decimal.approxRootLoop ⟨some x, p⟩ 2 (fuel + 1) ⟨some g, p⟩ ⟨some dl, p⟩
      = Decimal.approxRootLoop ⟨some x, p⟩ 2 fuel ⟨some (g + Int.tdiv (q - g) 2), p⟩
          ⟨some (Int.tdiv (q - g) 2), p⟩ := by
  have hc : Big.Cmp |dl| 1 > 0 := by
    rw [gt_iff_lt, Big.Cmp_pos_iff]
    exact hd
  have h64 : toInt64 (2 - 1) = 1 := by decide
  have hmin : ¬ ((1 : Int) = -9223372036854775808) := by decide
  have h2 : ¬ ((2 : Int) = 0) := by norm_num
  rw [Decimal.approxRootLoop]
  simp only [Abs_some, Option.some_bind, hc, if_true, h64, hmin, if_false,
    Power_one g p h0 h1, IsZero_some, hg, decide_False, Bool.false_eq_true, hq,
    Sub_eval _ _ p p h0 h1 h0 h1, Add_eval _ _ p p h0 h1 h0 h1, Big.Quo, if_neg h2, max_self,
    sub_self, Int.toNat_zero, pow_zero, mul_one]

/-- The guesses and deltas of the Newton loop for the square root of a
non-negative `x` at a precision `p ≥ 1`, started at a positive guess: each
round follows the recurrence, the loop runs while `|delta| > 1` and for at most
`fuel` rounds, and the last guess is returned. -/
theorem approxRootLoop_two_trace (x p : Int) (hx : 0 ≤ x) (hp : 1 ≤ p) (h1 : p ≤ 128) :
    ∀ (fuel : Nat) (g0 d0 : Int), 0 < g0 →
      ∃ (K : Nat) (guess delta : Nat → Int),
        Decimal.approxRootLoop ⟨some x, p⟩ 2 fuel ⟨some g0, p⟩ ⟨some d0, p⟩
          = .returned ⟨some (guess K), p⟩ ∧
        guess 0 = g0 ∧ delta 0 = d0 ∧
        (∀ k < K, 1 < |delta k| ∧ 0 < guess k ∧
          ∃ q : Int,
            Decimal.Quo ⟨some x, p⟩ ⟨some (guess k), p⟩ .RoundHalfEven = some ⟨some q, p⟩ ∧
            delta (k + 1) = Int.tdiv (q - guess k) 2 ∧
            guess (k + 1) = guess k + delta (k + 1)) ∧
        K ≤ fuel ∧ (K = fuel ∨ |delta K| ≤ 1) ∧ 0 < guess K := by
  have h0 : 0 ≤ p := by omega
  intro fuel
  induction fuel with
  | zero =>
    intro g0 d0 hg0
    exact ⟨0, fun _ => g0, fun _ => d0, approxRootLoop_zero _ _ _ _ _, rfl, rfl,
      fun k hk => absurd hk (Nat.not_lt_zero k), le_refl _, Or.inl rfl, hg0⟩
  | succ fuel ih =>
    intro g0 d0 hg0
    by_cases hd : |d0| ≤ 1
    · exact ⟨0, fun _ => g0, fun _ => d0, approxRootLoop_stop _ _ _ _ _ _ hd, rfl, rfl,
        fun k hk => absurd hk (Nat.not_lt_zero k), Nat.zero_le _, Or.inr hd, hg0⟩
    · have hd1 : 1 < |d0| := not_le.mp hd
      obtain ⟨q, hq, hq0, -, -⟩ := Quo_halfEven_bounds x g0 p hx hg0 hp h1
      have hg1 := guess_pos_of_step g0 q hg0 hq0
      obtain ⟨K, guess, delta, hrun, hgs, hds, hstep, hK, hend, hpos⟩ :=
        ih (g0 + Int.tdiv (q - g0) 2) (Int.tdiv (q - g0) 2) hg1
      refine ⟨K + 1, fun k => Nat.casesOn k g0 guess, fun k => Nat.casesOn k d0 delta,
        ?_, rfl, rfl, ?_, by omega, ?_, hpos⟩
      · rw [approxRootLoop_two_step x p g0 d0 q fuel h0 h1 hd1 hg0.ne' hq]
        exact hrun
      · intro k hk
        cases k with
        | zero =>
          refine ⟨hd1, hg0, q, hq, ?_, ?_⟩
          · exact hds
          · show guess 0 = g0 + delta 0
            rw [hgs, hds]
        | succ j => exact hstep j (by omega)
      · rcases hend with h | h
        · exact Or.inl (by omega)
        · exact Or.inr h

/-- Accuracy of the guess at which the Newton loop stops with `|delta| ≤ 1`:
from the bounds on the last quotient `q`, the result `g + d` is within three
units of the square root of `X`. -/
theorem newton_stop_accuracy (X g q d P : Int) (hX : 0 < X) (hg : 0 < g) (hP : 10 ≤ P)
    (hL : g * (2 * q - 1) ≤ 2 * X) (hU : 2 * X * P < g * (2 * q + 1) * P + 2 * g)
    (hd : d = Int.tdiv (q - g) 2) (hd1 : |d| ≤ 1) (hz : 0 < g + d) :
    (g + d - 3) ^ 2 < X + 4 ∧ X < (g + d + 3) ^ 2 := by
  have hq := abs_le_three_of_tdiv_two (q - g) (hd ▸ hd1)
  rw [abs_le] at hq hd1
  have hlow : g * (2 * g - 7) ≤ 2 * X := by
    have : g * (2 * g - 7) ≤ g * (2 * q - 1) :=
      mul_le_mul_of_nonneg_left (by omega) hg.le
    omega
  have hup : X < g * (g + 4) := by
    have h1 : g * (2 * q + 1) * P ≤ g * (2 * g + 7) * P := by
      have : g * (2 * q + 1) ≤ g * (2 * g + 7) :=
        mul_le_mul_of_nonneg_left (by omega) hg.le
      exact mul_le_mul_of_nonneg_right this (by omega)
    have h2 : 2 * g ≤ g * P := by nlinarith
    have h3 : 2 * X * P < 2 * (g * (g + 4)) * P := by nlinarith
    have hP0 : (0 : Int) < 2 * P := by omega
    nlinarith
  have hcases : d = -1 ∨ d = 0 ∨ d = 1 := by omega
  constructor
  · rcases hcases with rfl | rfl | rfl
    · nlinarith
    · nlinarith
    · nlinarith
  · rcases hcases with rfl | rfl | rfl
    · nlinarith
    · nlinarith
    · nlinarith

/-- Zero and one: `Sqrt` returns them unchanged. -/
theorem Sqrt_unchanged (x p : Int) (h0 : 0 ≤ p) (h1 : p ≤ 128)
    (h : x = 0 ∨ x = 10 ^ p.toNat) :
    Decimal.Sqrt ⟨some x, p⟩ = some (.ok ⟨some x, p⟩) := by
  have hP := ten_pow_pos p.toNat
  have hx : ¬ x < 0 := by rcases h with rfl | rfl <;> omega
  have h21 : ¬ ((2 : Int) = 1) := by norm_num
  have hcmp := Cmp_eval x 1 p 0 h0 h1 (le_refl _) (by norm_num)
  rw [max_eq_left h0, sub_self, sub_zero, Int.toNat_zero, pow_zero, mul_one, one_mul] at hcmp
  simp only [Decimal.Sqrt, Decimal.ApproxRoot, IsNegative_some, hx, decide_False,
    Bool.false_eq_true, if_false, Decimal.approxRootTail, if_neg h21, IsZero_some,
    Decimal.Equal, Decimal.One, hcmp, Option.map_some']
  rcases h with rfl | rfl
  · simp
  · have : ¬ ((10 : Int) ^ p.toNat = 0) := by omega
    simp [this, Big.Cmp]

/-- On any other non-negative operand `Sqrt` returns what the Newton loop
returns, started with `guess = delta = 1`. -/
theorem Sqrt_eq_loop (x p : Int) (hx : 0 ≤ x) (h0 : 0 ≤ p) (h1 : p ≤ 128)
    (h : ¬ (x = 0 ∨ x = 10 ^ p.toNat)) (z : Int)
    (hz : Decimal.approxRootLoop ⟨some x, p⟩ 2 maxIterations ⟨some (10 ^ p.toNat), p⟩
        ⟨some (10 ^ p.toNat), p⟩ = .returned ⟨some z, p⟩) :
    Decimal.Sqrt ⟨some x, p⟩ = some (.ok ⟨some z, p⟩) := by
  have hxn : ¬ x < 0 := by omega
  have hx0 : ¬ x = 0 := fun e => h (Or.inl e)
  have hxP : ¬ x = 10 ^ p.toNat := fun e => h (Or.inr e)
  have h21 : ¬ ((2 : Int) = 1) := by norm_num
  have h20 : ¬ ((2 : Int) = 0) := by norm_num
  have hcmp := Cmp_eval x 1 p 0 h0 h1 (le_refl _) (by norm_num)
  rw [max_eq_left h0, sub_self, sub_zero, Int.toNat_zero, pow_zero, mul_one, one_mul] at hcmp
  have hne : ¬ Big.Cmp x (10 ^ p.toNat) = 0 := by
    intro hc
    have hlt : ¬ x < 10 ^ p.toNat := fun hl => by
      have := (Big.Cmp_neg_iff x (10 ^ p.toNat)).mpr hl
      omega
    have hgt : ¬ 10 ^ p.toNat < x := fun hl => by
      have := (Big.Cmp_pos_iff x (10 ^ p.toNat)).mpr hl
      omega
    exact hxP (by omega)
  have hone := NewWithAppendPrec_eval 1 p h0 h1
  rw [one_mul] at hone
  simp only [Decimal.Sqrt, Decimal.ApproxRoot, IsNegative_some, hxn, decide_False,
    Bool.false_eq_true, if_false, Decimal.approxRootTail, if_neg h21, if_neg h20, IsZero_some,
    hx0, Decimal.Equal, Decimal.One, hcmp, Option.map_some', hne, hone, hz]

set_option maxRecDepth 20000 in
/-- Claim C15, counterexample: the square root of 4 at precision 0 is 1, not 2
(the initial delta is one unit, so the Newton loop does not run); the square
root of 0.2 at precision 1 is 0.5, whose square 0.25 exceeds 0.2; and the
square root of 2 at precision 18 ends in 049, whose square exceeds 2: the
result is not the largest `z` with `z * z ≤ x`.  Outside the precisions
[0,128] there is no such result either: at precision 129 the comparison with
`One` reads `precisionMultipliers[129]` and `Sqrt` returns the recovered error,
and at precision -1 the iteration runs on mixed precisions for all
`maxIterations` rounds and returns a value of precision 0 above `10^100`. -/
theorem Sqrt_not_floor :
    Decimal.Sqrt ⟨some 4, 0⟩ = some (.ok ⟨some 1, 0⟩) ∧
    Decimal.Sqrt ⟨some 4, 0⟩ ≠ some (.ok ⟨some 2, 0⟩) ∧
    Decimal.Sqrt ⟨some 2, 1⟩ = some (.ok ⟨some 5, 1⟩) ∧
    ¬ ((5 : Int) * 5 ≤ 2 * 10) ∧
    Decimal.Sqrt ⟨some 2000000000000000000, 18⟩
      = some (.ok ⟨some 1414213562373095049, 18⟩) ∧
    ¬ ((1414213562373095049 : Int) * 1414213562373095049
        ≤ 2000000000000000000 * 1000000000000000000) ∧
    Decimal.Sqrt ⟨some 4, 129⟩ = some (.error .recovered) ∧
    (∃ z : Int, Decimal.Sqrt ⟨some 4, -1⟩ = some (.ok ⟨some z, 0⟩) ∧ 10 ^ 100 < z) :=
  ⟨by decide, by decide, by decide, by decide, by decide, by decide, by decide,
    18154130613854344193491784403648830035679452266060661437481000817396606049931473140498718339143579100010865753924440952672978785954926516972005077399248591130892670389881604166123520,
    by decide, by decide⟩

/-- Claim C15 (amended): for every non-negative Decimal `x` of precision `p`
in [0,128], `Sqrt` returns without error a Decimal `z` of precision `p`, and
`z > 0` when `x > 0`.  Zero and one are returned unchanged.  Otherwise `z` is
the last guess of the Newton iteration `guess 0 = delta 0 = 1` (unscaled
`10^p`), `delta (k+1) = (q - guess k) / 2` truncated toward zero with `q` the
`RoundHalfEven` quotient `x.Quo(guess k)`, `guess (k+1) = guess k + delta (k+1)`,
which runs while `|delta k| > 1` unscaled unit and for at most `maxIterations`
rounds.  At precision 0 no round runs and the result is 1 for every `x > 0`.
At precision `p ≥ 1` at least one round runs, and when the iteration stops with
`|delta| ≤ 1` the result is within three units of the last place of the square
root: with `X = x * 10^p`, `(z - 3)^2 < X + 4` and `X < (z + 3)^2`. -/
theorem Sqrt_newton_guess (x p : Int) (hx : 0 ≤ x) (h0 : 0 ≤ p) (h1 : p ≤ 128) :
    ∃ z : Int, Decimal.Sqrt ⟨some x, p⟩ = some (.ok ⟨some z, p⟩) ∧
      (x = 0 ∨ x = 10 ^ p.toNat → z = x) ∧
      (0 < x → 0 < z) ∧
      (p = 0 → 0 < x → z = 1) ∧
      (¬ (x = 0 ∨ x = 10 ^ p.toNat) →
        ∃ (K : Nat) (guess delta : Nat → Int),
          z = guess K ∧ guess 0 = 10 ^ p.toNat ∧ delta 0 = 10 ^ p.toNat ∧
          (∀ k < K, 1 < |delta k| ∧ 0 < guess k ∧
            ∃ q : Int,
              Decimal.Quo ⟨some x, p⟩ ⟨some (guess k), p⟩ .RoundHalfEven
                = some ⟨some q, p⟩ ∧
              delta (k + 1) = Int.tdiv (q - guess k) 2 ∧
              guess (k + 1) = guess k + delta (k + 1)) ∧
          K ≤ maxIterations ∧ (K = maxIterations ∨ |delta K| ≤ 1) ∧
          (p = 0 → K = 0) ∧ (1 ≤ p → 1 ≤ K) ∧
          (1 ≤ p → |delta K| ≤ 1 →
            (z - 3) ^ 2 < x * 10 ^ p.toNat + 4 ∧ x * 10 ^ p.toNat < (z + 3) ^ 2)) := by
  have hP := ten_pow_pos p.toNat
  by_cases hsp : x = 0 ∨ x = 10 ^ p.toNat
  · refine ⟨x, Sqrt_unchanged x p h0 h1 hsp, fun _ => rfl, fun h => h, ?_,
      fun h => absurd hsp h⟩
    intro hp hx0
    subst hp
    rcases hsp with h | h
    · omega
    · simpa using h
  · have hxpos : 0 < x := by
      rcases eq_or_lt_of_le hx with h | h
      · exact absurd (Or.inl h.symm) hsp
      · exact h
    rcases eq_or_lt_of_le h0 with hp | hp
    · subst hp
      have hrun : Decimal.approxRootLoop ⟨some x, 0⟩ 2 maxIterations
          ⟨some (10 ^ (0 : Int).toNat), 0⟩ ⟨some (10 ^ (0 : Int).toNat), 0⟩
          = .returned ⟨some (10 ^ (0 : Int).toNat), 0⟩ :=
        approxRootLoop_stop _ _ _ _ _ _ (by norm_num)
      refine ⟨10 ^ (0 : Int).toNat, Sqrt_eq_loop x 0 hx h0 h1 hsp _ hrun,
        fun h => absurd h hsp, fun _ => by norm_num, fun _ _ => by norm_num, fun _ => ?_⟩
      exact ⟨0, fun _ => 10 ^ (0 : Int).toNat, fun _ => 10 ^ (0 : Int).toNat, rfl, rfl, rfl,
        fun k hk => absurd hk (Nat.not_lt_zero k), Nat.zero_le _, Or.inr (by norm_num),
        fun _ => rfl, fun h => absurd h (by norm_num), fun h => absurd h (by norm_num)⟩
    · have hp1 : 1 ≤ p := by omega
      have hP10 : (10 : Int) ≤ 10 ^ p.toNat := by
        have h2 : p.toNat = (p.toNat - 1) + 1 := by omega
        rw [h2, pow_succ]
        have := ten_pow_pos (p.toNat - 1)
        omega
      obtain ⟨K, guess, delta, hrun, hg0, hd0, hstep, hK, hend, hpos⟩ :=
        approxRootLoop_two_trace x p hx hp1 h1 maxIterations (10 ^ p.toNat) (10 ^ p.toNat) hP
      have hK1 : 1 ≤ K := by
        rcases Nat.eq_zero_or_pos K with hK0 | hK0
        · exfalso
          rw [hK0, hd0, abs_of_pos hP] at hend
          rcases hend with h | h
          · exact absurd h (by decide)
          · omega
        · exact hK0
      refine ⟨guess K, Sqrt_eq_loop x p hx h0 h1 hsp _ hrun, fun h => absurd h hsp,
        fun _ => hpos, fun h => by omega, fun _ => ?_⟩
      refine ⟨K, guess, delta, rfl, hg0, hd0, hstep, hK, hend, fun h => by omega,
        fun _ => hK1, fun _ hstop => ?_⟩
      obtain ⟨-, hgk, q, hq, hdk, hgk1⟩ := hstep (K - 1) (by omega)
      have hKe : K - 1 + 1 = K := by omega
      rw [hKe] at hdk hgk1
      obtain ⟨q2, hq2, -, hL, hU⟩ := Quo_halfEven_bounds x (guess (K - 1)) p hx hgk hp1 h1
      have hqq : q2 = q := by
        rw [hq] at hq2
        injection hq2 with h2
        injection h2 with h3
        injection h3 with h4
        exact h4.symm
      subst hqq
      have hz : 0 < guess (K - 1) + delta K := by
        rw [← hgk1]
        exact hpos
      have hacc := newton_stop_accuracy (x * 10 ^ p.toNat) (guess (K - 1)) q2 (delta K)
        (10 ^ p.toNat) (mul_pos hxpos hP) hgk hP10 hL hU hdk hstop hz
      rw [hgk1]
      exact hacc

theorem Sqrt_newton_guess_witness :
    (∃ z : Int, Decimal.Sqrt ⟨some 40000, 4⟩ = some (.ok ⟨some z, 4⟩) ∧
      ((40000 : Int) = 0 ∨ (40000 : Int) = 10 ^ (4 : Int).toNat → z = 40000) ∧
      (0 < (40000 : Int) → 0 < z) ∧
      ((4 : Int) = 0 → 0 < (40000 : Int) → z = 1) ∧
      (¬ ((40000 : Int) = 0 ∨ (40000 : Int) = 10 ^ (4 : Int).toNat) →
        ∃ (K : Nat) (guess delta : Nat → Int),
          z = guess K ∧ guess 0 = 10 ^ (4 : Int).toNat ∧ delta 0 = 10 ^ (4 : Int).toNat ∧
          (∀ k < K, 1 < |delta k| ∧ 0 < guess k ∧
            ∃ q : Int,
              Decimal.Quo ⟨some 40000, 4⟩ ⟨some (guess k), 4⟩ .RoundHalfEven
                = some ⟨some q, 4⟩ ∧
              delta (k + 1) = Int.tdiv (q - guess k) 2 ∧
              guess (k + 1) = guess k + delta (k + 1)) ∧
          K ≤ maxIterations ∧ (K = maxIterations ∨ |delta K| ≤ 1) ∧
          ((4 : Int) = 0 → K = 0) ∧ (1 ≤ (4 : Int) → 1 ≤ K) ∧
          (1 ≤ (4 : Int) → |delta K| ≤ 1 →
            (z - 3) ^ 2 < 40000 * 10 ^ (4 : Int).toNat + 4 ∧
              40000 * 10 ^ (4 : Int).toNat < (z + 3) ^ 2))) ∧
    Decimal.Sqrt ⟨some 40000, 4⟩ = some (.ok ⟨some 20000, 4⟩) ∧
    Decimal.Sqrt ⟨some 25, 2⟩ = some (.ok ⟨some 50, 2⟩) ∧
    Decimal.Sqrt ⟨some 100, 0⟩ = some (.ok ⟨some 1, 0⟩) ∧
    Decimal.Sqrt ⟨some 0, 3⟩ = some (.ok ⟨some 0, 3⟩) ∧
    Decimal.Sqrt ⟨some 1000, 3⟩ = some (.ok ⟨some 1000, 3⟩) :=
  ⟨Sqrt_newton_guess 40000 4 (by decide) (by decide) (by decide), by decide, by decide,
    by decide, by decide, by decide⟩

/-! ## Unsigned wrap -/

theorem ldiff_mask (w n : Nat) : Nat.ldiff (2 ^ w - 1) n = 2 ^ w - (n % 2 ^ w + 1) := by
  apply Nat.eq_of_testBit_eq
  intro i
  rw [Nat.testBit_ldiff, Nat.testBit_two_pow_sub_one,
    Nat.testBit_two_pow_sub_succ (Nat.mod_lt _ (by positivity)), Nat.testBit_mod_two_pow]
  by_cases h : i < w <;> simp [h]

/-- The mask `2^w - 1` keeps an integer of either sign modulo `2^w`. -/
theorem And_mask (x : Int) (w : Nat) : Big.And x (2 ^ w - 1) = x % 2 ^ w := by
  have hpos : 0 < 2 ^ w := by positivity
  have hm : ((2 : Int) ^ w - 1) = ((2 ^ w - 1 : Nat) : Int) := by
    rw [Nat.cast_sub hpos]
    simp
  unfold Big.And
  rw [hm]
  cases x with
  | ofNat n =>
    show ((n &&& (2 ^ w - 1) : Nat) : Int) = _
    rw [Nat.and_pow_two_sub_one_eq_mod, Int.ofNat_eq_coe]
    norm_cast
  | negSucc n =>
    show ((Nat.ldiff (2 ^ w - 1) n : Nat) : Int) = _
    rw [ldiff_mask, Int.negSucc_emod _ (by positivity)]
    have h1 : n % 2 ^ w < 2 ^ w := Nat.mod_lt _ hpos
    rw [Nat.cast_sub (by omega)]
    push_cast
    omega

theorem truncateAdd_eval (x : Int) (w : Nat) :
    truncateAdd x (2 ^ w) (2 ^ w - 1) = x % 2 ^ w := by
  rw [truncateAdd, And_mask, Int.add_emod_self]

/-- Claim C17 (amended): for width `w` in `{128, 256}` and non-nil operands of
precisions in `[0, 128]`, `UnsignedAdd` and `UnsignedSub` return the precision of `Add` and `Sub` and an
unscaled integer `u` with `0 ≤ u < 2^w` that is congruent modulo `2^w` to the
signed result, whatever its magnitude and sign. -/
theorem UnsignedAdd_UnsignedSub_wrap (va vb pa pb : Int) (w : Nat) (bl : BitLen)
    (ha0 : 0 ≤ pa) (ha1 : pa ≤ 128) (hb0 : 0 ≤ pb) (hb1 : pb ≤ 128)
    (hw : (w = 128 ∧ bl = Uint128BitLen) ∨ (w = 256 ∧ bl = Uint256BitLen)) :
    ∃ s d us ud : Int,
      Decimal.Add ⟨some va, pa⟩ ⟨some vb, pb⟩ = some ⟨some s, max pa pb⟩ ∧
      Decimal.Sub ⟨some va, pa⟩ ⟨some vb, pb⟩ = some ⟨some d, max pa pb⟩ ∧
      Decimal.UnsignedAdd ⟨some va, pa⟩ ⟨some vb, pb⟩ bl = some ⟨some us, max pa pb⟩ ∧
      Decimal.UnsignedSub ⟨some va, pa⟩ ⟨some vb, pb⟩ bl = some ⟨some ud, max pa pb⟩ ∧
      0 ≤ us ∧ us < 2 ^ w ∧ us ≡ s [ZMOD 2 ^ w] ∧
      0 ≤ ud ∧ ud < 2 ^ w ∧ ud ≡ d [ZMOD 2 ^ w] := by
  have hadd := Add_eval va vb pa pb ha0 ha1 hb0 hb1
  have hsub := Sub_eval va vb pa pb ha0 ha1 hb0 hb1
  have hpos : (0 : Int) < 2 ^ w := by positivity
  have hlim : ∀ x : Int, bl.limit x = x % 2 ^ w := by
    intro x
    rcases hw with ⟨rfl, rfl⟩ | ⟨rfl, rfl⟩
    · exact truncateAdd_eval x 128
    · exact truncateAdd_eval x 256
  refine ⟨_, _,
    (va * 10 ^ (max pa pb - pa).toNat + vb * 10 ^ (max pa pb - pb).toNat) % 2 ^ w,
    (va * 10 ^ (max pa pb - pa).toNat - vb * 10 ^ (max pa pb - pb).toNat) % 2 ^ w,
    hadd, hsub, ?_, ?_, ?_, ?_, ?_, ?_, ?_, ?_⟩
  · simp only [Decimal.UnsignedAdd, hadd, Option.some_bind, hlim]
  · simp only [Decimal.UnsignedSub, hsub, Option.some_bind, hlim]
  · exact Int.emod_nonneg _ hpos.ne'
  · exact Int.emod_lt_of_pos _ hpos
  · exact Int.mod_modEq _ _
  · exact Int.emod_nonneg _ hpos.ne'
  · exact Int.emod_lt_of_pos _ hpos
  · exact Int.mod_modEq _ _

set_option maxRecDepth 20000 in
theorem UnsignedAdd_UnsignedSub_wrap_witness :
    (∃ s d us ud : Int,
      Decimal.Add ⟨some 0, 0⟩ ⟨some 5, 1⟩ = some ⟨some s, max 0 1⟩ ∧
      Decimal.Sub ⟨some 0, 0⟩ ⟨some 5, 1⟩ = some ⟨some d, max 0 1⟩ ∧
      Decimal.UnsignedAdd ⟨some 0, 0⟩ ⟨some 5, 1⟩ Uint256BitLen = some ⟨some us, max 0 1⟩ ∧
      Decimal.UnsignedSub ⟨some 0, 0⟩ ⟨some 5, 1⟩ Uint256BitLen = some ⟨some ud, max 0 1⟩ ∧
      0 ≤ us ∧ us < 2 ^ 256 ∧ us ≡ s [ZMOD 2 ^ 256] ∧
      0 ≤ ud ∧ ud < 2 ^ 256 ∧ ud ≡ d [ZMOD 2 ^ 256]) ∧
    Decimal.UnsignedAdd ⟨some MaxUint256, 0⟩ ⟨some 1, 0⟩ Uint256BitLen = some ⟨some 0, 0⟩ ∧
    Decimal.UnsignedSub ⟨some 0, 0⟩ ⟨some 1, 0⟩ Uint256BitLen = some ⟨some MaxUint256, 0⟩ ∧
    Decimal.UnsignedAdd ⟨some MaxUint128, 0⟩ ⟨some 1, 0⟩ Uint128BitLen = some ⟨some 0, 0⟩ :=
  ⟨UnsignedAdd_UnsignedSub_wrap 0 5 0 1 256 Uint256BitLen (by decide) (by decide) (by decide)
      (by decide) (Or.inr ⟨rfl, rfl⟩),
    by decide, by decide, by decide⟩


/-- Claim C18, evaluation at the failing input: 1.001001 (precision 6) asked
for 6 significant figures is returned unchanged with its 7 significant digits,
because of the early return on `d.prec <= figures`; the claim asks for
`Rescale(5)`, which is 1.00101 under `RoundUp`.  With 5 figures the integer
digit is counted and the result is 1.0011. -/
theorem SignificantFigures_early_return :
    Decimal.SignificantFigures ⟨some 1001001, 6⟩ 6 .RoundUp = some ⟨some 1001001, 6⟩ ∧
    Decimal.Rescale ⟨some 1001001, 6⟩ 5 .RoundUp = some ⟨some 100101, 5⟩ ∧
    Decimal.SignificantFigures ⟨some 1001001, 6⟩ 5 .RoundUp = some ⟨some 10011, 4⟩ := by
  decide

/-- Claim C20, evaluation at the failing input: `1.5e1` is rejected as an
invalid decimal string, because the test for an empty fractional part reads the
precision after the exponent was subtracted; `1.5e0` and `1.5e2` parse. -/
theorem NewFromString_exponent_equal_to_fraction_length :
    NewFromString ['1', '.', '5', 'e', '1'] = some (.error .invalidDecimalString) ∧
    NewFromString ['1', '.', '5', 'e', '0'] = some (.ok ⟨some 15, 1⟩) ∧
    NewFromString ['1', '.', '5', 'e', '2'] = some (.ok ⟨some 150, 0⟩) ∧
    NewFromString ['3', '.', '7', '1', '5', '4', 'e', '4'] = some (.error .invalidDecimalString) := by
  decide

/-! ## Stripping trailing zeros -/

theorem ofDigits_append_singleton (b : Nat) (l : List Nat) (d : Nat) :
    ofDigits b (l ++ [d]) = d + b * ofDigits b l := by
  simp [ofDigits, List.foldl_append]

theorem ofDigits_append_zeros (b : Nat) (l : List Nat) (z : Nat) :
    ofDigits b (l ++ List.replicate z 0) = ofDigits b l * b ^ z := by
  induction z with
  | zero => simp
  | succ z ih =>
    rw [List.replicate_succ', ← List.append_assoc, ofDigits_append_singleton, ih, pow_succ]
    ring

theorem value_append_zeros (s : List Char) (z : Nat) :
    ofDigits 10 ((s ++ List.replicate z '0').map digitValue)
      = ofDigits 10 (s.map digitValue) * 10 ^ z := by
  rw [List.map_append, List.map_replicate]
  exact ofDigits_append_zeros 10 _ z

/-- The text of a Decimal with a positive precision `p`: a sign, integer
digits, a point and exactly `p` fractional digits, spelling `|v|`. -/
theorem String_parts (v p : Int) (h0 : 0 < p) :
    ∃ ip fr : List Char,
      Decimal.String ⟨some v, p⟩
        = some (if decide (v < 0) = true then '-' :: (ip ++ '.' :: fr) else ip ++ '.' :: fr) ∧
      (∀ c ∈ ip, isDigit c = true) ∧ ip ≠ [] ∧ (∀ c ∈ fr, isDigit c = true) ∧
      fr.length = p.toNat ∧ ofDigits 10 ((ip ++ fr).map digitValue) = v.natAbs := by
  have hds := natString_isDigit v.natAbs
  have hne := natString_ne_nil v.natAbs
  have hL : 0 < (Big.natString v.natAbs).length := List.length_pos.mpr hne
  have hp : ¬ p = 0 := by omega
  rw [String_eval v p h0.le]
  simp only [hp, if_false]
  by_cases hle : ((Big.natString v.natAbs).length : Int) ≤ p
  · simp only [hle, if_true]
    refine ⟨['0'], List.replicate (p - (Big.natString v.natAbs).length).toNat '0'
      ++ Big.natString v.natAbs, rfl, by decide, by simp, ?_, ?_, ?_⟩
    · intro c hc
      rcases List.mem_append.mp hc with h | h
      · rw [List.eq_of_mem_replicate h]
        decide
      · exact hds c h
    · rw [List.length_append, List.length_replicate]
      omega
    · have := value_zeros_append ((p - (Big.natString v.natAbs).length).toNat + 1)
        (Big.natString v.natAbs)
      rw [List.replicate_succ, value_natString] at this
      exact this
  · simp only [hle, if_false]
    refine ⟨(Big.natString v.natAbs).take (((Big.natString v.natAbs).length : Int) - p).toNat,
      (Big.natString v.natAbs).drop (((Big.natString v.natAbs).length : Int) - p).toNat,
      rfl, fun c hc => hds c (List.mem_of_mem_take hc), ?_,
      fun c hc => hds c (List.mem_of_mem_drop hc), ?_, ?_⟩
    · intro h
      have := congrArg List.length h
      rw [List.length_take] at this
      simp only [List.length_nil] at this
      omega
    · rw [List.length_drop]
      omega
    · rw [List.take_append_drop, value_natString]

theorem lastNotZero_none (s : List Char) :
    ∀ n : Nat, n ≤ s.length → Decimal.lastNotZero s n = none →
      s.take n = List.replicate n '0' := by
  intro n
  induction n with
  | zero => intro _ _; simp
  | succ n ih =>
    intro hn h
    rw [Decimal.lastNotZero] at h
    by_cases hc : s.get? n ≠ some '0'
    · rw [if_pos hc] at h
      cases h
    · rw [if_neg hc] at h
      have hc2 : s.get? n = some '0' := not_not.mp hc
      rw [List.take_succ, ih (by omega) h, List.replicate_succ']
      simp [← List.get?_eq_getElem?, hc2]

theorem lastNotZero_some (s : List Char) :
    ∀ n i : Nat, n ≤ s.length → Decimal.lastNotZero s n = some i →
      i < n ∧ s.get? i ≠ some '0' ∧
        s.take n = s.take (i + 1) ++ List.replicate (n - (i + 1)) '0' := by
  intro n
  induction n with
  | zero =>
    intro i _ h
    simp [Decimal.lastNotZero] at h
  | succ n ih =>
    intro i hn h
    rw [Decimal.lastNotZero] at h
    by_cases hc : s.get? n ≠ some '0'
    · rw [if_pos hc] at h
      cases h
      exact ⟨by omega, hc, by simp⟩
    · rw [if_neg hc] at h
      have hc2 : s.get? n = some '0' := not_not.mp hc
      obtain ⟨h1, h2, h3⟩ := ih i (by omega) h
      refine ⟨by omega, h2, ?_⟩
      have hsub : n + 1 - (i + 1) = (n - (i + 1)) + 1 := by omega
      rw [List.take_succ, h3, hsub, List.replicate_succ', List.append_assoc]
      simp [← List.get?_eq_getElem?, hc2]


theorem MustFromString_integer (neg : Bool) (ip : List Char)
    (hip : ∀ c ∈ ip, isDigit c = true) (hne : ip ≠ []) :
    MustFromString (if neg then '-' :: ip else ip)
      = some ⟨some (if neg then -((ofDigits 10 (ip.map digitValue) : Nat) : Int)
          else ((ofDigits 10 (ip.map digitValue) : Nat) : Int)), 0⟩ := by
  have h := NewFromString_signed neg ip (fun c hc => Or.inl (hip c hc)) hne
    (hip _ (List.head_mem hne))
  rw [parseUnsigned_integer neg ip hip hne] at h
  unfold NewFromString at h
  rw [MustFromString, h]

theorem MustFromString_fraction (neg : Bool) (ip fr : List Char)
    (hip : ∀ c ∈ ip, isDigit c = true) (hne : ip ≠ [])
    (hfr : ∀ c ∈ fr, isDigit c = true) (hfne : fr ≠ []) (hflen : fr.length ≤ 128) :
    MustFromString (if neg then '-' :: (ip ++ '.' :: fr) else ip ++ '.' :: fr)
      = some ⟨some (if neg then -((ofDigits 10 ((ip ++ fr).map digitValue) : Nat) : Int)
          else ((ofDigits 10 ((ip ++ fr).map digitValue) : Nat) : Int)), fr.length⟩ := by
  have hbody : ∀ c ∈ ip ++ '.' :: fr, (isDigit c = true ∨ c = '-' ∨ c = '.') := by
    intro c hc
    rcases List.mem_append.mp hc with h | h
    · exact Or.inl (hip c h)
    · rcases List.mem_cons.mp h with rfl | h
      · exact Or.inr (Or.inr rfl)
      · exact Or.inl (hfr c h)
  have hhead : isDigit ((ip ++ '.' :: fr).head (by simp)) = true := by
    rw [List.head_append_of_ne_nil hne]
    exact hip _ (List.head_mem hne)
  have h := NewFromString_signed neg (ip ++ '.' :: fr) hbody (by simp) hhead
  rw [parseUnsigned_fraction neg ip fr hip hne hfr hfne hflen] at h
  unfold NewFromString at h
  rw [MustFromString, h]

/-- What `StripTrailingZeros` returns for a positive precision: the digits up
to the last non-zero fractional digit, with the sign of the operand. -/
theorem StripTrailingZeros_eval (v p : Int) (h0 : 0 < p) (h1 : p ≤ 128) :
    ∃ n q : Nat,
      Decimal.StripTrailingZeros ⟨some v, p⟩
        = some ⟨some (if decide (v < 0) = true then -(n : Int) else (n : Int)), (q : Int)⟩ ∧
      q ≤ p.toNat ∧ n * 10 ^ (p.toNat - q) = v.natAbs ∧ (0 < q → n % 10 ≠ 0) := by
  obtain ⟨ip, fr, hstr, hip, hipne, hfr, hflen, hval⟩ := String_parts v p h0
  have hp : ¬ p = 0 := by omega
  have hdot_ip : '.' ∉ (if decide (v < 0) = true then '-' :: ip else ip) := by
    intro h
    split_ifs at h
    · rcases List.mem_cons.mp h with h | h
      · revert h; decide
      · exact isDigit_ne_dot _ (hip _ h) rfl
    · exact isDigit_ne_dot _ (hip _ h) rfl
  have hdot_fr : '.' ∉ fr := fun h => isDigit_ne_dot _ (hfr _ h) rfl
  have hs : (if decide (v < 0) = true then '-' :: (ip ++ '.' :: fr) else ip ++ '.' :: fr)
      = (if decide (v < 0) = true then '-' :: ip else ip) ++ '.' :: fr := by
    split_ifs <;> rfl
  have hsplit : Split '.' ((if decide (v < 0) = true then '-' :: ip else ip) ++ '.' :: fr)
      = [if decide (v < 0) = true then '-' :: ip else ip, fr] := by
    rw [Split_append_sep _ _ _ hdot_ip, Split_of_not_mem _ _ hdot_fr]
  unfold Decimal.StripTrailingZeros
  simp only [hp, if_false, hstr, Option.some_bind, hs, hsplit]
  cases hl : Decimal.lastNotZero fr fr.length with
  | none =>
    have hz := lastNotZero_none fr fr.length (le_refl _) hl
    rw [List.take_length] at hz
    refine ⟨ofDigits 10 (ip.map digitValue), 0, ?_, by omega, ?_, by omega⟩
    · simp only [MustFromString_integer _ ip hip hipne]
      rfl
    · rw [← hval, hz, value_append_zeros, Nat.sub_zero, hflen]
  | some i =>
    obtain ⟨hi, hci, htake⟩ := lastNotZero_some fr fr.length i (le_refl _) hl
    rw [List.take_length] at htake
    have hs1 : ∀ c ∈ fr.take (i + 1), isDigit c = true :=
      fun c hc => hfr c (List.mem_of_mem_take hc)
    have hlen1 : (fr.take (i + 1)).length = i + 1 := by
      rw [List.length_take]
      omega
    have hs1ne : fr.take (i + 1) ≠ [] := by
      intro h
      have := congrArg List.length h
      rw [hlen1] at this
      simp at this
    have hlen : len (fr.take (i + 1)) = ((i + 1 : Nat) : Int) := by
      rw [len_of_ascii _ (fun c hc => plainChar_lt c (Or.inl (hs1 c hc))), hlen1]
    have hlen0 : ¬ len (fr.take (i + 1)) = 0 := by
      rw [hlen]
      omega
    have hs2 : (if decide (v < 0) = true then '-' :: ip else ip) ++ '.' :: fr.take (i + 1)
        = (if decide (v < 0) = true then '-' :: (ip ++ '.' :: fr.take (i + 1))
            else ip ++ '.' :: fr.take (i + 1)) := by
      split_ifs <;> rfl
    refine ⟨ofDigits 10 ((ip ++ fr.take (i + 1)).map digitValue), i + 1, ?_, by omega, ?_, ?_⟩
    · simp only [hlen0, if_false, hs2,
        MustFromString_fraction _ ip _ hip hipne hs1 hs1ne (by omega), hlen1]
    · rw [← hval]
      nth_rewrite 2 [htake]
      rw [← List.append_assoc, value_append_zeros, hflen]
    · intro _
      have hget : ∃ c, fr.get? i = some c := by
        rw [List.get?_eq_get (by omega)]
        exact ⟨_, rfl⟩
      obtain ⟨c, hc⟩ := hget
      have hcne : c ≠ '0' := fun h => hci (by rw [hc, h])
      have hcd : isDigit c = true := hfr c (List.get?_mem hc)
      have ht : fr.take (i + 1) = fr.take i ++ [c] := by
        rw [List.take_succ, ← List.get?_eq_getElem?, hc]
        rfl
      rw [ht, ← List.append_assoc, List.map_append, List.map_singleton,
        ofDigits_append_singleton]
      have h1 := digitValue_lt c hcd
      have h2 : digitValue c ≠ 0 := fun h => hcne ((digitValue_eq_zero_iff c hcd).mp h)
      omega


theorem Cmp_self_scaled (r v q p : Int) (hq0 : 0 ≤ q) (hqp : q ≤ p) (h1 : p ≤ 128)
    (hv : r * 10 ^ (p - q).toNat = v) :
    Decimal.Cmp ⟨some r, q⟩ ⟨some v, p⟩ = some 0 := by
  rw [Cmp_eval r v q p hq0 (by omega) (by omega) h1, max_eq_right hqp, hv, sub_self]
  simp [Big.Cmp]

theorem not_ten_dvd_of_mod (n : Nat) (neg : Bool) (h : n % 10 ≠ 0) :
    ¬ (10 : Int) ∣ (if neg = true then -(n : Int) else (n : Int)) := by
  intro hd
  have h2 : (10 : Int) ∣ (n : Int) := by
    cases neg
    · simpa using hd
    · simpa using hd
  have h3 : (10 : Nat) ∣ n := by exact_mod_cast h2
  omega

/-- Stripping on the integers Go arithmetic returns: for every non-nil Decimal
`d = v / 10^p` with `p` in [0,128], `d.StripTrailingZeros()` returns a Decimal `r / 10^q` with `q ≤ p` that is
numerically equal to `d` (`r * 10^(p-q) = v`, and `Cmp` returns 0); if `q > 0`
then `r` is not divisible by 10; `q` is the smallest precision at which `d` is
exactly representable; an all-zero fractional part gives precision 0; and a
precision-0 value is returned unchanged. -/
theorem StripTrailingZeros_minimal (v p : Int) (h0 : 0 ≤ p) (h1 : p ≤ 128) :
    ∃ r q : Int, Decimal.StripTrailingZeros ⟨some v, p⟩ = some ⟨some r, q⟩ ∧
      0 ≤ q ∧ q ≤ p ∧ r * 10 ^ (p - q).toNat = v ∧
      Decimal.Cmp ⟨some r, q⟩ ⟨some v, p⟩ = some 0 ∧
      (0 < q → ¬ (10 : Int) ∣ r) ∧
      (∀ r' q' : Int, 0 ≤ q' → q' ≤ p → r' * 10 ^ (p - q').toNat = v → q ≤ q') ∧
      ((10 : Int) ^ p.toNat ∣ v → q = 0) ∧
      (p = 0 → r = v ∧ q = 0) := by
  have key : ∃ r q : Int, Decimal.StripTrailingZeros ⟨some v, p⟩ = some ⟨some r, q⟩ ∧
      0 ≤ q ∧ q ≤ p ∧ r * 10 ^ (p - q).toNat = v ∧ (0 < q → ¬ (10 : Int) ∣ r) ∧
      (p = 0 → r = v) := by
    rcases eq_or_lt_of_le h0 with hp | hp
    · subst hp
      exact ⟨v, 0, by simp [Decimal.StripTrailingZeros], le_refl _, le_refl _, by simp,
        fun h => absurd h (lt_irrefl _), fun _ => rfl⟩
    · obtain ⟨n, q, hres, hq, hn, hmod⟩ := StripTrailingZeros_eval v p hp h1
      refine ⟨_, (q : Int), hres, by omega, by omega, ?_, ?_, fun h => by omega⟩
      · have hpq : (p - (q : Int)).toNat = p.toNat - q := by omega
        rw [hpq]
        have hn2 : ((n : Int)) * 10 ^ (p.toNat - q) = (v.natAbs : Int) := by exact_mod_cast hn
        by_cases hv : v < 0
        · simp only [hv, decide_True, if_true, neg_mul, hn2]
          omega
        · simp only [hv, decide_False, Bool.false_eq_true, if_false, hn2]
          omega
      · intro hq0
        exact not_ten_dvd_of_mod n _ (hmod (by omega))
  obtain ⟨r, q, hres, hq0, hqp, hv, hten, hzero⟩ := key
  have hmin : ∀ r' q' : Int, 0 ≤ q' → q' ≤ p → r' * 10 ^ (p - q').toNat = v → q ≤ q' := by
    intro r' q' hq'0 hq'p hv'
    by_contra hlt
    have hlt2 : q' < q := not_le.mp hlt
    have hsplit : (p - q').toNat = (q - q').toNat + (p - q).toNat := by omega
    have hpos : (10 : Int) ^ (p - q).toNat ≠ 0 := ne_of_gt (ten_pow_pos _)
    have heq : r * 10 ^ (p - q).toNat = r' * 10 ^ (q - q').toNat * 10 ^ (p - q).toNat := by
      rw [hv, ← hv', hsplit, pow_add]
      ring
    have hr : r = r' * 10 ^ (q - q').toNat := mul_right_cancel₀ hpos heq
    have hsucc : (q - q').toNat = ((q - q').toNat - 1) + 1 := by omega
    apply hten (by omega)
    rw [hr, hsucc, pow_succ]
    exact ⟨r' * 10 ^ ((q - q').toNat - 1), by ring⟩
  refine ⟨r, q, hres, hq0, hqp, hv, Cmp_self_scaled r v q p hq0 hqp h1 hv, hten, hmin, ?_,
    fun hp => ⟨hzero hp, by omega⟩⟩
  rintro ⟨c, hc⟩
  have := hmin c 0 (le_refl _) h0 (by rw [hc, sub_zero]; ring)
  omega

theorem StripTrailingZeros_minimal_witness :
    (∃ r q : Int, Decimal.StripTrailingZeros ⟨some (-10), 2⟩ = some ⟨some r, q⟩ ∧
      0 ≤ q ∧ q ≤ 2 ∧ r * 10 ^ ((2 : Int) - q).toNat = -10 ∧
      Decimal.Cmp ⟨some r, q⟩ ⟨some (-10), 2⟩ = some 0 ∧
      (0 < q → ¬ (10 : Int) ∣ r) ∧
      (∀ r' q' : Int, 0 ≤ q' → q' ≤ 2 → r' * 10 ^ ((2 : Int) - q').toNat = -10 → q ≤ q') ∧
      ((10 : Int) ^ (2 : Int).toNat ∣ -10 → q = 0) ∧
      ((2 : Int) = 0 → r = -10 ∧ q = 0)) ∧
    Decimal.StripTrailingZeros ⟨some (-10), 2⟩ = some ⟨some (-1), 1⟩ ∧
    Decimal.StripTrailingZeros ⟨some 110000000000, 12⟩ = some ⟨some 11, 2⟩ ∧
    Decimal.StripTrailingZeros ⟨some 0, 2⟩ = some ⟨some 0, 0⟩ ∧
    Decimal.StripTrailingZeros ⟨some 1200, 2⟩ = some ⟨some 12, 0⟩ ∧
    Decimal.StripTrailingZeros ⟨some 120, 0⟩ = some ⟨some 120, 0⟩ :=
  ⟨StripTrailingZeros_minimal (-10) 2 (by decide) (by decide), by decide, by decide, by decide,
    by decide, by decide⟩

/-- Claim C21, evaluation at the failing input: `1.e-2` has no digit between
the point and the exponent marker and parses to 0.01, and `+.5` has no digit
in front of the point and parses to 0.5; `1.`, `.1`, `-1.`, `-.1`, the empty
text and a lone `-` are rejected. -/
theorem NewFromString_accepts_empty_fraction_before_exponent :
    NewFromString ['1', '.', 'e', '-', '2'] = some (.ok ⟨some 1, 2⟩) ∧
    NewFromString ['+', '.', '5'] = some (.ok ⟨some 5, 1⟩) ∧
    NewFromString ['1', '.'] = some (.error .invalidDecimalString) ∧
    NewFromString ['.', '1'] = some (.error .invalidDecimalString) ∧
    NewFromString ['-', '1', '.'] = some (.error .invalidDecimalString) ∧
    NewFromString ['-', '.', '1'] = some (.error .invalidDecimalString) ∧
    NewFromString [] = some (.error .emptyString) ∧
    NewFromString ['-'] = some (.error .emptyString) := by
  decide

/-- Claim C22, evaluation at the failing input: on `e5` the text in front of
the exponent marker is empty and `str[0]` is read out of range, a panic; the
empty text and a lone `-` return an error. -/
theorem NewFromString_panics_on_bare_exponent :
    NewFromString ['e', '5'] = none ∧
    NewFromString ['E', '-', '1', '2'] = none ∧
    NewFromString [] = some (.error .emptyString) ∧
    NewFromString ['-'] = some (.error .emptyString) := by
  decide

/-- Claim C23, counterexample: the precision -1 lies outside [0,128] and the
constructors return a Decimal of precision -1. -/
theorem constructors_accept_negative_precision :
    Decimal.NewWithPrec 1 (-1) = some ⟨some 1, -1⟩ ∧
    Decimal.NewFromBigIntWithPrec 1 (-1) = some ⟨some 1, -1⟩ ∧
    Decimal.NewFromInt64 1 (-1) = some ⟨some 1, -1⟩ ∧
    Decimal.NewFromUint64 1 (-1) = some ⟨some 1, -1⟩ := by
  decide

set_option maxRecDepth 20000 in
/-- Claim C24, evaluation at the failing input: 0.1 (precision 1) rescaled to
129 digits is returned with precision 129, above `MaxPrecision`; 12345
(precision 0) rescaled to -2 is returned with precision -2. -/
theorem Rescale_leaves_precision_range :
    Decimal.Rescale ⟨some 1, 1⟩ 129 .RoundDown = some ⟨some (10 ^ 128), 129⟩ ∧
    Decimal.Rescale ⟨some 12345, 0⟩ (-2) .RoundDown = some ⟨some 123, -2⟩ := by
  decide

set_option maxRecDepth 20000 in
/-- Claim C29, evaluation at the failing input: `0 - 1` at width 256 reports
no overflow and returns `MaxUint256`, not the plain difference -1; likewise
`0 + (-1)`.  `MaxUint256 + 1` does report the overflow. -/
theorem UnsignedSubOverflow_misses_negative_result :
    Decimal.UnsignedSubOverflow ⟨some 0, 0⟩ ⟨some 1, 0⟩ Uint256BitLen
      = some (⟨some MaxUint256, 0⟩, false) ∧
    Decimal.Sub ⟨some 0, 0⟩ ⟨some 1, 0⟩ = some ⟨some (-1), 0⟩ ∧
    Decimal.UnsignedAddOverflow ⟨some 0, 0⟩ ⟨some (-1), 0⟩ Uint128BitLen
      = some (⟨some MaxUint128, 0⟩, false) ∧
    Decimal.UnsignedAddOverflow ⟨some MaxUint256, 0⟩ ⟨some 1, 0⟩ Uint256BitLen
      = some (⟨some 0, 0⟩, true) := by
  decide

/-- Claim C30, evaluation at the failing input: after `MostSignificantBit(4)`
has returned 2, the integer that was passed holds 0, because the loop shifts it
in place; likewise for 1, 3 and 255. -/
theorem MostSignificantBit_clears_argument :
    MostSignificantBit 4 = some (2, 0) ∧
    MostSignificantBit 1 = some (0, 0) ∧
    MostSignificantBit 3 = some (1, 0) ∧
    MostSignificantBit 255 = some (7, 0) := by
  decide

/-- Claim C28, counterexample: on the JSON literal `null` a nil receiver stays
nil, and a receiver holding 1.0001 keeps 1.0001; neither becomes zero. -/
theorem UnmarshalJSON_null_keeps_receiver :
    Decimal.UnmarshalJSON (fun _ => .error .other) ⟨none, 0⟩ ['n', 'u', 'l', 'l']
      = some (⟨none, 0⟩, none) ∧
    Decimal.IsNil ⟨none, 0⟩ = true ∧
    Decimal.UnmarshalJSON (fun _ => .error .other) ⟨some 10001, 4⟩ ['n', 'u', 'l', 'l']
      = some (⟨some 10001, 4⟩, none) := by
  decide

/-- Claim C28 (amended): for every receiver state, nil or holding a value,
`UnmarshalJSON` applied to the JSON literal `null` returns no error and leaves
the receiver as it was. -/
theorem UnmarshalJSON_null_unchanged
    (jsonUnmarshal : List Char → Except Decimal.JSONError (List Char)) (d : Decimal) :
    Decimal.UnmarshalJSON jsonUnmarshal d ['n', 'u', 'l', 'l'] = some (d, none) := by
  simp [Decimal.UnmarshalJSON]

/-! ## Constructors and the precision bound -/

theorem requirePrecision_eq_none_iff (p : Int) : requirePrecision p = none ↔ p > 128 := by
  unfold requirePrecision MaxPrecision
  split_ifs with h
  · simp [h]
  · simp [h]

/-- Claim C23 (amended): the constructors `NewFromBigIntWithPrec`,
`NewWithPrec`, `NewFromInt64` and `NewFromUint64` abort if and only if the
requested precision exceeds 128; every Decimal they return holds the given
integer and has the requested precision `p`, with `p ≤ 128`. -/
theorem constructors_abort_iff_above_MaxPrecision (value precision : Int) :
    (Decimal.NewFromBigIntWithPrec value precision = none ↔ precision > 128) ∧
    (Decimal.NewWithPrec value precision = none ↔ precision > 128) ∧
    (Decimal.NewFromInt64 value precision = none ↔ precision > 128) ∧
    (Decimal.NewFromUint64 value precision = none ↔ precision > 128) ∧
    (∀ d : Decimal,
      (Decimal.NewFromBigIntWithPrec value precision = some d ∨
        Decimal.NewWithPrec value precision = some d ∨
        Decimal.NewFromInt64 value precision = some d ∨
        Decimal.NewFromUint64 value precision = some d) →
      d = ⟨some value, precision⟩ ∧ d.prec ≤ 128) := by
  have hiff := requirePrecision_eq_none_iff precision
  by_cases hp : precision > 128
  · have hn := hiff.mpr hp
    simp [Decimal.NewFromBigIntWithPrec, Decimal.NewWithPrec, Decimal.NewFromInt64,
      Decimal.NewFromUint64, hn, hp]
  · have hs : requirePrecision precision = some () := by
      cases h : requirePrecision precision with
      | none => exact absurd (hiff.mp h) hp
      | some u => rfl
    have hle : precision ≤ 128 := not_lt.mp hp
    simp only [Decimal.NewFromBigIntWithPrec, Decimal.NewWithPrec, Decimal.NewFromInt64,
      Decimal.NewFromUint64, hs, Option.some_bind, mul_one, or_self]
    refine ⟨by simp [hp], by simp [hp], by simp [hp], by simp [hp], ?_⟩
    intro d hd
    have : d = ⟨some value, precision⟩ := (Option.some.inj hd).symm
    subst this
    exact ⟨rfl, hle⟩

/-! ## Integer division of `BigInt` with a rounding mode -/

theorem QuoRem_of_ne_zero (x y : Int) (hy : y ≠ 0) :
    Big.QuoRem x y = some (Int.tdiv x y, Int.tmod x y) := by
  simp [Big.QuoRem, hy]

theorem Big.Abs_eq_natAbs (x : Int) : Big.Abs x = (x.natAbs : Int) := by
  unfold Big.Abs
  split_ifs <;> omega

theorem Big.Sign_eq_sign (x : Int) : Big.Sign x = Int.sign x := by
  unfold Big.Sign
  split_ifs with h1 h2
  · rw [Int.sign_eq_neg_one_of_neg h1]
  · rw [h2]
    rfl
  · rw [Int.sign_eq_one_of_pos (by omega)]

theorem tmod_eq_zero_iff_dvd (x y : Int) : Int.tmod x y = 0 ↔ y ∣ x :=
  ⟨Int.dvd_of_tmod_eq_zero, Int.tmod_eq_zero_of_dvd⟩

theorem natAbs_tdiv_cast (x y : Int) :
    ((Int.tdiv x y).natAbs : Int) = ((x.natAbs / y.natAbs : Nat) : Int) := by
  rw [Int.natAbs_tdiv]
  rfl

/-- The truncated quotient of operands with the same sign is not negative. -/
theorem tdiv_nonneg_of_same_sign (x y : Int) (h : (0 < x ∧ 0 < y) ∨ (x < 0 ∧ y < 0)) :
    0 ≤ Int.tdiv x y := by
  rcases h with ⟨hx, hy⟩ | ⟨hx, hy⟩
  · exact Int.tdiv_nonneg hx.le hy.le
  · have h := Int.tdiv_nonneg (a := -x) (b := -y) (by omega) (by omega)
    rwa [Int.neg_tdiv_neg] at h

/-- The truncated quotient of operands with different signs is not positive. -/
theorem tdiv_nonpos_of_diff_sign (x y : Int) (h : (0 < x ∧ y < 0) ∨ (x < 0 ∧ 0 < y)) :
    Int.tdiv x y ≤ 0 := by
  rcases h with ⟨hx, hy⟩ | ⟨hx, hy⟩
  · have h := Int.tdiv_nonneg (a := x) (b := -y) hx.le (by omega)
    rw [Int.tdiv_neg] at h
    omega
  · have h := Int.tdiv_nonneg (a := -x) (b := y) (by omega) hy.le
    rw [Int.neg_tdiv] at h
    omega

/-- Closed form of `quoUp`. -/
theorem quoUp_eval (b b2 : Int) (h : b2 ≠ 0) :
    BigInt.quoUp ⟨some b⟩ ⟨some b2⟩
      = some ⟨some (if b2 ∣ b then Int.tdiv b b2
          else if Big.Sign b ≠ Big.Sign b2 then -(Big.Abs (Int.tdiv b b2) + 1)
          else Int.tdiv b b2 + 1)⟩ := by
  simp only [BigInt.quoUp, Option.some_bind, QuoRem_of_ne_zero b b2 h, Big.Sign_eq_zero_iff,
    tmod_eq_zero_iff_dvd, BigInt.Sign, Option.map_some', BigInt.NewFromBigInt]
  by_cases hd : b2 ∣ b
  · simp [hd]
  · by_cases hs : Big.Sign b = Big.Sign b2
    · simp [hd, hs]
    · simp [hd, hs]

/-- Claim C25: for all integers `b` and `b2` with `b2` non-zero,
`b.Quo(b2, RoundUp)` is the exact quotient when `b2` divides `b`, and otherwise
`sign(b) * sign(b2) * (floor(|b| / |b2|) + 1)`. -/
theorem BigInt_Quo_RoundUp (b b2 : Int) (h : b2 ≠ 0) :
    BigInt.Quo ⟨some b⟩ ⟨some b2⟩ .RoundUp
      = some ⟨some (if b2 ∣ b then b / b2
          else Int.sign b * Int.sign b2 * (((b.natAbs / b2.natAbs : Nat) : Int) + 1))⟩ := by
  rw [BigInt.Quo, BigInt.quo, quoUp_eval b b2 h]
  by_cases hd : b2 ∣ b
  · simp only [hd, if_true, Int.tdiv_eq_ediv_of_dvd hd]
  · simp only [hd, if_false]
    have hb : b ≠ 0 := fun h0 => hd (h0 ▸ dvd_zero b2)
    have hna := natAbs_tdiv_cast b b2
    rw [Big.Abs_eq_natAbs, Big.Sign_eq_sign, Big.Sign_eq_sign]
    rcases lt_or_gt_of_ne hb with hb1 | hb1 <;> rcases lt_or_gt_of_ne h with h1 | h1
    · have hq := tdiv_nonneg_of_same_sign b b2 (Or.inr ⟨hb1, h1⟩)
      rw [Int.sign_eq_neg_one_of_neg hb1, Int.sign_eq_neg_one_of_neg h1, ← hna]
      simp only [ne_eq, not_true_eq_false, if_false]
      refine congrArg (fun z : Int => some (BigInt.mk (some z))) ?_
      omega
    · have hq := tdiv_nonpos_of_diff_sign b b2 (Or.inr ⟨hb1, h1⟩)
      rw [Int.sign_eq_neg_one_of_neg hb1, Int.sign_eq_one_of_pos h1, ← hna]
      have hne : (-1 : Int) ≠ 1 := by decide
      simp only [ne_eq, hne, not_false_eq_true, if_true]
      refine congrArg (fun z : Int => some (BigInt.mk (some z))) ?_
      omega
    · have hq := tdiv_nonpos_of_diff_sign b b2 (Or.inl ⟨hb1, h1⟩)
      rw [Int.sign_eq_one_of_pos hb1, Int.sign_eq_neg_one_of_neg h1, ← hna]
      have hne : (1 : Int) ≠ -1 := by decide
      simp only [ne_eq, hne, not_false_eq_true, if_true]
      refine congrArg (fun z : Int => some (BigInt.mk (some z))) ?_
      omega
    · have hq := tdiv_nonneg_of_same_sign b b2 (Or.inl ⟨hb1, h1⟩)
      rw [Int.sign_eq_one_of_pos hb1, Int.sign_eq_one_of_pos h1, ← hna]
      simp only [ne_eq, not_true_eq_false, if_false]
      refine congrArg (fun z : Int => some (BigInt.mk (some z))) ?_
      omega

theorem BigInt_Quo_RoundUp_witness :
    BigInt.Quo ⟨some (-1234)⟩ ⟨some 10⟩ .RoundUp
      = some ⟨some (if (10 : Int) ∣ -1234 then -1234 / 10
          else Int.sign (-1234) * Int.sign 10
            * ((((-1234 : Int).natAbs / (10 : Int).natAbs : Nat) : Int) + 1))⟩ ∧
    BigInt.Quo ⟨some 1234⟩ ⟨some 10⟩ .RoundUp = some ⟨some 124⟩ ∧
    BigInt.Quo ⟨some (-1234)⟩ ⟨some 10⟩ .RoundUp = some ⟨some (-124)⟩ ∧
    BigInt.Quo ⟨some 5⟩ ⟨some (-2)⟩ .RoundUp = some ⟨some (-3)⟩ ∧
    BigInt.Quo ⟨some 1230⟩ ⟨some 10⟩ .RoundUp = some ⟨some 123⟩ ∧
    BigInt.Quo ⟨some (-5)⟩ ⟨some (-2)⟩ .RoundUp = some ⟨some 3⟩ :=
  ⟨BigInt_Quo_RoundUp (-1234) 10 (by decide), by decide, by decide, by decide, by decide,
    by decide⟩


theorem Big.Sign_eq_iff_same_sign (b b2 : Int) (hb : b ≠ 0) (h : b2 ≠ 0) :
    Big.Sign b = Big.Sign b2 ↔ ((0 < b ∧ 0 < b2) ∨ (b < 0 ∧ b2 < 0)) := by
  have e1 : Big.Sign b = if b < 0 then -1 else 1 := by
    unfold Big.Sign
    simp [hb]
  have e2 : Big.Sign b2 = if b2 < 0 then -1 else 1 := by
    unfold Big.Sign
    simp [h]
  rw [e1, e2]
  split_ifs <;> constructor <;> intro h' <;>
    first
    | omega
    | exact absurd h' (by decide)

/-- Closed form of `quoCeiling`. -/
theorem quoCeiling_eval (b b2 : Int) (h : b2 ≠ 0) :
    BigInt.quoCeiling ⟨some b⟩ ⟨some b2⟩
      = some ⟨some (if b2 ∣ b then Int.tdiv b b2
          else if Big.Sign b = Big.Sign b2 then Int.tdiv b b2 + 1
          else Int.tdiv b b2)⟩ := by
  have hup := quoUp_eval b b2 h
  simp only [BigInt.quoCeiling, Option.some_bind, QuoRem_of_ne_zero b b2 h,
    Big.Sign_eq_zero_iff, tmod_eq_zero_iff_dvd, BigInt.Sign, Option.map_some',
    BigInt.NewFromBigInt]
  by_cases hd : b2 ∣ b
  · simp [hd]
  · by_cases hs : Big.Sign b = Big.Sign b2
    · simp only [hd, if_false, hs, if_true, hup]
      simp
    · simp [hd, hs, BigInt.quoDown, Big.Quo, h, BigInt.NewFromBigInt]

theorem quoDown_eval (b b2 : Int) (h : b2 ≠ 0) :
    BigInt.quoDown ⟨some b⟩ ⟨some b2⟩ = some ⟨some (Int.tdiv b b2)⟩ := by
  simp [BigInt.quoDown, Big.Quo, h, BigInt.NewFromBigInt]

/-- Claim C26: for all integers `b` and `b2` with `b2` non-zero,
`b.Quo(b2, RoundCeiling)` is the smallest integer greater than or equal to the
rational quotient `b / b2`; it is the `RoundUp` result when the operand signs
match and the `RoundDown` result when they differ. -/
theorem BigInt_Quo_RoundCeiling (b b2 : Int) (h : b2 ≠ 0) :
    BigInt.Quo ⟨some b⟩ ⟨some b2⟩ .RoundCeiling = some ⟨some ⌈(b : ℚ) / (b2 : ℚ)⌉⟩ ∧
    (Big.Sign b = Big.Sign b2 →
      BigInt.Quo ⟨some b⟩ ⟨some b2⟩ .RoundCeiling = BigInt.Quo ⟨some b⟩ ⟨some b2⟩ .RoundUp) ∧
    (Big.Sign b ≠ Big.Sign b2 →
      BigInt.Quo ⟨some b⟩ ⟨some b2⟩ .RoundCeiling
        = BigInt.Quo ⟨some b⟩ ⟨some b2⟩ .RoundDown) := by
  have hq : (b2 : ℚ) ≠ 0 := by exact_mod_cast h
  have htr := tdiv_eq_trunc b b2 h
  refine ⟨?_, ?_, ?_⟩
  · rw [BigInt.Quo, BigInt.quo, quoCeiling_eval b b2 h]
    refine congrArg (fun z : Int => some (BigInt.mk (some z))) ?_
    by_cases hd : b2 ∣ b
    · simp only [hd, if_true]
      obtain ⟨c, rfl⟩ := hd
      rw [Int.mul_tdiv_cancel_left _ h]
      have : (((b2 * c : Int) : ℚ) / (b2 : ℚ)) = (c : ℚ) := by
        push_cast
        field_simp
      rw [this, Int.ceil_intCast]
    · simp only [hd, if_false]
      have hb : b ≠ 0 := fun h0 => hd (h0 ▸ dvd_zero b2)
      have hbq : (b : ℚ) ≠ 0 := by exact_mod_cast hb
      by_cases hs : Big.Sign b = Big.Sign b2
      · simp only [hs, if_true]
        have hpos : (0 : ℚ) < (b : ℚ) / (b2 : ℚ) := by
          rcases (Big.Sign_eq_iff_same_sign b b2 hb h).mp hs with ⟨h1, h2⟩ | ⟨h1, h2⟩
          · exact div_pos (by exact_mod_cast h1) (by exact_mod_cast h2)
          · exact div_pos_of_neg_of_neg (by exact_mod_cast h1) (by exact_mod_cast h2)
        rw [htr, if_pos hpos.le]
        symm
        rw [Int.ceil_eq_iff]
        push_cast
        constructor
        · have hfl := Int.floor_le ((b : ℚ) / (b2 : ℚ))
          have hne : ((⌊(b : ℚ) / (b2 : ℚ)⌋ : Int) : ℚ) ≠ (b : ℚ) / (b2 : ℚ) := by
            intro heq
            apply hd
            refine ⟨⌊(b : ℚ) / (b2 : ℚ)⌋, ?_⟩
            have h2 : (b : ℚ) = (b2 : ℚ) * ((⌊(b : ℚ) / (b2 : ℚ)⌋ : Int) : ℚ) := by
              rw [heq]
              field_simp
            exact_mod_cast h2
          have := lt_of_le_of_ne hfl hne
          linarith
        · exact (Int.lt_floor_add_one _).le
      · simp only [hs, if_false]
        have hneg : ¬ (0 : ℚ) ≤ (b : ℚ) / (b2 : ℚ) := by
          rw [not_le]
          have hns := mt (Big.Sign_eq_iff_same_sign b b2 hb h).mpr hs
          rcases lt_or_gt_of_ne hb with h1 | h1 <;> rcases lt_or_gt_of_ne h with h2 | h2
          · exact absurd (Or.inr ⟨h1, h2⟩) hns
          · exact div_neg_of_neg_of_pos (by exact_mod_cast h1) (by exact_mod_cast h2)
          · exact div_neg_of_pos_of_neg (by exact_mod_cast h1) (by exact_mod_cast h2)
          · exact absurd (Or.inl ⟨h1, h2⟩) hns
        rw [htr, if_neg hneg]
  · intro hs
    rw [BigInt.Quo, BigInt.quo, BigInt.Quo, BigInt.quo, quoCeiling_eval b b2 h,
      quoUp_eval b b2 h]
    simp [hs]
  · intro hs
    rw [BigInt.Quo, BigInt.quo, BigInt.Quo, BigInt.quo, quoCeiling_eval b b2 h,
      quoDown_eval b b2 h]
    simp [hs]

theorem BigInt_Quo_RoundCeiling_witness :
    (BigInt.Quo ⟨some (-1234)⟩ ⟨some 10⟩ .RoundCeiling
        = some ⟨some ⌈((-1234 : Int) : ℚ) / ((10 : Int) : ℚ)⌉⟩ ∧
      (Big.Sign (-1234) = Big.Sign 10 →
        BigInt.Quo ⟨some (-1234)⟩ ⟨some 10⟩ .RoundCeiling
          = BigInt.Quo ⟨some (-1234)⟩ ⟨some 10⟩ .RoundUp) ∧
      (Big.Sign (-1234) ≠ Big.Sign 10 →
        BigInt.Quo ⟨some (-1234)⟩ ⟨some 10⟩ .RoundCeiling
          = BigInt.Quo ⟨some (-1234)⟩ ⟨some 10⟩ .RoundDown)) ∧
    BigInt.Quo ⟨some 1234⟩ ⟨some 10⟩ .RoundCeiling = some ⟨some 124⟩ ∧
    BigInt.Quo ⟨some (-1234)⟩ ⟨some 10⟩ .RoundCeiling = some ⟨some (-123)⟩ ∧
    BigInt.Quo ⟨some (-1234)⟩ ⟨some 10000⟩ .RoundCeiling = some ⟨some 0⟩ ∧
    BigInt.Quo ⟨some (-5)⟩ ⟨some (-2)⟩ .RoundCeiling = some ⟨some 3⟩ ∧
    BigInt.Quo ⟨some 5⟩ ⟨some (-2)⟩ .RoundCeiling = some ⟨some (-2)⟩ :=
  ⟨BigInt_Quo_RoundCeiling (-1234) 10 (by decide), by decide, by decide, by decide, by decide,
    by decide⟩

/-! ## The most significant bit -/

/-- Claim C27: for every integer `x > 0` (whose bit length fits Go's `int`),
`MostSignificantBit(x)` returns `m` with `2^m ≤ x < 2^(m+1)`; it aborts for
every `x < 0`; and `MostSignificantBit(0) = 0`. -/
theorem MostSignificantBit_bounds (x : Int)
    (hb : ((Big.BitLen x : Nat) : Int) ≤ 9223372036854775807) :
    (0 < x → ∃ (m : Nat) (x' : Int), MostSignificantBit x = some ((m : Int), x') ∧
      (2 : Int) ^ m ≤ x ∧ x < 2 ^ (m + 1)) ∧
    (x < 0 → MostSignificantBit x = none) ∧
    MostSignificantBit 0 = some (0, 0) := by
  refine ⟨?_, ?_, by decide⟩
  · intro hx
    obtain ⟨n, rfl⟩ := Int.eq_ofNat_of_zero_le hx.le
    have hn : 0 < n := by exact_mod_cast hx
    rw [BitLen_eq_size] at hb
    have hsz : Nat.size n ≤ 18446744073709551616 := by
      simp only [Int.natAbs_ofNat] at hb
      omega
    have hpos : 0 < Nat.size n := Nat.size_pos.mpr hn
    refine ⟨Nat.size n - 1, 0, MostSignificantBit_pos n hn hsz, ?_, ?_⟩
    · have : 2 ^ (Nat.size n - 1) ≤ n := Nat.lt_size.mp (by omega)
      exact_mod_cast this
    · have h1 : n < 2 ^ Nat.size n := Nat.lt_size_self n
      have h2 : Nat.size n - 1 + 1 = Nat.size n := by omega
      rw [h2]
      exact_mod_cast h1
  · intro hx
    have : Big.Sign x < 0 := (Big.Sign_neg_iff x).mpr hx
    simp [MostSignificantBit, this]

set_option maxRecDepth 20000 in
theorem MostSignificantBit_bounds_witness :
    ((0 < (5 : Int) → ∃ (m : Nat) (x' : Int), MostSignificantBit 5 = some ((m : Int), x') ∧
        (2 : Int) ^ m ≤ 5 ∧ (5 : Int) < 2 ^ (m + 1)) ∧
      ((5 : Int) < 0 → MostSignificantBit 5 = none) ∧
      MostSignificantBit 0 = some (0, 0)) ∧
    (MostSignificantBit 5).map Prod.fst = some 2 ∧
    (MostSignificantBit 1).map Prod.fst = some 0 ∧
    (MostSignificantBit 2).map Prod.fst = some 1 ∧
    (MostSignificantBit 3).map Prod.fst = some 1 ∧
    (MostSignificantBit (2 ^ 255)).map Prod.fst = some 255 ∧
    MostSignificantBit (-1) = none :=
  ⟨MostSignificantBit_bounds 5 (by decide), by decide, by decide, by decide, by decide,
    by decide, by decide⟩

/-! ## Nil integers and the exponent `MinInt64` -/

/-- Two Decimals of equal precision whose integers are nil compare as 0: the
two integers are the same pointer and are not read.  At different precisions
`rescalePair` multiplies a nil integer, and against a non-nil integer `Cmp`
reads the nil one: both panic. -/
theorem Cmp_nil_nil (p : Int) :
    Decimal.Cmp ⟨none, p⟩ ⟨none, p⟩ = some 0 ∧
    Decimal.Equal ⟨none, p⟩ ⟨none, p⟩ = some true ∧
    Decimal.Cmp ⟨none, 0⟩ ⟨none, 1⟩ = none ∧
    Decimal.Cmp ⟨none, 0⟩ ⟨some 0, 0⟩ = none ∧
    Decimal.Cmp ⟨some 0, 0⟩ ⟨none, 0⟩ = none := by
  refine ⟨?_, ?_, by decide, by decide, by decide⟩
  · simp [Decimal.Cmp, Decimal.rescalePair, Decimal.RescaleDown, Decimal.Rescale]
  · simp [Decimal.Equal, Decimal.Cmp, Decimal.rescalePair, Decimal.RescaleDown,
      Decimal.Rescale]

/-- With `root = MinInt64 + 1` and a precision of at least 1 the first round of
the Newton loop calls `Power(MinInt64)`, which calls itself without end: the
run ends in stack exhaustion, which the deferred `recover` does not catch, so
`ApproxRoot` returns nothing.  At precision 0 the loop does not run and the
result is 1; a panic inside the loop, as at precision 129, is recovered. -/
theorem ApproxRoot_MinInt64_succ :
    Decimal.ApproxRoot ⟨some 4, 1⟩ (-9223372036854775807) = none ∧
    Decimal.ApproxRoot ⟨some (-4), 1⟩ (-9223372036854775807) = none ∧
    Decimal.ApproxRoot ⟨some 4, 0⟩ (-9223372036854775807) = some (.ok ⟨some 1, 0⟩) ∧
    Decimal.ApproxRoot ⟨some 4, 129⟩ (-9223372036854775807) = some (.error .recovered) ∧
    Decimal.ApproxRoot ⟨none, 0⟩ 2 = some (.error .recovered) := by
  decide

/-! ## Operands outside the precision range -/

/-- Claim C8, counterexample: `NewWithPrec(1, -1)` returns a Decimal of
precision -1, and rescaling it to 128 digits (`-1 ≤ 128 ≤ 128`) panics: the
index 129 is outside `precisionMultipliers`.  The zero value of the type,
whose integer is nil, panics in `Mul` when it is rescaled from 0 to 1. -/
theorem Rescale_raise_panics_from_negative_precision :
    Decimal.NewWithPrec 1 (-1) = some ⟨some 1, -1⟩ ∧
    Decimal.Rescale ⟨some 1, -1⟩ 128 .RoundDown = none ∧
    Decimal.Rescale ⟨some 1, -1⟩ 128 .RoundUnnecessary = none ∧
    Decimal.Rescale ⟨none, 0⟩ 1 .RoundDown = none := by
  decide

set_option maxRecDepth 20000 in
/-- Claim C10, counterexample: `NewWithPrec(1, -1)` returns a Decimal of
precision -1, and multiplying it by itself panics in `round`: the index -1 is
outside `precisionMultipliers`.  So does the Decimal of precision 129 that
`Rescale` returns from 0.1 (index 129), and the zero value of the type, whose
integer is nil. -/
theorem Mul_panics_on_negative_precision :
    Decimal.NewWithPrec 1 (-1) = some ⟨some 1, -1⟩ ∧
    Decimal.Mul ⟨some 1, -1⟩ ⟨some 1, -1⟩ .RoundDown = none ∧
    Decimal.Mul ⟨some 1, -1⟩ ⟨some 1, -1⟩ .RoundUp = none ∧
    Decimal.Rescale ⟨some 1, 1⟩ 129 .RoundDown = some ⟨some (10 ^ 128), 129⟩ ∧
    Decimal.Mul ⟨some (10 ^ 128), 129⟩ ⟨some (10 ^ 128), 129⟩ .RoundDown = none ∧
    Decimal.Mul ⟨none, 0⟩ ⟨some 1, 0⟩ .RoundDown = none := by
  decide

set_option maxRecDepth 20000 in
/-- Claim C11, counterexample: `NewWithPrec(1, -1)` returns a non-zero Decimal
of precision -1, and `QuoDown` of it by itself panics: the index -1 is outside
`precisionMultipliers`.  So does the non-zero Decimal of precision 129 that
`Rescale` returns from 0.1 (index 129), and the zero value of the type, whose
integer is nil. -/
theorem QuoDown_panics_on_negative_precision :
    Decimal.NewWithPrec 1 (-1) = some ⟨some 1, -1⟩ ∧
    Decimal.QuoDown ⟨some 1, -1⟩ ⟨some 1, -1⟩ = none ∧
    Decimal.Rescale ⟨some 1, 1⟩ 129 .RoundDown = some ⟨some (10 ^ 128), 129⟩ ∧
    Decimal.QuoDown ⟨some (10 ^ 128), 129⟩ ⟨some (10 ^ 128), 129⟩ = none ∧
    Decimal.QuoDown ⟨none, 0⟩ ⟨some 1, 0⟩ = none := by
  decide

set_option maxRecDepth 20000 in
/-- Claim C17, counterexample: `NewWithPrec(1, -1)` returns a Decimal of
precision -1, and adding or subtracting a Decimal of precision 128 panics in
`rescalePair`, for both widths: the index 129 is outside
`precisionMultipliers`.  So does the Decimal of precision 129 that `Rescale`
returns from 0.1, added to an integer, and the zero value of the type, whose
integer is nil. -/
theorem UnsignedAdd_panics_on_negative_precision :
    Decimal.NewWithPrec 1 (-1) = some ⟨some 1, -1⟩ ∧
    Decimal.NewWithPrec 1 128 = some ⟨some 1, 128⟩ ∧
    Decimal.UnsignedAdd ⟨some 1, -1⟩ ⟨some 1, 128⟩ Uint256BitLen = none ∧
    Decimal.UnsignedSub ⟨some 1, -1⟩ ⟨some 1, 128⟩ Uint256BitLen = none ∧
    Decimal.UnsignedAdd ⟨some 1, -1⟩ ⟨some 1, 128⟩ Uint128BitLen = none ∧
    Decimal.UnsignedSub ⟨some 1, -1⟩ ⟨some 1, 128⟩ Uint128BitLen = none ∧
    Decimal.Add ⟨some 1, -1⟩ ⟨some 1, 128⟩ = none ∧
    Decimal.Rescale ⟨some 1, 1⟩ 129 .RoundDown = some ⟨some (10 ^ 128), 129⟩ ∧
    Decimal.UnsignedAdd ⟨some (10 ^ 128), 129⟩ ⟨some 1, 0⟩ Uint256BitLen = none ∧
    Decimal.UnsignedAdd ⟨none, 0⟩ ⟨some 1, 0⟩ Uint256BitLen = none ∧
    Decimal.UnsignedSub ⟨none, 0⟩ ⟨some 1, 0⟩ Uint256BitLen = none := by
  decide

/-! ## The negative zero of `GobDecode` -/

/-! The stored form agrees with the integers on every value Go arithmetic
returns. -/

theorem Big.Raw.toInt_ofInt (x : Int) : Big.Raw.toInt (Big.Raw.ofInt x) = x := by
  unfold Big.Raw.toInt Big.Raw.ofInt
  by_cases h : x < 0
  · simp only [h, decide_True, if_true]
    omega
  · simp only [h, decide_False, Bool.false_eq_true, if_false]
    omega

theorem Big.Raw.Sign_ofInt (x : Int) : Big.Raw.Sign (Big.Raw.ofInt x) = Big.Sign x := by
  unfold Big.Raw.Sign Big.Raw.ofInt Big.Sign
  by_cases h : x < 0
  · have h2 : ¬ x.natAbs = 0 := by omega
    simp [h, h2]
  · by_cases h3 : x = 0
    · simp [h3]
    · have h2 : ¬ x.natAbs = 0 := by omega
      simp [h, h2, h3]

theorem Big.Raw.Neg_ofInt (x : Int) : Big.Raw.Neg (Big.Raw.ofInt x) = Big.Raw.ofInt (-x) := by
  unfold Big.Raw.Neg Big.Raw.ofInt
  rcases lt_trichotomy x 0 with h | h | h
  · have h1 : ¬ (-x < 0) := by omega
    have h2 : x.natAbs > 0 := by omega
    simp [h, h1, h2]
  · subst h
    simp
  · have h1 : ¬ x < 0 := by omega
    have h2 : -x < 0 := by omega
    have h3 : x.natAbs > 0 := by omega
    simp [h1, h2, h3]

theorem Big.Raw.String_ofInt (x : Int) : Big.Raw.String (Big.Raw.ofInt x) = Big.String x := by
  unfold Big.Raw.String Big.Raw.ofInt Big.String
  by_cases h : x < 0
  · have h2 : ¬ x.natAbs = 0 := by omega
    simp [h, h2]
  · by_cases h3 : x = 0
    · subst h3
      simp [Big.natString]
    · have h2 : ¬ x.natAbs = 0 := by omega
      simp [h, h2]

theorem Big.Raw.Cmp_ofInt (x y : Int) :
    Big.Raw.Cmp (Big.Raw.ofInt x) (Big.Raw.ofInt y) = Big.Cmp x y := by
  unfold Big.Raw.Cmp Big.Raw.ofInt Big.Raw.natCmp Big.Cmp
  by_cases hx : x < 0 <;> by_cases hy : y < 0 <;>
    simp only [hx, hy, decide_True, decide_False, if_true, if_false, Bool.false_eq_true,
      Bool.true_eq_false, eq_self_iff_true] <;>
    split_ifs <;> omega

theorem RawDecimal.toDecimal_ofDecimal (d : Decimal) :
    RawDecimal.toDecimal (RawDecimal.ofDecimal d) = d := by
  cases d with
  | mk i prec =>
    cases i with
    | none => rfl
    | some x => simp [RawDecimal.toDecimal, RawDecimal.ofDecimal, Big.Raw.toInt_ofInt]

/-- The text (`String`) of a Decimal whose integer Go arithmetic returned. -/
theorem RawDecimal.String_ofDecimal (d : Decimal) :
    RawDecimal.String (RawDecimal.ofDecimal d) = Decimal.String d := by
  cases d with
  | mk i prec =>
    cases i with
    | none => rfl
    | some x =>
      simp only [RawDecimal.String, RawDecimal.ofDecimal, Option.map_some', Decimal.String,
        Big.Raw.Sign_ofInt, Big.Sign_neg_iff, Big.Raw.String_ofInt]
      by_cases hp : prec = 0
      · simp [hp]
      · by_cases hx : x < 0
        · simp only [hp, if_false, hx, decide_True, if_true, Big.Raw.Neg_ofInt,
            Big.Raw.String_ofInt]
        · simp only [hp, if_false, hx, decide_False, Bool.false_eq_true,
            Big.Raw.String_ofInt]

theorem RawDecimal.Rescale_ofDecimal (d : Decimal) (prec : Int) (mode : RoundingMode) :
    RawDecimal.Rescale (RawDecimal.ofDecimal d) prec mode
      = (Decimal.Rescale d prec mode).map RawDecimal.ofDecimal := by
  unfold RawDecimal.Rescale
  rw [RawDecimal.toDecimal_ofDecimal]
  by_cases h : d.prec = prec
  · have h2 : (RawDecimal.ofDecimal d).prec = prec := h
    simp [h2, Decimal.Rescale, h]
  · have h2 : ¬ (RawDecimal.ofDecimal d).prec = prec := h
    simp [h2]

/-- Comparison (`Cmp`) of Decimals whose integers Go arithmetic returned. -/
theorem RawDecimal.Cmp_ofDecimal (a b : Decimal) :
    RawDecimal.Cmp (RawDecimal.ofDecimal a) (RawDecimal.ofDecimal b) = Decimal.Cmp a b := by
  have hp1 : (RawDecimal.ofDecimal a).prec = a.prec := rfl
  have hp2 : (RawDecimal.ofDecimal b).prec = b.prec := rfl
  simp only [RawDecimal.Cmp, RawDecimal.rescalePair, RawDecimal.RescaleDown,
    RawDecimal.Rescale_ofDecimal, Decimal.Cmp, Decimal.rescalePair, Decimal.RescaleDown, hp1,
    hp2]
  cases h1 : Decimal.Rescale a (if a.prec > b.prec then a.prec else b.prec) .RoundDown with
  | none => simp
  | some d1 =>
    cases h2 : Decimal.Rescale b (if a.prec > b.prec then a.prec else b.prec) .RoundDown with
    | none => simp
    | some d2 =>
      cases d1 with
      | mk i1 p1 =>
        cases d2 with
        | mk i2 p2 =>
          cases i1 <;> cases i2 <;>
            simp [RawDecimal.ofDecimal, Big.Raw.Cmp_ofInt]

/-- Stripping (`StripTrailingZeros`) of a Decimal whose integer Go arithmetic
returned. -/
theorem RawDecimal.StripTrailingZeros_ofDecimal (d : Decimal) :
    RawDecimal.StripTrailingZeros (RawDecimal.ofDecimal d)
      = (Decimal.StripTrailingZeros d).map RawDecimal.ofDecimal := by
  have hp : (RawDecimal.ofDecimal d).prec = d.prec := rfl
  unfold RawDecimal.StripTrailingZeros Decimal.StripTrailingZeros
  rw [RawDecimal.String_ofDecimal, hp]
  by_cases h0 : d.prec = 0
  · simp [h0]
  · simp only [h0, if_false]
    cases hs : Decimal.String d with
    | none => rfl
    | some str =>
      simp only [Option.some_bind]
      cases hsp : Split '.' str with
      | nil => rfl
      | cons s0 rest =>
        cases rest with
        | nil => rfl
        | cons s1 rest2 =>
          simp only []
          cases Decimal.lastNotZero s1 s1.length with
          | none => rfl
          | some i =>
            simp only []
            split_ifs <;> rfl

/-- The integer `UnmarshalBinary` leaves stands for the integer of
`Decimal.UnmarshalBinary`, with the same error. -/
theorem RawDecimal.UnmarshalBinary_toDecimal (d : RawDecimal) (data : List Nat) :
    ((RawDecimal.UnmarshalBinary d data).1.toDecimal, (RawDecimal.UnmarshalBinary d data).2)
      = Decimal.UnmarshalBinary d.toDecimal data := by
  unfold RawDecimal.UnmarshalBinary Decimal.UnmarshalBinary
  match data with
  | [] => simp [RawDecimal.toDecimal, Big.Raw.toInt]
  | [_] => rfl
  | [_, _] => rfl
  | [_, _, _] => rfl
  | b0 :: b1 :: b2 :: b3 :: rest =>
    simp only []
    cases rest with
    | nil => simp [Big.Raw.GobDecode, Big.GobDecode, RawDecimal.toDecimal, Big.Raw.toInt]
    | cons b bs =>
      by_cases hv : b / 2 ≠ 1
      · simp [Big.Raw.GobDecode, Big.GobDecode, hv, RawDecimal.toDecimal, Big.Raw.toInt]
      · by_cases hs : b % 2 ≠ 0
        · simp [Big.Raw.GobDecode, Big.GobDecode, hv, hs, RawDecimal.toDecimal, Big.Raw.toInt]
        · simp [Big.Raw.GobDecode, Big.GobDecode, hv, hs, RawDecimal.toDecimal, Big.Raw.toInt]

/-- Away from the negative zero `StripTrailingZeros` and `Cmp` on the stored
form are those on the integers: for every Decimal `v / 10^p` with `p` in
[0,128] whose integer Go arithmetic returned, the result `r / 10^q` compares
as 0 with the operand, `q ≤ p` is the smallest precision that represents it,
and precision 0 is returned unchanged. -/
theorem RawDecimal.StripTrailingZeros_of_arithmetic (v p : Int) (h0 : 0 ≤ p) (h1 : p ≤ 128) :
    ∃ r q : Int,
      RawDecimal.StripTrailingZeros (RawDecimal.ofDecimal ⟨some v, p⟩)
        = some (RawDecimal.ofDecimal ⟨some r, q⟩) ∧
      0 ≤ q ∧ q ≤ p ∧ r * 10 ^ (p - q).toNat = v ∧
      RawDecimal.Cmp (RawDecimal.ofDecimal ⟨some r, q⟩) (RawDecimal.ofDecimal ⟨some v, p⟩)
        = some 0 ∧
      (0 < q → ¬ (10 : Int) ∣ r) ∧
      (∀ r' q' : Int, 0 ≤ q' → q' ≤ p → r' * 10 ^ (p - q').toNat = v → q ≤ q') ∧
      (p = 0 → r = v ∧ q = 0) := by
  obtain ⟨r, q, hres, hq0, hqp, hv, hcmp, hten, hmin, _, hzero⟩ :=
    StripTrailingZeros_minimal v p h0 h1
  refine ⟨r, q, ?_, hq0, hqp, hv, ?_, hten, hmin, hzero⟩
  · rw [RawDecimal.StripTrailingZeros_ofDecimal, hres]
    rfl
  · rw [RawDecimal.Cmp_ofDecimal, hcmp]

/-- Claim C19, evaluation at the failing input: `UnmarshalBinary` of the bytes
`0 0 0 2 3` returns no error and leaves a Decimal of precision 2 whose integer
is a zero with the sign flag set; it is zero (`IsZero`), its text is `0.00`,
`StripTrailingZeros` returns the plain zero of precision 0, and `Cmp` of that
result with the operand is 1, not 0 (and `Equal` is false); `Cmp` of the
operand with the zero of the package is -1. -/
theorem StripTrailingZeros_Cmp_negative_zero :
    RawDecimal.UnmarshalBinary ⟨none, 0⟩ [0, 0, 0, 2, 3] = (⟨some ⟨true, 0⟩, 2⟩, none) ∧
    RawDecimal.IsZero ⟨some ⟨true, 0⟩, 2⟩ = some true ∧
    RawDecimal.String ⟨some ⟨true, 0⟩, 2⟩ = some ['0', '.', '0', '0'] ∧
    RawDecimal.StripTrailingZeros ⟨some ⟨true, 0⟩, 2⟩ = some ⟨some ⟨false, 0⟩, 0⟩ ∧
    RawDecimal.Cmp ⟨some ⟨false, 0⟩, 0⟩ ⟨some ⟨true, 0⟩, 2⟩ = some 1 ∧
    RawDecimal.Equal ⟨some ⟨false, 0⟩, 0⟩ ⟨some ⟨true, 0⟩, 2⟩ = some false ∧
    RawDecimal.Cmp ⟨some ⟨true, 0⟩, 2⟩ (RawDecimal.ofDecimal ⟨some 0, 0⟩) = some (-1) := by
  decide

end Utils
